import Mathlib

/-!
# Host-side tiling engine and accelerator protocol of `pcie_mamutl`

A shallow embedding of `src/host_code/fpga_offload.c`, `src/host_code/utils.c` and
`src/host_code/channel_readwrite.c`.

* C `float` arrays are total maps `Nat → R` (`Buf R`) over a commutative ring `R`
  ("exact arithmetic"); a pointer `p + k` is the shifted map `offset p k`.
* C `int` loop counters and dimensions are natural numbers.  Every subtraction of the
  source (`num_row - i`, `num_col - j`, `SIZE - (num_col - j)`) is evaluated under a loop
  guard that makes it non-negative, so truncated subtraction agrees with it.
* A `for` loop is `forLoop`, structurally recursive on a fuel that is always sufficient.
* Uninitialised storage (the stack arrays `fpga_matrix`, `fpga_vector`, fresh `malloc`
  blocks) is an arbitrary initial buffer passed as an argument.
* The wall-clock bookkeeping (`clock_gettime`, `timespec_sub`) of the offload functions
  does not influence any buffer and is left out of their embeddings.
* Signed C integers (`int`, `long`, `time_t`) are mathematical integers: signed overflow has
  no defined meaning in C.  Arithmetic on `uint32_t` wraps, and is written with an explicit
  `% 2 ^ 32`.
* The memory-access logs of the tiling engine (`fpga_large_matvec_naive_accesses`,
  `fpga_large_matmul_naive2_accesses`) check every computation of type `int` (`checkInt`,
  `forLoopInt`): a run in which a value leaves the range of `int` has no defined result,
  `none`.
* The `float` values compared by the test harness are rational numbers; the conversion of
  such a value to an integer type truncates toward zero (`truncToInt`).
* The `double` expressions of `timespec_div` are IEEE 754 binary64 values (`Dbl`), every
  operation rounded to the nearest value, ties to even.
-/

set_option linter.unusedSectionVars false
set_option linter.unusedVariables false

namespace PcieMamutl

/-! ## Memory and loops -/

/-- A C array of numbers, indexed from 0. -/
abbrev Buf (R : Type) := Nat → R

/-- The assignment `b[k] = v`. -/
def store {R : Type} (b : Buf R) (k : Nat) (v : R) : Buf R :=
  fun x => if x = k then v else b x

/-- The pointer `b + k`. -/
def offset {R : Type} (b : Buf R) (k : Nat) : Buf R :=
  fun x => b (k + x)

/-- The effect on `b` of a callee that was handed the pointer `b + k` and left `r` behind it. -/
def writeBack {R : Type} (b : Buf R) (k : Nat) (r : Buf R) : Buf R :=
  fun x => if k ≤ x then r (x - k) else b x

/-- The call `memcpy(dst + d, src + s, len * sizeof(float))` on two distinct arrays. -/
def memcpy {R : Type} (dst : Buf R) (d : Nat) (src : Buf R) (s : Nat) (len : Nat) : Buf R :=
  fun x => if d ≤ x ∧ x < d + len then src (s + (x - d)) else dst x

/-- Worker of `forLoop`: at most `fuel` iterations of the loop, the counter starting at `x`. -/
def forLoopAux {σ : Type} (n stride : Nat) (body : Nat → σ → σ) : Nat → Nat → σ → σ
  | 0, _, s => s
  | fuel + 1, x, s =>
    if x < n then forLoopAux n stride body fuel (x + stride) (body x s) else s

/-- The loop `for (x = 0; x < n; x += stride) body`; for `stride ≥ 1` the fuel `n` never
runs out (`forLoop_eq_foldl`). -/
def forLoop {σ : Type} (n stride : Nat) (body : Nat → σ → σ) (s : σ) : σ :=
  forLoopAux n stride body n 0 s

/-- `#define SIZE 64` -/
def SIZE : Nat := 64

/-- Number of iterations of `for (x = 0; x < n; x += SIZE)`. -/
def numTiles (n : Nat) : Nat := (n + SIZE - 1) / SIZE

/-! ## Reference code (`utils.c`) -/

section Reference

variable {R : Type} [CommRing R]

/-- `mat_transpose_naive(in_matrix, out_matrix, num_row, num_col)`; returns `out_matrix`. -/
def mat_transpose_naive (in_matrix out_matrix : Buf R) (num_row num_col : Nat) : Buf R :=
  forLoop num_row 1 (fun i o =>
    forLoop num_col 1 (fun j o => store o (j * num_row + i) (in_matrix (i * num_col + j))) o)
    out_matrix

/-- The indices of `out_matrix` that the assignments of `mat_transpose_naive` store to, in
the order of the stores. -/
def mat_transpose_naive_writes (num_row num_col : Nat) : List Nat :=
  forLoop num_row 1 (fun i w => forLoop num_col 1 (fun j w => w ++ [j * num_row + i]) w) []

/-- `cpu_matvec(in_matrix, in_vector, out_vector, num_row, num_col)`; returns `out_vector`. -/
def cpu_matvec (in_matrix in_vector out_vector : Buf R) (num_row num_col : Nat) : Buf R :=
  let out_vector := forLoop num_row 1 (fun p o => store o p 0) out_vector
  forLoop num_row 1 (fun i o =>
    forLoop num_col 1 (fun j o =>
      store o i (o i + in_matrix (num_col * i + j) * in_vector j)) o)
    out_vector

/-- `cpu_matmul(in_matrix1, in_matrix2, out_matrix, num_rowA, num_colA, num_colB)`; returns
`out_matrix`. -/
def cpu_matmul (in_matrix1 in_matrix2 out_matrix : Buf R) (num_rowA num_colA num_colB : Nat) :
    Buf R :=
  let out_matrix := forLoop (num_rowA * num_colB) 1 (fun p o => store o p 0) out_matrix
  forLoop num_rowA 1 (fun i o =>
    forLoop num_colB 1 (fun j o =>
      forLoop num_colA 1 (fun k o =>
        store o (i * num_colB + j)
          (o (i * num_colB + j) + in_matrix1 (i * num_colA + k) * in_matrix2 (k * num_colB + j)))
        o) o)
    out_matrix

/-- `cpu_innerproduct(in_vector1, in_vector2, out, size)`; `out` is the value stored in
`*out` at the call, the result is the value stored there at the return. -/
def cpu_innerproduct (in_vector1 in_vector2 : Buf R) (out : R) (size : Nat) : R :=
  forLoop size 1 (fun i out => out + in_vector1 i * in_vector2 i) out

end Reference

/-! ## Tiling engine, vector path (`fpga_offload.c`, `fpga_large_matvec_naive`) -/

section Tiling

variable {R : Type} [CommRing R]

/-- One invocation `fpga_matvec(fpga_matrix, fpga_vector, out)` made by the tiling engine:
the tile start `(i, j)`, the two arrays handed over and the array `out` it left. -/
structure MatvecCall (R : Type) where
  i : Nat
  j : Nat
  matrix : Buf R
  vector : Buf R
  result : Buf R

/-- The variables of `fpga_large_matvec_naive`, and the calls of `fpga_matvec` made so far. -/
structure MatvecState (R : Type) where
  fpga_matrix : Buf R
  fpga_vector : Buf R
  out : Buf R
  output_buffer : Buf R
  out_vector : Buf R
  calls : List (MatvecCall R)

/-- Lines 357-370: the body of the loop over `m`, the copy of row `m` of the tile. -/
def copyTileRow (in_matrix : Buf R) (num_col i j m : Nat) (fpga_matrix : Buf R) : Buf R :=
  if num_col - j ≥ SIZE then
    memcpy fpga_matrix (SIZE * m) in_matrix (num_col * i + j + num_col * m) SIZE
  else
    let b := memcpy fpga_matrix (SIZE * m) in_matrix (num_col * i + j + num_col * m)
      (num_col - j)
    forLoop (SIZE - (num_col - j)) 1
      (fun k b => store b (SIZE * m + (num_col - j) + k) 0) b

/-- Lines 339-371: "memcpy for matrix tile" of the tile starting at row `i`, column `j`. -/
def fillMatrixTile (in_matrix : Buf R) (num_row num_col i j : Nat) (fpga_matrix : Buf R) :
    Buf R :=
  let num_row_in_tile := if num_row - i ≥ SIZE then SIZE else num_row - i
  let fpga_matrix :=
    if num_row - i ≥ SIZE then fpga_matrix
    else forLoop (SIZE * SIZE) 1 (fun k b => store b k 0) fpga_matrix
  forLoop num_row_in_tile 1 (copyTileRow in_matrix num_col i j) fpga_matrix

/-- Lines 373-386: "memcpy for vector tile" of the column tile starting at `j`. -/
def fillVectorTile (in_vector : Buf R) (num_col j : Nat) (fpga_vector : Buf R) : Buf R :=
  if num_col - j ≥ SIZE then
    memcpy fpga_vector 0 in_vector j SIZE
  else
    let b := memcpy fpga_vector 0 in_vector j (num_col - j)
    forLoop (SIZE - (num_col - j)) 1 (fun k b => store b ((num_col - j) + k) 0) b

/-- Lines 338-394: the body of the loop over `j`.  The parameter `mv` is the function that
`fpga_matvec` computes from the two arrays it is handed into the array `out`. -/
def matvecColumnStep (mv : Buf R → Buf R → Buf R) (in_matrix in_vector : Buf R)
    (num_row num_col i j : Nat) (s : MatvecState R) : MatvecState R :=
  let fpga_matrix := fillMatrixTile in_matrix num_row num_col i j s.fpga_matrix
  let fpga_vector := fillVectorTile in_vector num_col j s.fpga_vector
  let out := mv fpga_matrix fpga_vector
  let output_buffer := forLoop SIZE 1 (fun n b => store b n (b n + out n)) s.output_buffer
  { s with
    fpga_matrix := fpga_matrix
    fpga_vector := fpga_vector
    out := out
    output_buffer := output_buffer
    calls := s.calls ++ [⟨i, j, fpga_matrix, fpga_vector, out⟩] }

/-- Lines 333-334: `float out[SIZE] = {0.0f}; float output_buffer[SIZE] = {0.0f};`. -/
def matvecRowInit (s : MatvecState R) : MatvecState R :=
  { s with out := fun _ => 0, output_buffer := fun _ => 0 }

/-- Lines 398-403: the copy of the accumulator into `out_vector + i`. -/
def matvecRowFinish (num_row i : Nat) (s : MatvecState R) : MatvecState R :=
  { s with
    out_vector :=
      if num_row - i ≥ SIZE then memcpy s.out_vector i s.output_buffer 0 SIZE
      else memcpy s.out_vector i s.output_buffer 0 (num_row - i) }

/-- Lines 333-403: the body of the loop over `i`. -/
def matvecRowStep (mv : Buf R → Buf R → Buf R) (in_matrix in_vector : Buf R)
    (num_row num_col i : Nat) (s : MatvecState R) : MatvecState R :=
  matvecRowFinish num_row i
    (forLoop num_col SIZE (matvecColumnStep mv in_matrix in_vector num_row num_col i)
      (matvecRowInit s))

/-- `fpga_large_matvec_naive(in_matrix, in_vector, out_vector, num_row, num_col)`.
`fpga_matrix0` and `fpga_vector0` are the contents of the two uninitialised stack arrays. -/
def fpga_large_matvec_naive (mv : Buf R → Buf R → Buf R) (fpga_matrix0 fpga_vector0 : Buf R)
    (in_matrix in_vector out_vector : Buf R) (num_row num_col : Nat) : MatvecState R :=
  let out_vector := forLoop num_row 1 (fun p o => store o p 0) out_vector
  let s : MatvecState R :=
    { fpga_matrix := fpga_matrix0
      fpga_vector := fpga_vector0
      out := fun _ => 0
      output_buffer := fun _ => 0
      out_vector := out_vector
      calls := [] }
  let s := forLoop num_row SIZE (matvecRowStep mv in_matrix in_vector num_row num_col) s
  { s with
    fpga_matrix := forLoop (SIZE * SIZE) 1 (fun p b => store b p 0) s.fpga_matrix
    fpga_vector := forLoop SIZE 1 (fun p b => store b p 0) s.fpga_vector }

/-- The accelerator of the hardware design: the product of the `SIZE × SIZE` row-major
matrix `M` and the `SIZE`-vector `v`. -/
def exactMatvec (M v : Buf R) : Buf R :=
  fun r => ∑ c in Finset.range SIZE, M (r * SIZE + c) * v c

/-- The assumption "`fpga_matvec` returns the exact matrix-vector product of the tile pair". -/
def IsExactMatvec (mv : Buf R → Buf R → Buf R) : Prop :=
  ∀ M v r, r < SIZE → mv M v r = ∑ c in Finset.range SIZE, M (r * SIZE + c) * v c

/-! ## Tiling engine, matrix path, Strategy B (`fpga_large_matmul_naive2`) -/

/-- One invocation `fpga_matmul(fpga_matrix1, fpga_matrix2, out)` made by the tiling
engine: the tile triple `(i, j, k)`, the two arrays handed over and the array `out` it
left. -/
structure MatmulCall (R : Type) where
  i : Nat
  j : Nat
  k : Nat
  matrix1 : Buf R
  matrix2 : Buf R
  result : Buf R

/-- The variables of `fpga_large_matmul_naive2`, and the calls of `fpga_matmul` made so
far. -/
structure MatmulState (R : Type) where
  fpga_matrix1 : Buf R
  fpga_matrix2 : Buf R
  out : Buf R
  output_buffer : Buf R
  out_matrix : Buf R
  calls : List (MatmulCall R)

/-- Lines 478-484, 490-496 and 511-517: the extent of the tile starting at `x` in a
dimension of size `n`. -/
def tilesize (n x : Nat) : Nat := if n - x ≥ SIZE then SIZE else n - x

/-- Lines 503-535: the body of the loop over `k`.  The parameter `mm` is the function that
`fpga_matmul` computes from the two arrays it is handed into the array `out`. -/
def matmulChunkStep (mm : Buf R → Buf R → Buf R) (in_matrix1 in_matrix2 : Buf R)
    (num_colA num_colB i tilesize_i j tilesize_j k : Nat) (s : MatmulState R) :
    MatmulState R :=
  let z := forLoop (SIZE * SIZE) 1
    (fun p (b : Buf R × Buf R) => (store b.1 p 0, store b.2 p 0))
    (s.fpga_matrix1, s.fpga_matrix2)
  let tilesize_k := tilesize num_colA k
  let fpga_matrix1 := forLoop tilesize_i 1
    (fun p b => memcpy b (SIZE * p) in_matrix1 (num_colA * i + num_colA * p + k) tilesize_k)
    z.1
  let fpga_matrix2 := forLoop tilesize_k 1
    (fun p b => memcpy b (SIZE * p) in_matrix2 (num_colB * k + num_colB * p + j) tilesize_j)
    z.2
  let out := mm fpga_matrix1 fpga_matrix2
  let output_buffer :=
    forLoop (SIZE * SIZE) 1 (fun p b => store b p (b p + out p)) s.output_buffer
  { s with
    fpga_matrix1 := fpga_matrix1
    fpga_matrix2 := fpga_matrix2
    out := out
    output_buffer := output_buffer
    calls := s.calls ++ [⟨i, j, k, fpga_matrix1, fpga_matrix2, out⟩] }

/-- Lines 498-499: `float out[SIZE*SIZE] = {0.0f}; float output_buffer[SIZE*SIZE] = {0.0f};`. -/
def matmulTileInit (s : MatmulState R) : MatmulState R :=
  { s with out := fun _ => 0, output_buffer := fun _ => 0 }

/-- Lines 539-542: "save result to output". -/
def matmulTileFinish (num_colB i tilesize_i j tilesize_j : Nat) (s : MatmulState R) :
    MatmulState R :=
  { s with
    out_matrix := forLoop tilesize_i 1
      (fun p o =>
        memcpy o (num_colB * i + num_colB * p + j) s.output_buffer (SIZE * p) tilesize_j)
      s.out_matrix }

/-- Lines 489-542: the body of the loop over `j`. -/
def matmulTileStep (mm : Buf R → Buf R → Buf R) (in_matrix1 in_matrix2 : Buf R)
    (num_colA num_colB i tilesize_i j : Nat) (s : MatmulState R) : MatmulState R :=
  let tilesize_j := tilesize num_colB j
  matmulTileFinish num_colB i tilesize_i j tilesize_j
    (forLoop num_colA SIZE
      (matmulChunkStep mm in_matrix1 in_matrix2 num_colA num_colB i tilesize_i j tilesize_j)
      (matmulTileInit s))

/-- Lines 477-543: the body of the loop over `i`. -/
def matmulRowStep (mm : Buf R → Buf R → Buf R) (in_matrix1 in_matrix2 : Buf R)
    (num_rowA num_colA num_colB i : Nat) (s : MatmulState R) : MatmulState R :=
  let tilesize_i := tilesize num_rowA i
  forLoop num_colB SIZE
    (matmulTileStep mm in_matrix1 in_matrix2 num_colA num_colB i tilesize_i) s

/-- `fpga_large_matmul_naive2(in_matrix1, in_matrix2, out_matrix, num_rowA, num_colA,
num_colB)`.  `fpga_matrix1_0` and `fpga_matrix2_0` are the contents of the two
uninitialised stack arrays. -/
def fpga_large_matmul_naive2 (mm : Buf R → Buf R → Buf R)
    (fpga_matrix1_0 fpga_matrix2_0 : Buf R) (in_matrix1 in_matrix2 out_matrix : Buf R)
    (num_rowA num_colA num_colB : Nat) : MatmulState R :=
  forLoop num_rowA SIZE (matmulRowStep mm in_matrix1 in_matrix2 num_rowA num_colA num_colB)
    { fpga_matrix1 := fpga_matrix1_0
      fpga_matrix2 := fpga_matrix2_0
      out := fun _ => 0
      output_buffer := fun _ => 0
      out_matrix := out_matrix
      calls := [] }

/-- The buffers of `fpga_large_matmul_naive` when it returns, and for each invocation of
`fpga_large_matvec_naive` the accelerator calls that invocation made. -/
structure MatmulNaiveResult (R : Type) where
  in_matrix2_t : Buf R
  out_matrix_t : Buf R
  out_matrix : Buf R
  invocations : List (List (MatvecCall R))

/-- Lines 443-445: the body of the loop over `i`, one tiled matrix-vector product on the
pointers `in_matrix2_t + num_colA * i` and `out_matrix_t + num_rowA * i`.  `stack_matrix i`
and `stack_vector i` are the uninitialised stack arrays of that invocation. -/
def matmulNaiveStep (mv : Buf R → Buf R → Buf R) (stack_matrix stack_vector : Nat → Buf R)
    (in_matrix1 in_matrix2_t : Buf R) (num_rowA num_colA i : Nat)
    (st : Buf R × List (List (MatvecCall R))) : Buf R × List (List (MatvecCall R)) :=
  let r := fpga_large_matvec_naive mv (stack_matrix i) (stack_vector i) in_matrix1
    (offset in_matrix2_t (num_colA * i)) (offset st.1 (num_rowA * i)) num_rowA num_colA
  (writeBack st.1 (num_rowA * i) r.out_vector, st.2 ++ [r.calls])

/-- `fpga_large_matmul_naive(in_matrix1, in_matrix2, out_matrix, num_rowA, num_colA,
num_colB)`.  `heap1` and `heap2` are the contents of the two fresh `malloc` blocks. -/
def fpga_large_matmul_naive (mv : Buf R → Buf R → Buf R)
    (stack_matrix stack_vector : Nat → Buf R) (heap1 heap2 : Buf R)
    (in_matrix1 in_matrix2 out_matrix : Buf R) (num_rowA num_colA num_colB : Nat) :
    MatmulNaiveResult R :=
  let in_matrix2_t := heap1
  let out_matrix_t := heap2
  let out_matrix_t := forLoop (num_rowA * num_colB) 1 (fun n o => store o n 0) out_matrix_t
  let in_matrix2_t := mat_transpose_naive in_matrix2 in_matrix2_t num_colA num_colB
  let st := forLoop num_colB 1
    (matmulNaiveStep mv stack_matrix stack_vector in_matrix1 in_matrix2_t num_rowA num_colA)
    (out_matrix_t, [])
  let out_matrix := mat_transpose_naive st.1 out_matrix num_colB num_rowA
  { in_matrix2_t := in_matrix2_t
    out_matrix_t := st.1
    out_matrix := out_matrix
    invocations := st.2 }

/-! ## Specification vocabulary for the tiling engine -/

/-- Loop invariant of `fpga_large_matmul_naive2` after the output tiles that precede the
tile `(T, U)` (tile indices, in loop order): every call so far belongs to one of those
tiles, and each element of those tiles holds the sum of the results of the calls made for
its own tile. -/
def MatmulAccumulated (num_rowA num_colB T U : Nat) (s : MatmulState R) : Prop :=
  (∀ c ∈ s.calls, ∃ a b, (a < T ∨ (a = T ∧ b < U)) ∧ c.i = a * SIZE ∧ c.j = b * SIZE) ∧
  ∀ a b p q, (a < T ∨ (a = T ∧ b < U)) → p < SIZE → q < SIZE →
    a * SIZE + p < num_rowA → b * SIZE + q < num_colB →
    s.out_matrix ((a * SIZE + p) * num_colB + (b * SIZE + q))
      = ((s.calls.filter (fun c => decide (c.i = a * SIZE ∧ c.j = b * SIZE))).map
          (fun c => c.result (p * SIZE + q))).sum

end Tiling

/-! ## Accelerator protocol (`fpga_offload.c`, `fpga_matvec` and `fpga_matmul`) -/

section Protocol

variable {R : Type} [CommRing R]

/-- `#define BRAM_ADDR 0x40000000` -/
def BRAM_ADDR : Nat := 0x40000000

/-- `#define IP_ADDR 0x43C00000` -/
def IP_ADDR : Nat := 0x43C00000

/-- The host-to-card channel device. -/
def H2C : String := "/dev/xdma0_h2c_0"

/-- The card-to-host channel device. -/
def C2H : String := "/dev/xdma0_c2h_0"

/-- What a transfer carries: an array of numbers, or the 32-bit control word. -/
inductive Payload (R : Type) where
  | floats (xs : List R)
  | word (w : Nat)

/-- One call of `write_to_channel` or `read_from_channel`, with its arguments. -/
inductive Transfer (R : Type) where
  | write (channelDevice : String) (addr transferSize : Nat) (data : Payload R)
  | read (channelDevice : String) (addr transferSize : Nat)

/-- A device behind the two channels: how a write changes its state, and what a read of a
control word or of an array of numbers returns. -/
structure Device (σ R : Type) where
  write : σ → String → Nat → Nat → Payload R → σ
  readWord : σ → String → Nat → Nat → Nat × σ
  readFloats : σ → String → Nat → Nat → List R × σ

/-- The device state together with the transfers issued so far. -/
structure Host (σ R : Type) where
  dev : σ
  trace : List (Transfer R)

/-- The first `n` numbers of an array, as sent over the channel. -/
def bufToList (n : Nat) (b : Buf R) : List R := (List.range n).map b

/-- `read_from_channel` clears its bounce buffer and copies all of it to the destination:
the destination receives `n` numbers, zero where the device delivered none. -/
def loadFloats (output : Buf R) (n : Nat) (data : List R) : Buf R :=
  fun k => if k < n then data.getD k 0 else output k

/-- `write_to_channel(channelDevice, addr, transferSize, data)`. -/
def write_to_channel {σ : Type} (D : Device σ R) (channelDevice : String)
    (addr transferSize : Nat) (data : Payload R) (h : Host σ R) : Host σ R :=
  { dev := D.write h.dev channelDevice addr transferSize data
    trace := h.trace ++ [Transfer.write channelDevice addr transferSize data] }

/-- `read_from_channel(channelDevice, addr, transferSize, &op_code)`; returns `op_code`. -/
def read_word_from_channel {σ : Type} (D : Device σ R) (channelDevice : String)
    (addr transferSize : Nat) (h : Host σ R) : Nat × Host σ R :=
  ((D.readWord h.dev channelDevice addr transferSize).1,
    { dev := (D.readWord h.dev channelDevice addr transferSize).2
      trace := h.trace ++ [Transfer.read channelDevice addr transferSize] })

/-- `read_from_channel(channelDevice, addr, transferSize, output)` for an array of
`transferSize / 4` numbers; returns `output`. -/
def read_floats_from_channel {σ : Type} (D : Device σ R) (channelDevice : String)
    (addr transferSize : Nat) (output : Buf R) (h : Host σ R) : Buf R × Host σ R :=
  (loadFloats output (transferSize / 4) (D.readFloats h.dev channelDevice addr transferSize).1,
    { dev := (D.readFloats h.dev channelDevice addr transferSize).2
      trace := h.trace ++ [Transfer.read channelDevice addr transferSize] })

/-- The loop `while (1) { read_from_channel(.., IP_ADDR, 4, &op_code); if (op_code != 0x5555)
break; }`; returns the last `op_code`, or `none` when `fuel` reads all returned `0x5555`. -/
def pollLoop {σ : Type} (D : Device σ R) : Nat → Host σ R → Option (Nat × Host σ R)
  | 0, _ => none
  | fuel + 1, h =>
    let r := read_word_from_channel D C2H IP_ADDR 4 h
    if r.1 ≠ 0x5555 then some r else pollLoop D fuel r.2

/-- `fpga_matvec(in_matrix, in_vector, out_vector)`; returns `out_vector`.  `fuel` bounds the
number of polls of each wait. -/
def fpga_matvec {σ : Type} (D : Device σ R) (fuel : Nat) (in_matrix in_vector out_vector : Buf R)
    (h : Host σ R) : Option (Buf R × Host σ R) :=
  let op_code : Nat := 0x5555
  let h := write_to_channel D H2C BRAM_ADDR (4 * SIZE) (Payload.floats (bufToList SIZE in_vector)) h
  let h := write_to_channel D H2C (BRAM_ADDR + 4 * SIZE) (4 * SIZE * SIZE)
    (Payload.floats (bufToList (SIZE * SIZE) in_matrix)) h
  let h := write_to_channel D H2C IP_ADDR 4 (Payload.word op_code) h
  match pollLoop D fuel h with
  | none => none
  | some r => some (read_floats_from_channel D C2H BRAM_ADDR (4 * SIZE) out_vector r.2)

/-- Lines 285-299: the body of the loop over `k` of `fpga_matmul`, on the variables
`op_code` and `out_matrix`. -/
def fpga_matmul_row {σ : Type} (D : Device σ R) (fuel : Nat) (in_matrix1 : Buf R) (k : Nat)
    (st : Option (Nat × Buf R × Host σ R)) : Option (Nat × Buf R × Host σ R) :=
  match st with
  | none => none
  | some (_, out_matrix, h) =>
    let h := write_to_channel D H2C BRAM_ADDR (4 * SIZE)
      (Payload.floats (bufToList SIZE (offset in_matrix1 (SIZE * k)))) h
    let op_code : Nat := 0x5555
    let h := write_to_channel D H2C IP_ADDR 4 (Payload.word op_code) h
    match pollLoop D fuel h with
    | none => none
    | some r =>
      let rd := read_floats_from_channel D C2H BRAM_ADDR (4 * SIZE)
        (offset out_matrix (SIZE * k)) r.2
      some (r.1, writeBack out_matrix (SIZE * k) rd.1, rd.2)

/-- `fpga_matmul(in_matrix1, in_matrix2, out_matrix)`; returns `out_matrix`.  `heap` is the
content of the fresh `malloc` block `in_matrix2_t`. -/
def fpga_matmul {σ : Type} (D : Device σ R) (fuel : Nat) (heap : Buf R)
    (in_matrix1 in_matrix2 out_matrix : Buf R) (h : Host σ R) : Option (Buf R × Host σ R) :=
  let op_code : Nat := 0x5555
  let in_matrix2_t := mat_transpose_naive in_matrix2 heap SIZE SIZE
  let h := write_to_channel D H2C (BRAM_ADDR + 4 * SIZE) (4 * SIZE * SIZE)
    (Payload.floats (bufToList (SIZE * SIZE) in_matrix2_t)) h
  (forLoop SIZE 1 (fpga_matmul_row D fuel in_matrix1) (some (op_code, out_matrix, h))).map
    (fun r => (r.2.1, r.2.2))

/-- The device state after `k` reads of the control word. -/
def afterPolls {σ : Type} (D : Device σ R) : Nat → σ → σ
  | 0, d => d
  | k + 1, d => afterPolls D k (D.readWord d C2H IP_ADDR 4).2

/-- The value that the `(k + 1)`-th consecutive read of the control word returns. -/
def controlRead {σ : Type} (D : Device σ R) (k : Nat) (d : σ) : Nat :=
  (D.readWord (afterPolls D k d) C2H IP_ADDR 4).1

/-- State of the memory-mapped accelerator: the numbers stored from `BRAM_ADDR` on (the
vector slot is `bram 0 .. SIZE - 1`, the matrix slot follows it), the number of polls that
will still read "busy", and the number of triggers received. -/
structure SlotState (R : Type) where
  bram : Buf R
  busy : Nat
  triggers : Nat

/-- An accelerator that on each trigger replaces the vector slot by `compute matrixSlot
vectorSlot`, leaves the matrix slot unchanged, reads back `0x5555` for `latency n` polls
after its `n`-th trigger and `doneCode` from then on. -/
def slotDevice (compute : Buf R → Buf R → Buf R) (latency : Nat → Nat) (doneCode : Nat) :
    Device (SlotState R) R where
  write := fun d _ addr _ data =>
    match data with
    | Payload.floats xs =>
      { d with
        bram := fun x =>
          if (addr - BRAM_ADDR) / 4 ≤ x ∧ x < (addr - BRAM_ADDR) / 4 + xs.length then
            xs.getD (x - (addr - BRAM_ADDR) / 4) 0
          else d.bram x }
    | Payload.word w =>
      if addr = IP_ADDR ∧ w = 0x5555 then
        { bram := fun x => if x < SIZE then compute (offset d.bram SIZE) d.bram x else d.bram x
          busy := latency d.triggers
          triggers := d.triggers + 1 }
      else d
  readWord := fun d _ _ _ =>
    if d.busy = 0 then (doneCode, d) else (0x5555, { d with busy := d.busy - 1 })
  readFloats := fun d _ addr transferSize =>
    ((List.range (transferSize / 4)).map (fun k => d.bram ((addr - BRAM_ADDR) / 4 + k)), d)

/-- A device whose control word reads back the values of `script` one after the other
(and `0x5555` when none is left), and whose arrays read back as `result`. -/
def scriptedDevice (result : List R) : Device (List Nat) R where
  write := fun d _ _ _ _ => d
  readWord := fun d _ _ _ => (d.headD 0x5555, d.tail)
  readFloats := fun d _ _ _ => (result, d)

end Protocol

/-! ## Accelerator protocol, inner product (`fpga_innerproduct`) and the address map -/

section ProtocolMore

variable {R : Type} [CommRing R]

/-- `fpga_innerproduct(in_vector1, in_vector2, out)`; returns `out`, of which one number is
read back.  `fuel` bounds the number of polls of the wait. -/
def fpga_innerproduct {σ : Type} (D : Device σ R) (fuel : Nat) (in_vector1 in_vector2 out : Buf R)
    (h : Host σ R) : Option (Buf R × Host σ R) :=
  let op_code : Nat := 0x5555
  let h := write_to_channel D H2C BRAM_ADDR (4 * SIZE)
    (Payload.floats (bufToList SIZE in_vector1)) h
  let h := write_to_channel D H2C (BRAM_ADDR + 4 * SIZE) (4 * SIZE)
    (Payload.floats (bufToList SIZE in_vector2)) h
  let h := write_to_channel D H2C IP_ADDR 4 (Payload.word op_code) h
  match pollLoop D fuel h with
  | none => none
  | some r => some (read_floats_from_channel D C2H BRAM_ADDR 4 out r.2)

/-- The transfer `t` respects the fixed address map.  An array is written over the
host-to-card channel, `4` bytes per number: `SIZE` numbers at `BRAM_ADDR` (first operand),
or `SIZE` or `SIZE * SIZE` numbers at `BRAM_ADDR + 4 * SIZE` (second operand).  The control
word is written and read as 4 bytes at `IP_ADDR`.  Results are read over the card-to-host
channel at `BRAM_ADDR`, one number or `SIZE` numbers. -/
def Transfer.InAddressMap : Transfer R → Prop
  | Transfer.write channelDevice addr transferSize (Payload.floats xs) =>
    channelDevice = H2C ∧ transferSize = 4 * xs.length ∧
      ((addr = BRAM_ADDR ∧ xs.length = SIZE) ∨
       (addr = BRAM_ADDR + 4 * SIZE ∧ (xs.length = SIZE ∨ xs.length = SIZE * SIZE)))
  | Transfer.write channelDevice addr transferSize (Payload.word _) =>
    channelDevice = H2C ∧ addr = IP_ADDR ∧ transferSize = 4
  | Transfer.read channelDevice addr transferSize =>
    channelDevice = C2H ∧
      ((addr = IP_ADDR ∧ transferSize = 4) ∨
       (addr = BRAM_ADDR ∧ (transferSize = 4 ∨ transferSize = 4 * SIZE)))

/-- `fpga_matvec_verbose(in_matrix, in_vector, out_vector)`; returns `out_vector`.  The
clock readings and the report printed at the end do not influence any transfer and are left
out.  `fuel` bounds the number of polls of the wait. -/
def fpga_matvec_verbose {σ : Type} (D : Device σ R) (fuel : Nat)
    (in_matrix in_vector out_vector : Buf R) (h : Host σ R) : Option (Buf R × Host σ R) :=
  let op_code : Nat := 0x5555
  let h := write_to_channel D H2C BRAM_ADDR (4 * SIZE) (Payload.floats (bufToList SIZE in_vector)) h
  let h := write_to_channel D H2C (BRAM_ADDR + 4 * SIZE) (4 * SIZE * SIZE)
    (Payload.floats (bufToList (SIZE * SIZE) in_matrix)) h
  let h := write_to_channel D H2C IP_ADDR 4 (Payload.word op_code) h
  match pollLoop D fuel h with
  | none => none
  | some r =>
    some (read_floats_from_channel D C2H (BRAM_ADDR + 4 * (SIZE + SIZE * SIZE)) (4 * SIZE)
      out_vector r.2)

/-- The transfer is a write at the address `addr`. -/
def Transfer.isWriteAt (addr : Nat) : Transfer R → Bool
  | Transfer.write _ a _ _ => decide (a = addr)
  | Transfer.read _ _ _ => false

/-- The number of writes at the address `addr` among the transfers `trace`. -/
def writesAt (addr : Nat) (trace : List (Transfer R)) : Nat :=
  (trace.filter (Transfer.isWriteAt addr)).length

/-- The transfers of one pass of the loop over `k` of `fpga_matmul` (lines 285-299) when
the wait makes `polls + 1` reads of the control word: row `k` of `in_matrix1`, the trigger,
the reads of the control word, the read of the result. -/
def matmulRowTransfers (in_matrix1 : Buf R) (k polls : Nat) : List (Transfer R) :=
  [Transfer.write H2C BRAM_ADDR (4 * SIZE)
      (Payload.floats (bufToList SIZE (offset in_matrix1 (SIZE * k)))),
    Transfer.write H2C IP_ADDR 4 (Payload.word 0x5555)]
  ++ List.replicate (polls + 1) (Transfer.read C2H IP_ADDR 4)
  ++ [Transfer.read C2H BRAM_ADDR (4 * SIZE)]

/-- The result of the accelerator, `SIZE` numbers, depends only on the contents of the matrix
slot (`SIZE * SIZE` numbers) and of the vector slot (`SIZE` numbers). -/
def DependsOnSlots (compute : Buf R → Buf R → Buf R) : Prop :=
  ∀ M M2 v v2 : Buf R, (∀ x, x < SIZE * SIZE → M x = M2 x) → (∀ x, x < SIZE → v x = v2 x) →
    ∀ q, q < SIZE → compute M v q = compute M2 v2 q

end ProtocolMore

/-! ## Timing utilities (`utils.c`) and the comparison of the test harness -/

/-- `#define BILLION 1000000000` -/
def BILLION : Int := 1000000000

/-- `struct timespec`. -/
structure Timespec where
  tv_sec : Int
  tv_nsec : Int
  deriving DecidableEq

/-- Conversion of a floating value to an integer type: C truncates toward zero. -/
def truncToInt (x : ℚ) : Int := if 0 ≤ x then ⌊x⌋ else ⌈x⌉

/-- `timespec_sub(t1, t2)`; returns `*t1`, or `none` when an assertion fails. -/
def timespec_sub (t1 t2 : Timespec) : Option Timespec :=
  if 0 ≤ t1.tv_nsec ∧ t1.tv_nsec < BILLION ∧ 0 ≤ t2.tv_nsec ∧ t2.tv_nsec < BILLION then
    let tv_sec := t1.tv_sec - t2.tv_sec
    let tv_nsec := t1.tv_nsec - t2.tv_nsec
    if tv_nsec < 0 then
      some { tv_sec := tv_sec - 1, tv_nsec := tv_nsec + BILLION }
    else
      some { tv_sec := tv_sec, tv_nsec := tv_nsec }
  else none

/-- `timespec_add(t1, t2)`; returns `*t1`, or `none` when an assertion fails. -/
def timespec_add (t1 t2 : Timespec) : Option Timespec :=
  if 0 ≤ t1.tv_nsec ∧ t1.tv_nsec < BILLION ∧ 0 ≤ t2.tv_nsec ∧ t2.tv_nsec < BILLION then
    let tv_sec := t1.tv_sec + t2.tv_sec
    let tv_nsec := t1.tv_nsec + t2.tv_nsec
    if tv_nsec ≥ BILLION then
      some { tv_sec := tv_sec + 1, tv_nsec := tv_nsec - BILLION }
    else
      some { tv_sec := tv_sec, tv_nsec := tv_nsec }
  else none

/-- A finite `double` (IEEE 754 binary64), the number `mant * 2 ^ exp`.  The results of
`roundDbl` have a mantissa of at most 53 bits. -/
structure Dbl where
  mant : Int
  exp : Int
  deriving DecidableEq

/-- Worker of `log2Floor`. -/
def log2Aux : Nat → Nat → Nat
  | 0, _ => 0
  | fuel + 1, n => if n < 2 then 0 else log2Aux fuel (n / 2) + 1

/-- The position of the leading bit of `n ≥ 1`: `2 ^ log2Floor n ≤ n < 2 ^ (log2Floor n + 1)`. -/
def log2Floor (n : Nat) : Nat := log2Aux n n

/-- The `double` nearest to the number `(num / den) * 2 ^ e`, ties to the even mantissa
(the default rounding of IEEE 754 arithmetic): `k` is chosen with
`2 ^ 52 ≤ |num| / (den * 2 ^ k) < 2 ^ 53` and that quotient is rounded to an integer.  The
exponent range of binary64 is not limited here: no operand of `timespec_div` comes near
it. -/
def roundDbl (num : Int) (den : Nat) (e : Int) : Dbl :=
  let a := num.natAbs
  if a = 0 then { mant := 0, exp := 0 }
  else
    let t : Int := (log2Floor a : Int) - (log2Floor den : Int)
    let f : Int := if den * 2 ^ t.toNat ≤ a * 2 ^ (-t).toNat then t else t - 1
    let k : Int := f - 52
    let n := a * 2 ^ (-k).toNat
    let d := den * 2 ^ k.toNat
    let q := n / d
    let r := n % d
    let m := if 2 * r < d then q else if d < 2 * r then q + 1 else if q % 2 = 0 then q else q + 1
    { mant := if num < 0 then -(m : Int) else (m : Int), exp := k + e }

/-- Conversion of an integer to `double`. -/
def Dbl.ofInt (n : Int) : Dbl := roundDbl n 1 0

/-- The quotient `x / y` in `double`, for `y ≠ 0`. -/
def Dbl.div (x y : Dbl) : Dbl :=
  roundDbl (if y.mant < 0 then -x.mant else x.mant) y.mant.natAbs (x.exp - y.exp)

/-- The sum `x + y` in `double`. -/
def Dbl.add (x y : Dbl) : Dbl :=
  let e := min x.exp y.exp
  roundDbl (x.mant * 2 ^ (x.exp - e).toNat + y.mant * 2 ^ (y.exp - e).toNat) 1 e

/-- The difference `x - y` in `double`. -/
def Dbl.sub (x y : Dbl) : Dbl :=
  let e := min x.exp y.exp
  roundDbl (x.mant * 2 ^ (x.exp - e).toNat - y.mant * 2 ^ (y.exp - e).toNat) 1 e

/-- The product `x * y` in `double`. -/
def Dbl.mul (x y : Dbl) : Dbl := roundDbl (x.mant * y.mant) 1 (x.exp + y.exp)

/-- Conversion of a `double` to an integer type: truncation toward zero. -/
def Dbl.toInt (x : Dbl) : Int :=
  if 0 ≤ x.exp then x.mant * 2 ^ x.exp.toNat else x.mant.tdiv (2 ^ (-x.exp).toNat)

/-- `timespec_div(ts, num)`; returns `*ts`, or `none` when an assertion fails.  The integer
divisions truncate toward zero (`Int.tdiv`).  The expressions of type `double` are evaluated
in `double`, operation by operation: `ts->tv_sec / (double) num`, the difference with the
converted integer quotient, the product `below_zero * BILLION`, the sum with the converted
`tv_nsec`, which is converted back by truncation. -/
def timespec_div (ts : Timespec) (num : Int) : Option Timespec :=
  if 0 ≤ ts.tv_nsec ∧ ts.tv_nsec < BILLION ∧ 0 < num then
    let below_zero : Dbl :=
      Dbl.sub (Dbl.div (Dbl.ofInt ts.tv_sec) (Dbl.ofInt num)) (Dbl.ofInt (ts.tv_sec.tdiv num))
    let tv_sec := ts.tv_sec.tdiv num
    let tv_nsec := ts.tv_nsec.tdiv num
    let tv_nsec := Dbl.toInt
      (Dbl.add (Dbl.ofInt tv_nsec) (Dbl.mul below_zero (Dbl.ofInt BILLION)))
    some { tv_sec := tv_sec, tv_nsec := tv_nsec }
  else none

/-- `#define DIFF_THRESHOLD 0.01` -/
def DIFF_THRESHOLD : ℚ := 1 / 100

/-- The condition `abs((fpga - cpu)) / cpu > DIFF_THRESHOLD` of the test loops in `main`.
`abs` is the function `int abs(int)` of `<stdlib.h>`: its argument is converted to `int`. -/
def element_differs (fpga cpu : ℚ) : Bool :=
  decide (((|truncToInt (fpga - cpu)| : Int) : ℚ) / cpu > DIFF_THRESHOLD)

/-! ## Channel transport, byte level (`channel_readwrite.c`) -/

namespace Channel

/-- The character device behind an open channel: what the system calls
`write(fd, buffer, count)` and `read(fd, buffer, count)` do at the offset selected by
`lseek`, the value `rc` they return and, for `read`, the bytes delivered. -/
structure CharDevice (σ : Type) where
  write : σ → Nat → List Nat → Int × σ
  read : σ → Nat → Nat → Int × List Nat × σ

/-- The system calls issued on a channel. -/
inductive Syscall where
  | open (channelDevice : String)
  | lseek (offset : Nat)
  | write (count : Nat)
  | read (count : Nat)
  | close
  deriving DecidableEq

/-- The size passed to `posix_memalign`: `transferSize + 4096`, computed in `uint32_t`. -/
def allocationSize (transferSize : Nat) : Nat := (transferSize + 4096) % 2 ^ 32

/-- Conversion of the value returned by a system call to `int`, the type of the variable
`rc`: the value is reduced modulo `2 ^ 32` into the range of `int`. -/
def toInt32 (x : Int) : Int := (x + 2 ^ 31) % 2 ^ 32 - 2 ^ 31

/-- What `write_to_channel` leaves: the device state and the system calls issued. -/
structure WriteOutcome (σ : Type) where
  dev : σ
  syscalls : List Syscall

/-- What `read_from_channel` leaves: the destination array, the device state, the system
calls issued, and the `(rc, transferSize)` of each "Short read" message printed. -/
structure ReadOutcome (σ : Type) where
  output : Buf Nat
  dev : σ
  syscalls : List Syscall
  stdout : List (Int × Nat)

/-- `write_to_channel(channelDevice, addr, transferSize, data)` on bytes.  The allocation
and `open` are taken to succeed.  The result is `none` when the copy into the bounce buffer
exceeds its allocation (undefined behaviour) or when `assert(rc == transferSize)`, a
comparison in `uint32_t`, fails. -/
def write_to_channel {σ : Type} (D : CharDevice σ) (channelDevice : String)
    (addr transferSize : Nat) (data : Buf Nat) (d : σ) : Option (WriteOutcome σ) :=
  if transferSize ≤ allocationSize transferSize then
    let buffer := (List.range transferSize).map data
    let r := D.write d addr buffer
    if r.1 % 2 ^ 32 = (transferSize : Int) then
      some
        { dev := r.2
          syscalls := [Syscall.open channelDevice, Syscall.lseek addr,
            Syscall.write transferSize, Syscall.close] }
    else none
  else none

/-- `read_from_channel(channelDevice, addr, transferSize, output)` on bytes.  The allocation
and `open` are taken to succeed.  The bounce buffer is cleared, `read` stores the bytes it
delivers (as many as the value it returns), and all `transferSize` bytes of the buffer are
copied to `output`.  For `rc > 0` the comparison `rc < transferSize`, made in `uint32_t`,
compares the values themselves.  The result is `none` when clearing the bounce buffer
exceeds its allocation (undefined behaviour). -/
def read_from_channel {σ : Type} (D : CharDevice σ) (channelDevice : String)
    (addr transferSize : Nat) (output : Buf Nat) (d : σ) : Option (ReadOutcome σ) :=
  if transferSize ≤ allocationSize transferSize then
    let r := D.read d addr transferSize
    let rc := toInt32 r.1
    let buffer : Buf Nat := fun k => if (k : Int) < r.1 then r.2.1.getD k 0 else 0
    some
      { output := fun k => if k < transferSize then buffer k else output k
        dev := r.2.2
        syscalls := [Syscall.open channelDevice, Syscall.lseek addr,
          Syscall.read transferSize, Syscall.close]
        stdout := if 0 < rc ∧ rc < (transferSize : Int) then [(rc, transferSize)] else [] }
  else none

/-- The loopback device of the round-trip property: a byte-addressable memory that stores
every byte written to it and returns the bytes stored. -/
def loopback : CharDevice (Nat → Nat) where
  write := fun mem offset bytes =>
    ((bytes.length : Int),
      fun a => if offset ≤ a ∧ a < offset + bytes.length then bytes.getD (a - offset) 0
        else mem a)
  read := fun mem offset count =>
    ((count : Int), (List.range count).map (fun k => mem (offset + k)), mem)

/-- A device whose `read` returns the value `rc` and delivers the bytes `bytes`. -/
def fixedRead (rc : Int) (bytes : List Nat) : CharDevice Unit where
  write := fun d _ buffer => ((buffer.length : Int), d)
  read := fun d _ _ => (rc, bytes, d)

/-- `write_to_channel_verbose(channelDevice, addr, transferSize, data)` on bytes; returns the
outcome of the transfer and `ts_write_end`, or `none` when an assertion fails.  `clock k` is
the value that the call number `k` of `clock_gettime` stores: `ts_global_start` (0),
`ts_mem_start` (1), `ts_mem_end` (2), `ts_open_start` (3), `ts_open_end` (4),
`ts_write_start` (5), `ts_write_end` (6), `ts_close_start` (7), `ts_close_end` (8),
`ts_cleanup_start` (9), `ts_cleanup_end` (10), `ts_global_end` (11). -/
def write_to_channel_verbose {σ : Type} (D : CharDevice σ) (channelDevice : String)
    (addr transferSize : Nat) (data : Buf Nat) (clock : Nat → Timespec) (d : σ) :
    Option (WriteOutcome σ × Timespec) :=
  if transferSize ≤ allocationSize transferSize then
    let buffer := (List.range transferSize).map data
    let r := D.write d addr buffer
    if r.1 % 2 ^ 32 = (transferSize : Int) then
      (timespec_sub (clock 11) (clock 0)).bind fun _ =>
      (timespec_sub (clock 2) (clock 1)).bind fun _ =>
      (timespec_sub (clock 4) (clock 3)).bind fun _ =>
      (timespec_sub (clock 6) (clock 5)).bind fun ts_write_end =>
      (timespec_sub (clock 8) (clock 7)).bind fun _ =>
      (timespec_sub (clock 10) (clock 9)).bind fun _ =>
      some
        ({ dev := r.2
           syscalls := [Syscall.open channelDevice, Syscall.lseek addr,
             Syscall.write transferSize, Syscall.close] }, ts_write_end)
    else none
  else none

/-- `read_from_channel_verbose(channelDevice, addr, transferSize, output)` on bytes; returns
the outcome of the transfer and `ts_read_end`, or `none` when an assertion fails.  `clock k`
is the value that the call number `k` of `clock_gettime` stores: `ts_global_start` (0),
`ts_mem_start` (1), `ts_mem_end` (2), `ts_open_start` (3), `ts_open_end` (4),
`ts_read_start` (5), `ts_read_end` (6), `ts_close_start` (7), `ts_close_end` (8),
`ts_cleanup_start` (9), `ts_cleanup_end` (10), `ts_global_end` (11).  `ts_global_end0` is the
content of the uninitialised variable `ts_global_end`, which the first call of
`timespec_sub`, after the copy to `output`, receives before any clock reading has set it. -/
def read_from_channel_verbose {σ : Type} (D : CharDevice σ) (channelDevice : String)
    (addr transferSize : Nat) (output : Buf Nat) (clock : Nat → Timespec)
    (ts_global_end0 : Timespec) (d : σ) : Option (ReadOutcome σ × Timespec) :=
  if transferSize ≤ allocationSize transferSize then
    let r := D.read d addr transferSize
    let rc := toInt32 r.1
    let buffer : Buf Nat := fun k => if (k : Int) < r.1 then r.2.1.getD k 0 else 0
    (timespec_sub ts_global_end0 (clock 0)).bind fun _ =>
    (timespec_sub (clock 11) (clock 0)).bind fun _ =>
    (timespec_sub (clock 2) (clock 1)).bind fun _ =>
    (timespec_sub (clock 4) (clock 3)).bind fun _ =>
    (timespec_sub (clock 6) (clock 5)).bind fun ts_read_end =>
    (timespec_sub (clock 8) (clock 7)).bind fun _ =>
    (timespec_sub (clock 10) (clock 9)).bind fun _ =>
    some
      ({ output := fun k => if k < transferSize then buffer k else output k
         dev := r.2.2
         syscalls := [Syscall.open channelDevice, Syscall.lseek addr,
           Syscall.read transferSize, Syscall.close]
         stdout := if 0 < rc ∧ rc < (transferSize : Int) then [(rc, transferSize)] else [] },
        ts_read_end)
  else none

end Channel

/-! ## Memory accesses of the tiling engine -/

/-- The arrays of `fpga_large_matvec_naive` and of `fpga_large_matmul_naive2`. -/
inductive Region where
  | in_matrix
  | in_vector
  | out_vector
  | fpga_matrix
  | fpga_vector
  | in_matrix1
  | in_matrix2
  | out_matrix
  | fpga_matrix1
  | fpga_matrix2
  | out
  | output_buffer
  deriving DecidableEq

/-- One access: the `len` elements of the array `region` from the index `start` on.  `copy`
marks the source and the destination of a `memcpy` of `len` elements.  Indices and lengths
are the values of the C expressions, in the integers. -/
structure Access where
  region : Region
  start : Int
  len : Int
  copy : Bool

/-- The accesses of `memcpy(dst + d, src + s, len * sizeof(float))`. -/
def memcpyAccesses (dst : Region) (d : Int) (src : Region) (s : Int) (len : Int) : List Access :=
  [{ region := src, start := s, len := len, copy := true },
   { region := dst, start := d, len := len, copy := true }]

/-- The access of an assignment to, or of a read of, the element `r[k]`. -/
def elementAccess (r : Region) (k : Int) : Access :=
  { region := r, start := k, len := 1, copy := false }

/-- The access to a whole array of `n` elements, by an initialiser or by the callee that is
handed the array. -/
def arrayAccess (r : Region) (n : Int) : Access :=
  { region := r, start := 0, len := n, copy := false }

/-- The access stays inside the array, whose number of elements is `extent`, and a copy has
at most `SIZE` elements. -/
def Access.InBounds (extent : Region → Int) (a : Access) : Prop :=
  0 ≤ a.start ∧ 0 ≤ a.len ∧ a.start + a.len ≤ extent a.region ∧
    (a.copy = true → a.len ≤ (SIZE : Int))

/-- `INT_MAX`, the largest value of the type `int`. -/
def INT_MAX : Int := 2147483647

/-- The value of an expression of type `int`; `none` when the value `x` of the expression in
the integers is not a value of `int` (signed overflow, which has no defined result). -/
def checkInt (x : Int) : Option Int := if -INT_MAX - 1 ≤ x ∧ x ≤ INT_MAX then some x else none

/-- Worker of `forLoopInt`: at most `fuel` iterations, the counter starting at `x`. -/
def forLoopIntAux {σ : Type} (n stride : Nat) (body : Nat → σ → Option σ) :
    Nat → Nat → σ → Option σ
  | 0, _, s => some s
  | fuel + 1, x, s =>
    if x < n then
      (body x s).bind fun s =>
        if (x : Int) + stride ≤ INT_MAX then forLoopIntAux n stride body fuel (x + stride) s
        else none
    else some s

/-- The loop `for (int x = 0; x < n; x += stride) body` with its counter of type `int`: the
result is `none` when a pass of the body has no defined result or when the increment
`x += stride` overflows.  For `stride ≥ 1` the fuel `n` never runs out (`forLoopInt_fuel`). -/
def forLoopInt {σ : Type} (n stride : Nat) (body : Nat → σ → Option σ) (s : σ) : Option σ :=
  forLoopIntAux n stride body n 0 s

/-- The run has a defined result, and every entry of the log it returns satisfies `P`. -/
def Defined {α : Type} (P : α → Prop) (o : Option (List α)) : Prop :=
  ∃ log, o = some log ∧ ∀ a ∈ log, P a

/-- A step that only appends to the log: a defined result holds every entry of the log the
step was given. -/
def Grows {α : Type} (f : List α → Option (List α)) : Prop :=
  ∀ l l2, f l = some l2 → ∀ a ∈ l, a ∈ l2

/-- Lines 357-370, the accesses of the body of the loop over `m`. -/
def copyTileRowAccesses (num_col i j m : Nat) (log : List Access) : Option (List Access) :=
  (checkInt ((num_col : Int) - j)).bind fun w =>
  (checkInt ((SIZE : Int) * m)).bind fun sm =>
  (checkInt ((num_col : Int) * i)).bind fun ci =>
  (checkInt ((num_col : Int) * m)).bind fun cm =>
  if w ≥ (SIZE : Int) then
    some (log ++ memcpyAccesses Region.fpga_matrix sm Region.in_matrix (ci + j + cm) (SIZE : Int))
  else
    (checkInt ((SIZE : Int) - w)).bind fun pad =>
    forLoopInt pad.toNat 1
      (fun k log => some (log ++ [elementAccess Region.fpga_matrix (sm + w + k)]))
      (log ++ memcpyAccesses Region.fpga_matrix sm Region.in_matrix (ci + j + cm) w)

/-- Lines 339-371, the accesses of "memcpy for matrix tile". -/
def fillMatrixTileAccesses (num_row num_col i j : Nat) (log : List Access) :
    Option (List Access) :=
  (checkInt ((num_row : Int) - i)).bind fun h =>
  let num_row_in_tile : Int := if h ≥ (SIZE : Int) then (SIZE : Int) else h
  (if h ≥ (SIZE : Int) then some log
    else forLoopInt (SIZE * SIZE) 1
      (fun k log => some (log ++ [elementAccess Region.fpga_matrix k])) log).bind fun log =>
  forLoopInt num_row_in_tile.toNat 1 (copyTileRowAccesses num_col i j) log

/-- Lines 373-386, the accesses of "memcpy for vector tile". -/
def fillVectorTileAccesses (num_col j : Nat) (log : List Access) : Option (List Access) :=
  (checkInt ((num_col : Int) - j)).bind fun w =>
  if w ≥ (SIZE : Int) then
    some (log ++ memcpyAccesses Region.fpga_vector 0 Region.in_vector j (SIZE : Int))
  else
    (checkInt ((SIZE : Int) - w)).bind fun pad =>
    forLoopInt pad.toNat 1
      (fun k log => some (log ++ [elementAccess Region.fpga_vector (w + k)]))
      (log ++ memcpyAccesses Region.fpga_vector 0 Region.in_vector j w)

/-- Lines 338-394, the accesses of the body of the loop over `j`; the callee `fpga_matvec`
reads the two tile buffers and writes `out`. -/
def matvecColumnStepAccesses (num_row num_col i j : Nat) (log : List Access) :
    Option (List Access) :=
  (fillMatrixTileAccesses num_row num_col i j log).bind fun log =>
  (fillVectorTileAccesses num_col j log).bind fun log =>
  forLoopInt SIZE 1
    (fun n log =>
      some (log ++ [elementAccess Region.out n, elementAccess Region.output_buffer n]))
    (log ++ [arrayAccess Region.fpga_matrix ((SIZE : Int) * SIZE),
      arrayAccess Region.fpga_vector SIZE, arrayAccess Region.out SIZE])

/-- Lines 333-403, the accesses of the body of the loop over `i`. -/
def matvecRowStepAccesses (num_row num_col i : Nat) (log : List Access) :
    Option (List Access) :=
  (forLoopInt num_col SIZE (matvecColumnStepAccesses num_row num_col i)
    (log ++ [arrayAccess Region.out SIZE, arrayAccess Region.output_buffer SIZE])).bind
  fun log =>
  (checkInt ((num_row : Int) - i)).bind fun h =>
  if h ≥ (SIZE : Int) then
    some (log ++ memcpyAccesses Region.out_vector i Region.output_buffer 0 (SIZE : Int))
  else
    some (log ++ memcpyAccesses Region.out_vector i Region.output_buffer 0 h)

/-- The memory accesses of `fpga_large_matvec_naive(in_matrix, in_vector, out_vector,
num_row, num_col)`, in program order; `none` when an `int` computation of the run
overflows. -/
def fpga_large_matvec_naive_accesses (num_row num_col : Nat) : Option (List Access) :=
  (forLoopInt num_row 1
    (fun p log => some (log ++ [elementAccess Region.out_vector p])) []).bind fun log =>
  (forLoopInt num_row SIZE (matvecRowStepAccesses num_row num_col) log).bind fun log =>
  (forLoopInt (SIZE * SIZE) 1
    (fun p log => some (log ++ [elementAccess Region.fpga_matrix p])) log).bind fun log =>
  forLoopInt SIZE 1 (fun p log => some (log ++ [elementAccess Region.fpga_vector p])) log

/-- The number of elements of the arrays of `fpga_large_matvec_naive`. -/
def matvecExtent (num_row num_col : Nat) : Region → Int
  | Region.in_matrix => (num_row : Int) * num_col
  | Region.in_vector => num_col
  | Region.out_vector => num_row
  | Region.fpga_matrix => (SIZE : Int) * SIZE
  | Region.fpga_vector => SIZE
  | Region.out => SIZE
  | Region.output_buffer => SIZE
  | _ => 0

/-- Lines 503-535, the accesses of the body of the loop over `k`; the callee `fpga_matmul`
reads the two tile buffers and writes `out`. -/
def matmulChunkStepAccesses (num_colA num_colB i : Nat) (tilesize_i : Int) (j : Nat)
    (tilesize_j : Int) (k : Nat) (log : List Access) : Option (List Access) :=
  (forLoopInt (SIZE * SIZE) 1
    (fun p log =>
      some (log ++ [elementAccess Region.fpga_matrix1 p, elementAccess Region.fpga_matrix2 p]))
    log).bind fun log =>
  (checkInt ((num_colA : Int) - k)).bind fun w =>
  let tilesize_k : Int := if w ≥ (SIZE : Int) then (SIZE : Int) else w
  (forLoopInt tilesize_i.toNat 1
    (fun p log =>
      (checkInt ((SIZE : Int) * p)).bind fun sp =>
      (checkInt ((num_colA : Int) * i)).bind fun ai =>
      (checkInt ((num_colA : Int) * p)).bind fun ap =>
      some (log ++ memcpyAccesses Region.fpga_matrix1 sp Region.in_matrix1 (ai + ap + k)
        tilesize_k)) log).bind fun log =>
  (forLoopInt tilesize_k.toNat 1
    (fun p log =>
      (checkInt ((SIZE : Int) * p)).bind fun sp =>
      (checkInt ((num_colB : Int) * k)).bind fun bk =>
      (checkInt ((num_colB : Int) * p)).bind fun bp =>
      some (log ++ memcpyAccesses Region.fpga_matrix2 sp Region.in_matrix2 (bk + bp + j)
        tilesize_j)) log).bind fun log =>
  forLoopInt (SIZE * SIZE) 1
    (fun p log =>
      some (log ++ [elementAccess Region.out p, elementAccess Region.output_buffer p]))
    (log ++ [arrayAccess Region.fpga_matrix1 ((SIZE : Int) * SIZE),
      arrayAccess Region.fpga_matrix2 ((SIZE : Int) * SIZE),
      arrayAccess Region.out ((SIZE : Int) * SIZE)])

/-- Lines 489-542, the accesses of the body of the loop over `j`. -/
def matmulTileStepAccesses (num_colA num_colB i : Nat) (tilesize_i : Int) (j : Nat)
    (log : List Access) : Option (List Access) :=
  (checkInt ((num_colB : Int) - j)).bind fun w =>
  let tilesize_j : Int := if w ≥ (SIZE : Int) then (SIZE : Int) else w
  (forLoopInt num_colA SIZE
    (matmulChunkStepAccesses num_colA num_colB i tilesize_i j tilesize_j)
    (log ++ [arrayAccess Region.out ((SIZE : Int) * SIZE),
      arrayAccess Region.output_buffer ((SIZE : Int) * SIZE)])).bind fun log =>
  forLoopInt tilesize_i.toNat 1
    (fun p log =>
      (checkInt ((SIZE : Int) * p)).bind fun sp =>
      (checkInt ((num_colB : Int) * i)).bind fun bi =>
      (checkInt ((num_colB : Int) * p)).bind fun bp =>
      some (log ++ memcpyAccesses Region.out_matrix (bi + bp + j) Region.output_buffer sp
        tilesize_j)) log

/-- Lines 477-543, the accesses of the body of the loop over `i`. -/
def matmulRowStepAccesses (num_rowA num_colA num_colB i : Nat) (log : List Access) :
    Option (List Access) :=
  (checkInt ((num_rowA : Int) - i)).bind fun h =>
  let tilesize_i : Int := if h ≥ (SIZE : Int) then (SIZE : Int) else h
  forLoopInt num_colB SIZE (matmulTileStepAccesses num_colA num_colB i tilesize_i) log

/-- The memory accesses of `fpga_large_matmul_naive2(in_matrix1, in_matrix2, out_matrix,
num_rowA, num_colA, num_colB)`, in program order; `none` when an `int` computation of the
run overflows. -/
def fpga_large_matmul_naive2_accesses (num_rowA num_colA num_colB : Nat) :
    Option (List Access) :=
  forLoopInt num_rowA SIZE (matmulRowStepAccesses num_rowA num_colA num_colB) []

/-- The number of elements of the arrays of `fpga_large_matmul_naive2`. -/
def matmulExtent (num_rowA num_colA num_colB : Nat) : Region → Int
  | Region.in_matrix1 => (num_rowA : Int) * num_colA
  | Region.in_matrix2 => (num_colA : Int) * num_colB
  | Region.out_matrix => (num_rowA : Int) * num_colB
  | Region.fpga_matrix1 => (SIZE : Int) * SIZE
  | Region.fpga_matrix2 => (SIZE : Int) * SIZE
  | Region.out => (SIZE : Int) * SIZE
  | Region.output_buffer => (SIZE : Int) * SIZE
  | _ => 0

/-! ## Runs that differ in the output buffer only -/

section SameOutput

variable {R : Type} [CommRing R]

end SameOutput

/-! ## Loop lemmas -/

theorem SIZE_pos : 0 < SIZE := by decide

theorem tile_lt_iff (n stride t : Nat) (hs : 0 < stride) :
    t * stride < n ↔ t < (n + stride - 1) / stride := by
  have h1 : t + 1 ≤ (n + stride - 1) / stride ↔ (t + 1) * stride ≤ n + stride - 1 :=
    Nat.le_div_iff_mul_le hs
  rw [Nat.add_mul, Nat.one_mul] at h1
  omega

theorem tiles_le (n stride : Nat) (hs : 0 < stride) : (n + stride - 1) / stride ≤ n := by
  have h1 := tile_lt_iff n stride n hs
  have h2 : n ≤ n * stride := Nat.le_mul_of_pos_right n hs
  omega

theorem forLoopAux_eq_foldl {σ : Type} (n stride : Nat) (hs : 0 < stride)
    (body : Nat → σ → σ) (fuel t : Nat) (s : σ) :
    forLoopAux n stride body fuel (t * stride) s
      = (List.range' t (min fuel ((n + stride - 1) / stride - t))).foldl
          (fun s u => body (u * stride) s) s := by
  induction fuel generalizing t s with
  | zero => simp [forLoopAux]
  | succ fuel ih =>
    have key := tile_lt_iff n stride t hs
    unfold forLoopAux
    by_cases h : t * stride < n
    · have h2 := key.mp h
      rw [if_pos h]
      have e : t * stride + stride = (t + 1) * stride := by rw [Nat.add_mul]; omega
      rw [e, ih]
      have e2 : min (fuel + 1) ((n + stride - 1) / stride - t)
          = min fuel ((n + stride - 1) / stride - (t + 1)) + 1 := by omega
      rw [e2, List.range'_succ, List.foldl_cons]
    · have h2 : ¬ t < (n + stride - 1) / stride := fun h3 => h (key.mpr h3)
      rw [if_neg h]
      have e2 : min (fuel + 1) ((n + stride - 1) / stride - t) = 0 := by omega
      rw [e2]; rfl

/-- Running the loop for at most `t` iterations performs its first `min t (number of
iterations)` iterations. -/
theorem forLoopAux_zero_eq_foldl {σ : Type} (n stride : Nat) (hs : 0 < stride)
    (body : Nat → σ → σ) (t : Nat) (s : σ) :
    forLoopAux n stride body t 0 s
      = (List.range (min t ((n + stride - 1) / stride))).foldl
          (fun s u => body (u * stride) s) s := by
  have h := forLoopAux_eq_foldl n stride hs body t 0 s
  rw [Nat.zero_mul] at h
  rw [h, List.range_eq_range']
  rfl

theorem forLoop_eq_foldl {σ : Type} (n stride : Nat) (hs : 0 < stride)
    (body : Nat → σ → σ) (s : σ) :
    forLoop n stride body s
      = (List.range ((n + stride - 1) / stride)).foldl (fun s u => body (u * stride) s) s := by
  unfold forLoop
  rw [forLoopAux_zero_eq_foldl n stride hs, Nat.min_eq_right (tiles_le n stride hs)]

theorem forLoop_one_eq_foldl {σ : Type} (n : Nat) (body : Nat → σ → σ) (s : σ) :
    forLoop n 1 body s = (List.range n).foldl (fun s u => body u s) s := by
  rw [forLoop_eq_foldl n 1 Nat.one_pos]
  simp

theorem forLoop_SIZE_eq_foldl {σ : Type} (n : Nat) (body : Nat → σ → σ) (s : σ) :
    forLoop n SIZE body s
      = (List.range (numTiles n)).foldl (fun s u => body (u * SIZE) s) s :=
  forLoop_eq_foldl n SIZE SIZE_pos body s

/-- Invariant rule for a fold over `List.range n`. -/
theorem foldl_range_induction {σ : Type} (f : σ → Nat → σ) (P : Nat → σ → Prop) (n : Nat)
    (s : σ) (h0 : P 0 s) (hstep : ∀ t s, t < n → P t s → P (t + 1) (f s t)) :
    P n ((List.range n).foldl f s) := by
  induction n with
  | zero => simpa using h0
  | succ n ih =>
    rw [List.range_succ, List.foldl_append]
    simp only [List.foldl_cons, List.foldl_nil]
    exact hstep n _ (Nat.lt_succ_self n)
      (ih (fun t s ht hP => hstep t s (Nat.lt_succ_of_lt ht) hP))

/-- Invariant rule for `for (x = 0; x < n; x++)`. -/
theorem forLoop_one_induction {σ : Type} (P : Nat → σ → Prop) (n : Nat)
    (body : Nat → σ → σ) (s : σ) (h0 : P 0 s)
    (hstep : ∀ t s, t < n → P t s → P (t + 1) (body t s)) :
    P n (forLoop n 1 body s) := by
  rw [forLoop_one_eq_foldl]
  exact foldl_range_induction (fun s u => body u s) P n s h0 hstep

theorem lt_numTiles_iff (n t : Nat) : t < numTiles n ↔ t * SIZE < n :=
  (tile_lt_iff n SIZE t SIZE_pos).symm

/-- Invariant rule for `for (x = 0; x < n; x += SIZE)`; `P t` is the state after `t` tiles. -/
theorem forLoop_SIZE_induction {σ : Type} (P : Nat → σ → Prop) (n : Nat)
    (body : Nat → σ → σ) (s : σ) (h0 : P 0 s)
    (hstep : ∀ t s, t * SIZE < n → P t s → P (t + 1) (body (t * SIZE) s)) :
    P (numTiles n) (forLoop n SIZE body s) := by
  rw [forLoop_SIZE_eq_foldl]
  exact foldl_range_induction (fun s u => body (u * SIZE) s) P (numTiles n) s h0
    (fun t s ht hP => hstep t s ((lt_numTiles_iff n t).mp ht) hP)

/-- Invariant rule for the first `t` iterations of `for (x = 0; x < n; x += SIZE)`. -/
theorem forLoopAux_SIZE_induction {σ : Type} (P : Nat → σ → Prop) (n t : Nat)
    (body : Nat → σ → σ) (s : σ) (h0 : P 0 s)
    (hstep : ∀ u s, u * SIZE < n → P u s → P (u + 1) (body (u * SIZE) s)) :
    P (min t (numTiles n)) (forLoopAux n SIZE body t 0 s) := by
  rw [forLoopAux_zero_eq_foldl n SIZE SIZE_pos]
  exact foldl_range_induction (fun s u => body (u * SIZE) s) P _ s h0
    (fun u s hu hP => hstep u s
      ((lt_numTiles_iff n u).mp (Nat.lt_of_lt_of_le hu (Nat.min_le_right _ _))) hP)

/-! ## Pointwise contents of the buffers -/

section BufferLemmas

variable {R : Type} [CommRing R]

theorem zeroFill_apply (a n : Nat) (b : Buf R) (x : Nat) :
    forLoop n 1 (fun k b => store b (a + k) 0) b x
      = if a ≤ x ∧ x < a + n then 0 else b x := by
  refine forLoop_one_induction
    (fun t (s : Buf R) => s x = if a ≤ x ∧ x < a + t then 0 else b x) n _ b ?_ ?_
  · have : ¬ (a ≤ x ∧ x < a + 0) := by omega
    beta_reduce
    rw [if_neg this]
  · intro t s _ hP
    simp only [store]
    by_cases hx : x = a + t
    · rw [if_pos hx, if_pos (by omega)]
    · rw [if_neg hx, hP]
      by_cases h1 : a ≤ x ∧ x < a + t
      · rw [if_pos h1, if_pos (by omega)]
      · rw [if_neg h1, if_neg (by omega)]

theorem zeroFill_zero_apply (n : Nat) (b : Buf R) (x : Nat) :
    forLoop n 1 (fun k b => store b k 0) b x = if x < n then 0 else b x := by
  have h := zeroFill_apply 0 n b x
  simp only [Nat.zero_add, Nat.zero_le, true_and] at h
  exact h

theorem accumulate_apply (n : Nat) (out b : Buf R) (x : Nat) :
    forLoop n 1 (fun k b => store b k (b k + out k)) b x
      = if x < n then b x + out x else b x := by
  refine forLoop_one_induction
    (fun t (s : Buf R) => ∀ y, s y = if y < t then b y + out y else b y) n _ b ?_ ?_ x
  · intro y
    rw [if_neg (Nat.not_lt_zero y)]
  · intro t s _ hP y
    simp only [store]
    by_cases hy : y = t
    · subst hy
      rw [if_pos rfl, if_pos (Nat.lt_succ_self y), hP y, if_neg (Nat.lt_irrefl y)]
    · rw [if_neg hy, hP y]
      by_cases h1 : y < t
      · rw [if_pos h1, if_pos (by omega)]
      · rw [if_neg h1, if_neg (by omega)]

theorem fillVectorTile_apply (in_vector : Buf R) (num_col j : Nat) (hj : j < num_col)
    (b : Buf R) (x : Nat) :
    fillVectorTile in_vector num_col j b x
      = if x < SIZE then (if j + x < num_col then in_vector (j + x) else 0) else b x := by
  unfold fillVectorTile
  by_cases h : num_col - j ≥ SIZE
  · rw [if_pos h]
    simp only [memcpy]
    by_cases hx : x < SIZE
    · rw [if_pos (by omega), if_pos hx, if_pos (by omega)]
      rfl
    · rw [if_neg (by omega), if_neg hx]
  · rw [if_neg h, zeroFill_apply]
    simp only [memcpy]
    by_cases hx : x < SIZE
    · rw [if_pos hx]
      by_cases h2 : j + x < num_col
      · rw [if_neg (by omega), if_pos (by omega), if_pos h2]
        rfl
      · rw [if_pos (by omega), if_neg h2]
    · rw [if_neg (by omega), if_neg (by omega), if_neg hx]

theorem copyTileRow_apply (in_matrix : Buf R) (num_col i j m : Nat) (hj : j < num_col)
    (b : Buf R) (r c : Nat) (hc : c < SIZE) :
    copyTileRow in_matrix num_col i j m b (SIZE * r + c)
      = if r = m then
          (if j + c < num_col then in_matrix (num_col * i + j + num_col * m + c) else 0)
        else b (SIZE * r + c) := by
  unfold copyTileRow
  simp only [SIZE] at hc ⊢
  by_cases h : num_col - j ≥ 64
  · rw [if_pos h]
    simp only [memcpy]
    by_cases hr : r = m
    · subst hr
      rw [if_pos (by omega), if_pos rfl, if_pos (by omega)]
      congr 1
      omega
    · rw [if_neg (by omega), if_neg hr]
  · rw [if_neg h, zeroFill_apply]
    simp only [memcpy]
    by_cases hr : r = m
    · subst hr
      rw [if_pos rfl]
      by_cases h2 : j + c < num_col
      · rw [if_neg (by omega), if_pos (by omega), if_pos h2]
        congr 1
        omega
      · rw [if_pos (by omega), if_neg h2]
    · rw [if_neg (by omega), if_neg (by omega), if_neg hr]

theorem fillMatrixTile_apply (in_matrix : Buf R) (num_row num_col i j : Nat)
    (hi : i < num_row) (hj : j < num_col) (b : Buf R) (m c : Nat) (hm : m < SIZE)
    (hc : c < SIZE) :
    fillMatrixTile in_matrix num_row num_col i j b (m * SIZE + c)
      = if i + m < num_row ∧ j + c < num_col then in_matrix ((i + m) * num_col + j + c)
        else 0 := by
  unfold fillMatrixTile
  have inv : ∀ (n : Nat) (b0 : Buf R),
      forLoop n 1 (copyTileRow in_matrix num_col i j) b0 (SIZE * m + c)
        = if m < n then
            (if j + c < num_col then in_matrix (num_col * i + j + num_col * m + c) else 0)
          else b0 (SIZE * m + c) := by
    intro n b0
    refine forLoop_one_induction
      (fun t (s : Buf R) => s (SIZE * m + c)
        = if m < t then
            (if j + c < num_col then in_matrix (num_col * i + j + num_col * m + c) else 0)
          else b0 (SIZE * m + c)) n _ b0 ?_ ?_
    · beta_reduce
      rw [if_neg (Nat.not_lt_zero m)]
    · intro t s _ hP
      beta_reduce at hP ⊢
      rw [copyTileRow_apply in_matrix num_col i j t hj s m c hc]
      by_cases hmt : m = t
      · subst hmt
        rw [if_pos rfl, if_pos (Nat.lt_succ_self m)]
      · rw [if_neg hmt, hP]
        have e : (m < t + 1) ↔ (m < t) := by omega
        simp only [e]
  have e : m * SIZE + c = SIZE * m + c := by rw [Nat.mul_comm]
  have e2 : num_col * i + j + num_col * m + c = (i + m) * num_col + j + c := by ring
  rw [e, inv, e2]
  by_cases h : num_row - i ≥ SIZE
  · have h3 : i + m < num_row := by omega
    simp only [h, hm, h3, if_true, true_and]
  · simp only [h, if_false]
    rw [zeroFill_zero_apply]
    by_cases h1 : m < num_row - i
    · have h3 : i + m < num_row := by omega
      simp only [h1, h3, if_true, true_and]
    · have h3 : ¬ i + m < num_row := by omega
      have h4 : SIZE * m + c < SIZE * SIZE := by
        simp only [SIZE] at hm hc ⊢
        omega
      simp only [h1, h3, h4, if_false, if_true, false_and]

end BufferLemmas

/-! ## Sums over tiles -/

section Sums

variable {R : Type} [CommRing R]

/-- A zero-padded tile of width `len` starting at `j` extends the sum of the terms below
`j` to the sum of the terms below `j + len`, both cut at `n`. -/
theorem sum_pad (f : Nat → R) (j n len : Nat) :
    (∑ c in Finset.range (min j n), f c)
        + ∑ c in Finset.range len, (if j + c < n then f (j + c) else 0)
      = ∑ c in Finset.range (min (j + len) n), f c := by
  induction len with
  | zero => simp
  | succ len ih =>
    rw [Finset.sum_range_succ, ← add_assoc, ih]
    by_cases h : j + len < n
    · rw [if_pos h]
      have e1 : min (j + len) n = j + len := by omega
      have e2 : min (j + (len + 1)) n = j + len + 1 := by omega
      rw [e1, e2, Finset.sum_range_succ]
    · rw [if_neg h, add_zero]
      have e1 : min (j + len) n = n := by omega
      have e2 : min (j + (len + 1)) n = n := by omega
      rw [e1, e2]

theorem numTiles_mul_ge (n : Nat) : n ≤ numTiles n * SIZE := by
  have h := lt_numTiles_iff n (numTiles n)
  omega

theorem min_tiles (t n : Nat) : min (min t (numTiles n) * SIZE) n = min (t * SIZE) n := by
  by_cases h : t ≤ numTiles n
  · rw [Nat.min_eq_left h]
  · have h1 : numTiles n ≤ t := by omega
    rw [Nat.min_eq_right h1]
    have h2 := numTiles_mul_ge n
    have h3 : numTiles n * SIZE ≤ t * SIZE := Nat.mul_le_mul_right SIZE h1
    omega

end Sums

/-! ## The vector path -/

section MatvecLemmas

variable {R : Type} [CommRing R]

theorem matvecColumnStep_output_buffer (mv : Buf R → Buf R → Buf R)
    (in_matrix in_vector : Buf R) (num_row num_col i j : Nat) (s : MatvecState R) (n : Nat) :
    (matvecColumnStep mv in_matrix in_vector num_row num_col i j s).output_buffer n
      = if n < SIZE then
          s.output_buffer n
            + mv (fillMatrixTile in_matrix num_row num_col i j s.fpga_matrix)
                (fillVectorTile in_vector num_col j s.fpga_vector) n
        else s.output_buffer n := by
  simp only [matvecColumnStep]
  rw [accumulate_apply]

/-- What the exact accelerator returns for the tile at `(i, j)`. -/
theorem exact_tile_result (mv : Buf R → Buf R → Buf R) (hmv : IsExactMatvec mv)
    (in_matrix in_vector : Buf R) (num_row num_col i j : Nat) (hi : i < num_row)
    (hj : j < num_col) (bm bv : Buf R) (n : Nat) (hn : n < SIZE) :
    mv (fillMatrixTile in_matrix num_row num_col i j bm) (fillVectorTile in_vector num_col j bv) n
      = if i + n < num_row then
          ∑ c in Finset.range SIZE,
            (if j + c < num_col then
              in_matrix ((i + n) * num_col + (j + c)) * in_vector (j + c) else 0)
        else 0 := by
  rw [hmv _ _ n hn]
  by_cases h : i + n < num_row
  · rw [if_pos h]
    refine Finset.sum_congr rfl (fun c hc => ?_)
    have hc2 : c < SIZE := Finset.mem_range.mp hc
    rw [fillMatrixTile_apply in_matrix num_row num_col i j hi hj bm n c hn hc2,
      fillVectorTile_apply in_vector num_col j hj bv c, if_pos hc2]
    by_cases h2 : j + c < num_col
    · rw [if_pos ⟨h, h2⟩, if_pos h2, if_pos h2, Nat.add_assoc]
    · rw [if_neg h2, if_neg h2, mul_zero]
  · rw [if_neg h]
    refine Finset.sum_eq_zero (fun c hc => ?_)
    have hc2 : c < SIZE := Finset.mem_range.mp hc
    rw [fillMatrixTile_apply in_matrix num_row num_col i j hi hj bm n c hn hc2,
      if_neg (fun h3 => h h3.1), zero_mul]

/-- The accumulator after the first `t` column tiles of the row tile starting at `i`. -/
theorem columnLoop_output_buffer (mv : Buf R → Buf R → Buf R) (hmv : IsExactMatvec mv)
    (in_matrix in_vector : Buf R) (num_row num_col i : Nat) (hi : i < num_row)
    (s0 : MatvecState R) (h0 : ∀ n, s0.output_buffer n = 0) (t n : Nat) (hn : n < SIZE) :
    (forLoopAux num_col SIZE (matvecColumnStep mv in_matrix in_vector num_row num_col i)
        t 0 s0).output_buffer n
      = if i + n < num_row then
          ∑ c in Finset.range (min (t * SIZE) num_col),
            in_matrix ((i + n) * num_col + c) * in_vector c
        else 0 := by
  have key := forLoopAux_SIZE_induction
    (fun u (s : MatvecState R) => s.output_buffer n
      = if i + n < num_row then
          ∑ c in Finset.range (min (u * SIZE) num_col),
            in_matrix ((i + n) * num_col + c) * in_vector c
        else 0) num_col t
    (matvecColumnStep mv in_matrix in_vector num_row num_col i) s0 ?_ ?_
  · beta_reduce at key
    rw [min_tiles] at key
    exact key
  · beta_reduce
    rw [h0 n]
    simp
  · intro u s hu hP
    beta_reduce at hP ⊢
    rw [matvecColumnStep_output_buffer, if_pos hn, hP,
      exact_tile_result mv hmv in_matrix in_vector num_row num_col i (u * SIZE) hi hu _ _ n hn]
    by_cases h : i + n < num_row
    · simp only [h, if_true]
      have e : (u + 1) * SIZE = u * SIZE + SIZE := by rw [Nat.add_mul, Nat.one_mul]
      rw [e]
      exact sum_pad (fun c => in_matrix ((i + n) * num_col + c) * in_vector c)
        (u * SIZE) num_col SIZE
    · simp only [h, if_false, add_zero]

theorem columnLoop_out_vector (mv : Buf R → Buf R → Buf R) (in_matrix in_vector : Buf R)
    (num_row num_col i : Nat) (s0 : MatvecState R) :
    (forLoop num_col SIZE (matvecColumnStep mv in_matrix in_vector num_row num_col i)
        s0).out_vector = s0.out_vector :=
  forLoop_SIZE_induction (fun _ (s : MatvecState R) => s.out_vector = s0.out_vector) num_col
    _ s0 rfl (fun _ _ _ hP => hP)

/-- The effect of one row tile on `out_vector`, for the exact accelerator. -/
theorem matvecRowStep_out_vector (mv : Buf R → Buf R → Buf R) (hmv : IsExactMatvec mv)
    (in_matrix in_vector : Buf R) (num_row num_col i : Nat) (hi : i < num_row)
    (s : MatvecState R) (x : Nat) :
    (matvecRowStep mv in_matrix in_vector num_row num_col i s).out_vector x
      = if i ≤ x ∧ x < i + SIZE ∧ x < num_row then
          ∑ c in Finset.range num_col, in_matrix (x * num_col + c) * in_vector c
        else s.out_vector x := by
  unfold matvecRowStep matvecRowFinish
  dsimp only
  rw [columnLoop_out_vector]
  have hb : ∀ n, n < SIZE →
      (forLoop num_col SIZE (matvecColumnStep mv in_matrix in_vector num_row num_col i)
        (matvecRowInit s)).output_buffer n
      = if i + n < num_row then
          ∑ c in Finset.range num_col, in_matrix ((i + n) * num_col + c) * in_vector c
        else 0 := by
    intro n hn
    have h := columnLoop_output_buffer mv hmv in_matrix in_vector num_row num_col i hi
      (matvecRowInit s) (fun _ => rfl) num_col n hn
    have e : min (num_col * SIZE) num_col = num_col :=
      Nat.min_eq_right (Nat.le_mul_of_pos_right num_col SIZE_pos)
    rw [e] at h
    exact h
  by_cases hx : i ≤ x ∧ x < i + SIZE ∧ x < num_row
  · rw [if_pos hx]
    have e : i + (x - i) = x := by omega
    by_cases h : num_row - i ≥ SIZE
    · rw [if_pos h]
      simp only [memcpy]
      rw [if_pos (by omega), Nat.zero_add, hb (x - i) (by omega), e, if_pos hx.2.2]
    · rw [if_neg h]
      simp only [memcpy]
      rw [if_pos (by omega), Nat.zero_add, hb (x - i) (by omega), e, if_pos hx.2.2]
  · rw [if_neg hx]
    by_cases h : num_row - i ≥ SIZE
    · rw [if_pos h]
      simp only [memcpy]
      rw [if_neg (by omega)]
      rfl
    · rw [if_neg h]
      simp only [memcpy]
      rw [if_neg (by omega)]
      rfl

/-- The output of the tiled product for the exact accelerator: the rows below `num_row`
hold the product, everything behind them is untouched. -/
theorem fpga_large_matvec_naive_out_vector (mv : Buf R → Buf R → Buf R)
    (hmv : IsExactMatvec mv) (fm0 fv0 in_matrix in_vector out_vector : Buf R)
    (num_row num_col x : Nat) :
    (fpga_large_matvec_naive mv fm0 fv0 in_matrix in_vector out_vector num_row
        num_col).out_vector x
      = if x < num_row then
          ∑ c in Finset.range num_col, in_matrix (x * num_col + c) * in_vector c
        else out_vector x := by
  simp only [fpga_large_matvec_naive]
  have key := forLoop_SIZE_induction
    (fun T (s : MatvecState R) => ∀ y, s.out_vector y
      = if y < min (T * SIZE) num_row then
          ∑ c in Finset.range num_col, in_matrix (y * num_col + c) * in_vector c
        else forLoop num_row 1 (fun p o => store o p 0) out_vector y) num_row
    (matvecRowStep mv in_matrix in_vector num_row num_col)
    { fpga_matrix := fm0
      fpga_vector := fv0
      out := fun _ => 0
      output_buffer := fun _ => 0
      out_vector := forLoop num_row 1 (fun p o => store o p 0) out_vector
      calls := [] } ?_ ?_
  · beta_reduce at key
    rw [key x]
    have e : min (numTiles num_row * SIZE) num_row = num_row :=
      Nat.min_eq_right (numTiles_mul_ge num_row)
    rw [e, zeroFill_zero_apply]
    by_cases h : x < num_row
    · simp only [h, if_true]
    · simp only [h, if_false]
  · intro y
    have : ¬ y < min (0 * SIZE) num_row := by omega
    rw [if_neg this]
  · intro T s hT hP y
    rw [matvecRowStep_out_vector mv hmv in_matrix in_vector num_row num_col (T * SIZE) hT s y,
      hP y]
    have e : (T + 1) * SIZE = T * SIZE + SIZE := by rw [Nat.add_mul, Nat.one_mul]
    rw [e]
    by_cases h1 : T * SIZE ≤ y ∧ y < T * SIZE + SIZE ∧ y < num_row
    · rw [if_pos h1, if_pos (by omega)]
    · rw [if_neg h1]
      by_cases h2 : y < min (T * SIZE) num_row
      · rw [if_pos h2, if_pos (by omega)]
      · rw [if_neg h2, if_neg (by omega)]

/-- The inner loop of `cpu_matvec` adds the row sum to element `i`. -/
theorem cpu_row_apply (f : Nat → R) (i n : Nat) (o : Buf R) (x : Nat) :
    forLoop n 1 (fun j o => store o i (o i + f j)) o x
      = if x = i then o i + ∑ j in Finset.range n, f j else o x := by
  refine forLoop_one_induction
    (fun t (s : Buf R) => ∀ y, s y
      = if y = i then o i + ∑ j in Finset.range t, f j else o y) n _ o ?_ ?_ x
  · intro y
    by_cases h : y = i
    · rw [if_pos h, h]
      simp
    · rw [if_neg h]
  · intro t s _ hP y
    simp only [store]
    by_cases h : y = i
    · rw [if_pos h, if_pos h, hP i, if_pos rfl, Finset.sum_range_succ, add_assoc]
    · rw [if_neg h, if_neg h, hP y, if_neg h]

theorem cpu_matvec_apply (in_matrix in_vector out_vector : Buf R) (num_row num_col x : Nat) :
    cpu_matvec in_matrix in_vector out_vector num_row num_col x
      = if x < num_row then
          ∑ c in Finset.range num_col, in_matrix (x * num_col + c) * in_vector c
        else out_vector x := by
  simp only [cpu_matvec]
  have key := forLoop_one_induction
    (fun t (s : Buf R) => ∀ y, s y
      = if y < t then
          ∑ c in Finset.range num_col, in_matrix (y * num_col + c) * in_vector c
        else forLoop num_row 1 (fun p o => store o p 0) out_vector y) num_row
    (fun i o => forLoop num_col 1 (fun j o =>
      store o i (o i + in_matrix (num_col * i + j) * in_vector j)) o)
    (forLoop num_row 1 (fun p o => store o p 0) out_vector) ?_ ?_
  · beta_reduce at key
    rw [key x, zeroFill_zero_apply]
    by_cases h : x < num_row
    · simp only [h, if_true]
    · simp only [h, if_false]
  · intro y
    rw [if_neg (Nat.not_lt_zero y)]
  · intro t s ht hP y
    beta_reduce
    rw [cpu_row_apply (fun j => in_matrix (num_col * t + j) * in_vector j) t num_col s y]
    by_cases h : y = t
    · subst h
      rw [if_pos rfl, if_pos (Nat.lt_succ_self y), hP y, if_neg (Nat.lt_irrefl y),
        zeroFill_zero_apply, if_pos ht, zero_add, Nat.mul_comm]
    · rw [if_neg h, hP y]
      have e : (y < t + 1) ↔ (y < t) := by omega
      simp only [e]

end MatvecLemmas

/-! ## The matrix path, Strategy B -/

section MatmulLemmas

variable {R : Type} [CommRing R]

theorem tilesize_lt_iff (n x p : Nat) (hx : x < n) :
    p < tilesize n x ↔ p < SIZE ∧ x + p < n := by
  unfold tilesize
  by_cases h : n - x ≥ SIZE
  · rw [if_pos h]; omega
  · rw [if_neg h]; omega

theorem matmulChunkStep_output_buffer (mm : Buf R → Buf R → Buf R)
    (in_matrix1 in_matrix2 : Buf R) (num_colA num_colB i tsi j tsj k : Nat)
    (s : MatmulState R) (x : Nat) :
    (matmulChunkStep mm in_matrix1 in_matrix2 num_colA num_colB i tsi j tsj k s).output_buffer x
      = if x < SIZE * SIZE then
          s.output_buffer x
            + (matmulChunkStep mm in_matrix1 in_matrix2 num_colA num_colB i tsi j tsj k s).out x
        else s.output_buffer x := by
  simp only [matmulChunkStep]
  rw [accumulate_apply]

theorem matmulChunkStep_out_matrix (mm : Buf R → Buf R → Buf R)
    (in_matrix1 in_matrix2 : Buf R) (num_colA num_colB i tsi j tsj k : Nat)
    (s : MatmulState R) :
    (matmulChunkStep mm in_matrix1 in_matrix2 num_colA num_colB i tsi j tsj k s).out_matrix
      = s.out_matrix := by
  simp only [matmulChunkStep]

theorem matmulChunkStep_calls (mm : Buf R → Buf R → Buf R)
    (in_matrix1 in_matrix2 : Buf R) (num_colA num_colB i tsi j tsj k : Nat)
    (s : MatmulState R) :
    (matmulChunkStep mm in_matrix1 in_matrix2 num_colA num_colB i tsi j tsj k s).calls
      = s.calls ++
        [⟨i, j, k,
          (matmulChunkStep mm in_matrix1 in_matrix2 num_colA num_colB i tsi j tsj k
            s).fpga_matrix1,
          (matmulChunkStep mm in_matrix1 in_matrix2 num_colA num_colB i tsi j tsj k
            s).fpga_matrix2,
          (matmulChunkStep mm in_matrix1 in_matrix2 num_colA num_colB i tsi j tsj k s).out⟩] := by
  simp only [matmulChunkStep]

/-- An index `r * N + q` with `q < N` lies in the piece `[j, j + len)` of row `a` exactly
when `r = a` and `q` lies in `[j, j + len)`. -/
theorem row_index_iff (N a r q j len : Nat) (hq : q < N) (hj : j + len ≤ N) :
    (N * a + j ≤ r * N + q ∧ r * N + q < N * a + j + len)
      ↔ (r = a ∧ j ≤ q ∧ q < j + len) := by
  have e : r * N = N * r := Nat.mul_comm r N
  rcases Nat.lt_trichotomy r a with h | h | h
  · have h1 : N * (r + 1) ≤ N * a := Nat.mul_le_mul_left N h
    rw [Nat.mul_add, Nat.mul_one] at h1
    omega
  · subst h
    omega
  · have h1 : N * (a + 1) ≤ N * r := Nat.mul_le_mul_left N h
    rw [Nat.mul_add, Nat.mul_one] at h1
    omega

/-- The loop that saves the first `n` rows of the accumulator into the output matrix. -/
theorem saveRows_apply (ob : Buf R) (N i j len n : Nat) (hj : j + len ≤ N) (o0 : Buf R)
    (r q : Nat) (hq : q < N) :
    forLoop n 1 (fun p o => memcpy o (N * i + N * p + j) ob (SIZE * p) len) o0 (r * N + q)
      = if (i ≤ r ∧ r < i + n) ∧ (j ≤ q ∧ q < j + len) then ob (SIZE * (r - i) + (q - j))
        else o0 (r * N + q) := by
  refine forLoop_one_induction
    (fun t (s : Buf R) => s (r * N + q)
      = if (i ≤ r ∧ r < i + t) ∧ (j ≤ q ∧ q < j + len) then ob (SIZE * (r - i) + (q - j))
        else o0 (r * N + q)) n _ o0 ?_ ?_
  · beta_reduce
    rw [if_neg (by omega)]
  · intro t s _ hP
    beta_reduce at hP ⊢
    simp only [memcpy]
    have e : N * i + N * t = N * (i + t) := by rw [Nat.mul_add]
    have key := row_index_iff N (i + t) r q j len hq hj
    rw [e]
    by_cases h : r = i + t ∧ j ≤ q ∧ q < j + len
    · rw [if_pos (key.mpr h), if_pos (by omega)]
      congr 1
      have e1 : r - i = t := by omega
      have e2 : r * N + q - (N * (i + t) + j) = q - j := by
        rw [h.1, Nat.mul_comm (i + t) N]
        omega
      rw [e1, e2]
    · rw [if_neg (fun h2 => h (key.mp h2)), hP]
      have e3 : ((i ≤ r ∧ r < i + (t + 1)) ∧ (j ≤ q ∧ q < j + len))
          ↔ ((i ≤ r ∧ r < i + t) ∧ (j ≤ q ∧ q < j + len)) := by omega
      simp only [e3]

end MatmulLemmas


section MatmulOutput

variable {R : Type} [CommRing R]

end MatmulOutput

/-! ## Reference product, transpose, and Strategy A -/

section StrategyA

variable {R : Type} [CommRing R]

theorem index_eq_iff (N a r q j : Nat) (hq : q < N) (hj : j < N) :
    r * N + q = a * N + j ↔ (r = a ∧ q = j) := by
  have h := row_index_iff N a r q j 1 hq (by omega)
  have e : a * N = N * a := Nat.mul_comm a N
  omega

theorem index_lt_mul (M N r q : Nat) (hr : r < M) (hq : q < N) : r * N + q < M * N := by
  have h1 : (r + 1) * N ≤ M * N := Nat.mul_le_mul_right N hr
  rw [Nat.add_mul, Nat.one_mul] at h1
  omega

theorem mat_transpose_naive_apply (in_matrix out_matrix : Buf R) (num_row num_col i j : Nat)
    (hi : i < num_row) :
    mat_transpose_naive in_matrix out_matrix num_row num_col (j * num_row + i)
      = if j < num_col then in_matrix (i * num_col + j) else out_matrix (j * num_row + i) := by
  simp only [mat_transpose_naive]
  have inner : ∀ (a : Nat) (ha : a < num_row) (n : Nat) (o : Buf R),
      forLoop n 1 (fun j o => store o (j * num_row + a) (in_matrix (a * num_col + j))) o
          (j * num_row + i)
        = if i = a ∧ j < n then in_matrix (a * num_col + j) else o (j * num_row + i) := by
    intro a ha n o
    refine forLoop_one_induction
      (fun t (s : Buf R) => s (j * num_row + i)
        = if i = a ∧ j < t then in_matrix (a * num_col + j) else o (j * num_row + i)) n _ o
      ?_ ?_
    · beta_reduce
      rw [if_neg (by omega)]
    · intro t s _ hP
      beta_reduce at hP ⊢
      simp only [store]
      have key := index_eq_iff num_row t j i a hi ha
      by_cases h : j = t ∧ i = a
      · rw [if_pos (key.mpr h), if_pos (by omega), h.1]
      · rw [if_neg (fun h2 => h (key.mp h2)), hP]
        have e3 : (i = a ∧ j < t + 1) ↔ (i = a ∧ j < t) := by omega
        simp only [e3]
  have key := forLoop_one_induction
    (fun T (s : Buf R) => s (j * num_row + i)
      = if i < T ∧ j < num_col then in_matrix (i * num_col + j)
        else out_matrix (j * num_row + i)) num_row
    (fun i o => forLoop num_col 1
      (fun j o => store o (j * num_row + i) (in_matrix (i * num_col + j))) o) out_matrix ?_ ?_
  · beta_reduce at key
    rw [key]
    simp only [hi, true_and]
  · beta_reduce
    rw [if_neg (by omega)]
  · intro T s hT hP
    beta_reduce at hP ⊢
    rw [inner T hT num_col s, hP]
    by_cases h : i = T ∧ j < num_col
    · rw [if_pos h, if_pos (by omega), h.1]
    · rw [if_neg h]
      have e3 : (i < T + 1 ∧ j < num_col) ↔ (i < T ∧ j < num_col) := by omega
      simp only [e3]

theorem cpu_matmul_apply (in_matrix1 in_matrix2 out_matrix : Buf R)
    (num_rowA num_colA num_colB r q : Nat) (hq : q < num_colB) :
    cpu_matmul in_matrix1 in_matrix2 out_matrix num_rowA num_colA num_colB (r * num_colB + q)
      = if r < num_rowA then
          ∑ c in Finset.range num_colA,
            in_matrix1 (r * num_colA + c) * in_matrix2 (c * num_colB + q)
        else out_matrix (r * num_colB + q) := by
  simp only [cpu_matmul]
  have inner : ∀ (a n : Nat) (hn : n ≤ num_colB) (o : Buf R),
      forLoop n 1 (fun j o => forLoop num_colA 1 (fun k o =>
          store o (a * num_colB + j)
            (o (a * num_colB + j)
              + in_matrix1 (a * num_colA + k) * in_matrix2 (k * num_colB + j))) o) o
          (r * num_colB + q)
        = if r = a ∧ q < n then
            o (r * num_colB + q)
              + ∑ c in Finset.range num_colA,
                  in_matrix1 (r * num_colA + c) * in_matrix2 (c * num_colB + q)
          else o (r * num_colB + q) := by
    intro a n hn o
    refine (forLoop_one_induction
      (fun t (s : Buf R) => (∀ y, t ≤ y → y < num_colB →
          s (a * num_colB + y) = o (a * num_colB + y)) ∧ s (r * num_colB + q)
        = if r = a ∧ q < t then
            o (r * num_colB + q)
              + ∑ c in Finset.range num_colA,
                  in_matrix1 (r * num_colA + c) * in_matrix2 (c * num_colB + q)
          else o (r * num_colB + q)) n _ o ?_ ?_).2
    · beta_reduce
      refine ⟨fun _ _ _ => rfl, ?_⟩
      rw [if_neg (by omega)]
    · intro t s htn hP
      beta_reduce at hP ⊢
      have ht : t < num_colB := by omega
      have step : ∀ x, forLoop num_colA 1 (fun k o =>
          store o (a * num_colB + t)
            (o (a * num_colB + t)
              + in_matrix1 (a * num_colA + k) * in_matrix2 (k * num_colB + t))) s x
          = if x = a * num_colB + t then
              s (a * num_colB + t)
                + ∑ k in Finset.range num_colA,
                    in_matrix1 (a * num_colA + k) * in_matrix2 (k * num_colB + t)
            else s x := fun x =>
        cpu_row_apply (fun k => in_matrix1 (a * num_colA + k) * in_matrix2 (k * num_colB + t))
          (a * num_colB + t) num_colA s x
      constructor
      · intro y hy1 hy2
        rw [step, if_neg (by omega)]
        exact hP.1 y (by omega) hy2
      · rw [step]
        have key := index_eq_iff num_colB a r q t hq ht
        by_cases h : r = a ∧ q = t
        · rw [if_pos (key.mpr h), if_pos (by omega), hP.1 t (Nat.le_refl t) ht, h.1, h.2]
        · rw [if_neg (fun h2 => h (key.mp h2)), hP.2]
          have e3 : (r = a ∧ q < t + 1) ↔ (r = a ∧ q < t) := by omega
          simp only [e3]
  have key := forLoop_one_induction
    (fun T (s : Buf R) => s (r * num_colB + q)
      = if r < T then
          ∑ c in Finset.range num_colA,
            in_matrix1 (r * num_colA + c) * in_matrix2 (c * num_colB + q)
        else forLoop (num_rowA * num_colB) 1 (fun p o => store o p 0) out_matrix
          (r * num_colB + q)) num_rowA
    (fun i o => forLoop num_colB 1 (fun j o => forLoop num_colA 1 (fun k o =>
      store o (i * num_colB + j)
        (o (i * num_colB + j)
          + in_matrix1 (i * num_colA + k) * in_matrix2 (k * num_colB + j))) o) o)
    (forLoop (num_rowA * num_colB) 1 (fun p o => store o p 0) out_matrix) ?_ ?_
  · beta_reduce at key
    rw [key, zeroFill_zero_apply]
    by_cases h : r < num_rowA
    · simp only [h, if_true]
    · have h2 : ¬ r * num_colB + q < num_rowA * num_colB := by
        have h1 : num_rowA * num_colB ≤ r * num_colB :=
          Nat.mul_le_mul_right num_colB (by omega)
        omega
      simp only [h, h2, if_false]
  · beta_reduce
    rw [if_neg (by omega)]
  · intro T s hT hP
    beta_reduce at hP ⊢
    rw [inner T num_colB (Nat.le_refl _) s, hP]
    by_cases h : r = T
    · subst h
      have h1 := index_lt_mul num_rowA num_colB r q hT hq
      simp only [hq, and_self, if_true, Nat.lt_irrefl, if_false, Nat.lt_succ_self]
      rw [zeroFill_zero_apply, if_pos h1, zero_add]
    · have e3 : (r < T + 1) ↔ (r < T) := by omega
      simp only [h, false_and, if_false, e3]

/-- The output of Strategy A, for any accelerator with which the tiled matrix-vector
product is exact. -/
theorem fpga_large_matmul_naive_out_matrix (mv : Buf R → Buf R → Buf R)
    (num_rowA num_colA num_colB : Nat)
    (H : ∀ (fm fv M v o : Buf R) (x : Nat), x < num_rowA →
      (fpga_large_matvec_naive mv fm fv M v o num_rowA num_colA).out_vector x
        = ∑ c in Finset.range num_colA, M (x * num_colA + c) * v c)
    (stack_matrix stack_vector : Nat → Buf R)
    (heap1 heap2 in_matrix1 in_matrix2 out_matrix : Buf R) (r q : Nat) (hq : q < num_colB) :
    (fpga_large_matmul_naive mv stack_matrix stack_vector heap1 heap2 in_matrix1 in_matrix2
        out_matrix num_rowA num_colA num_colB).out_matrix (r * num_colB + q)
      = if r < num_rowA then
          ∑ c in Finset.range num_colA,
            in_matrix1 (r * num_colA + c) * in_matrix2 (c * num_colB + q)
        else out_matrix (r * num_colB + q) := by
  simp only [fpga_large_matmul_naive]
  rw [mat_transpose_naive_apply _ out_matrix num_colB num_rowA q r hq]
  by_cases hr : r < num_rowA
  · rw [if_pos hr, if_pos hr]
    have key := forLoop_one_induction
      (fun T (st : Buf R × List (List (MatvecCall R))) => ∀ col y, col < T → y < num_rowA →
        st.1 (col * num_rowA + y)
          = ∑ c in Finset.range num_colA,
              in_matrix1 (y * num_colA + c) * in_matrix2 (c * num_colB + col)) num_colB
      (matmulNaiveStep mv stack_matrix stack_vector in_matrix1
        (mat_transpose_naive in_matrix2 heap1 num_colA num_colB) num_rowA num_colA)
      (forLoop (num_rowA * num_colB) 1 (fun n o => store o n 0) heap2, []) ?_ ?_
    · exact key q r hq hr
    · intro col y hcol _
      omega
    · intro T st hT hP col y hcol hy
      simp only [matmulNaiveStep, writeBack]
      by_cases h : col = T
      · subst h
        have e1 : num_rowA * col ≤ col * num_rowA + y := by
          rw [Nat.mul_comm]; omega
        have e2 : col * num_rowA + y - num_rowA * col = y := by
          rw [Nat.mul_comm]; omega
        rw [if_pos e1, e2, H _ _ _ _ _ y hy]
        refine Finset.sum_congr rfl (fun c hc => ?_)
        have hc2 : c < num_colA := Finset.mem_range.mp hc
        simp only [offset]
        rw [Nat.mul_comm num_colA col,
          mat_transpose_naive_apply in_matrix2 heap1 num_colA num_colB c col hc2, if_pos hT]
      · have h1 : col < T := by omega
        have h2 : ¬ num_rowA * T ≤ col * num_rowA + y := by
          have h3 : (col + 1) * num_rowA ≤ T * num_rowA := Nat.mul_le_mul_right num_rowA h1
          rw [Nat.add_mul, Nat.one_mul, Nat.mul_comm T num_rowA] at h3
          omega
        rw [if_neg h2]
        exact hP col y h1 hy
  · rw [if_neg hr, if_neg hr]

end StrategyA


/-! ## The calls made by the tiling engine -/

section CallLogs

variable {R : Type} [CommRing R]

theorem matvecColumnStep_calls (mv : Buf R → Buf R → Buf R) (in_matrix in_vector : Buf R)
    (num_row num_col i j : Nat) (s : MatvecState R) :
    (matvecColumnStep mv in_matrix in_vector num_row num_col i j s).calls
      = s.calls ++
        [⟨i, j, fillMatrixTile in_matrix num_row num_col i j s.fpga_matrix,
          fillVectorTile in_vector num_col j s.fpga_vector,
          mv (fillMatrixTile in_matrix num_row num_col i j s.fpga_matrix)
            (fillVectorTile in_vector num_col j s.fpga_vector)⟩] := by
  simp only [matvecColumnStep]

theorem matvecColumnStep_out_vector (mv : Buf R → Buf R → Buf R)
    (in_matrix in_vector : Buf R) (num_row num_col i j : Nat) (s : MatvecState R) :
    (matvecColumnStep mv in_matrix in_vector num_row num_col i j s).out_vector
      = s.out_vector := by
  simp only [matvecColumnStep]

end CallLogs


/-! ## Accumulation of the accelerator results, for an arbitrary accelerator -/

section Accumulation

variable {R : Type} [CommRing R]

/-- One row tile writes, for each of its rows, the sum of the results of the calls it made. -/
theorem matvecRowStep_results (mv : Buf R → Buf R → Buf R) (in_matrix in_vector : Buf R)
    (num_row num_col i : Nat) (s : MatvecState R) :
    ∃ news : List (MatvecCall R),
      (matvecRowStep mv in_matrix in_vector num_row num_col i s).calls = s.calls ++ news ∧
      (∀ c ∈ news, c.i = i) ∧
      ∀ x, (matvecRowStep mv in_matrix in_vector num_row num_col i s).out_vector x
        = if i ≤ x ∧ x < i + SIZE ∧ x < num_row then
            (news.map (fun c => c.result (x - i))).sum
          else s.out_vector x := by
  simp only [matvecRowStep, matvecRowFinish]
  have key := forLoop_SIZE_induction
    (fun _ (s1 : MatvecState R) => ∃ news : List (MatvecCall R),
      s1.calls = s.calls ++ news ∧ (∀ c ∈ news, c.i = i) ∧
      (∀ n, n < SIZE → s1.output_buffer n = (news.map (fun c => c.result n)).sum) ∧
      s1.out_vector = s.out_vector) num_col
    (matvecColumnStep mv in_matrix in_vector num_row num_col i) (matvecRowInit s) ?_ ?_
  · obtain ⟨news, h1, h2, h3, h4⟩ := key
    refine ⟨news, h1, h2, fun x => ?_⟩
    rw [h4]
    by_cases hx : i ≤ x ∧ x < i + SIZE ∧ x < num_row
    · rw [if_pos hx]
      by_cases h : num_row - i ≥ SIZE
      · rw [if_pos h]
        simp only [memcpy]
        rw [if_pos (by omega), Nat.zero_add, h3 (x - i) (by omega)]
      · rw [if_neg h]
        simp only [memcpy]
        rw [if_pos (by omega), Nat.zero_add, h3 (x - i) (by omega)]
    · rw [if_neg hx]
      by_cases h : num_row - i ≥ SIZE
      · rw [if_pos h]
        simp only [memcpy]
        rw [if_neg (by omega)]
      · rw [if_neg h]
        simp only [memcpy]
        rw [if_neg (by omega)]
  · exact ⟨[], by simp [matvecRowInit], by simp, fun n _ => by simp [matvecRowInit], rfl⟩
  · intro U s1 hU hP
    obtain ⟨news, h1, h2, h3, h4⟩ := hP
    refine ⟨news ++ [⟨i, U * SIZE,
      fillMatrixTile in_matrix num_row num_col i (U * SIZE) s1.fpga_matrix,
      fillVectorTile in_vector num_col (U * SIZE) s1.fpga_vector,
      mv (fillMatrixTile in_matrix num_row num_col i (U * SIZE) s1.fpga_matrix)
        (fillVectorTile in_vector num_col (U * SIZE) s1.fpga_vector)⟩], ?_, ?_, ?_, ?_⟩
    · rw [matvecColumnStep_calls, h1, List.append_assoc]
    · intro c hc
      rcases List.mem_append.mp hc with h | h
      · exact h2 c h
      · rw [List.mem_singleton] at h
        rw [h]
    · intro n hn
      rw [matvecColumnStep_output_buffer, if_pos hn, h3 n hn, List.map_append, List.sum_append]
      simp
    · rw [matvecColumnStep_out_vector, h4]

/-- Every element that `fpga_large_matvec_naive` writes is the sum of the results of the
calls made for its own row tile. -/
theorem fpga_large_matvec_naive_results (mv : Buf R → Buf R → Buf R)
    (fm0 fv0 in_matrix in_vector out_vector : Buf R) (num_row num_col a n : Nat)
    (hn : n < SIZE) (han : a * SIZE + n < num_row) :
    (fpga_large_matvec_naive mv fm0 fv0 in_matrix in_vector out_vector num_row
        num_col).out_vector (a * SIZE + n)
      = (((fpga_large_matvec_naive mv fm0 fv0 in_matrix in_vector out_vector num_row
          num_col).calls.filter (fun c => decide (c.i = a * SIZE))).map
            (fun c => c.result n)).sum := by
  simp only [fpga_large_matvec_naive]
  have key := forLoop_SIZE_induction
    (fun T (s : MatvecState R) =>
      (∀ c ∈ s.calls, ∃ b, b < T ∧ c.i = b * SIZE) ∧
      ∀ b, b < T → b * SIZE + n < num_row →
        s.out_vector (b * SIZE + n)
          = ((s.calls.filter (fun c => decide (c.i = b * SIZE))).map
              (fun c => c.result n)).sum) num_row
    (matvecRowStep mv in_matrix in_vector num_row num_col)
    { fpga_matrix := fm0
      fpga_vector := fv0
      out := fun _ => 0
      output_buffer := fun _ => 0
      out_vector := forLoop num_row 1 (fun p o => store o p 0) out_vector
      calls := [] } ?_ ?_
  · have ha : a < numTiles num_row := (lt_numTiles_iff num_row a).mpr (by omega)
    exact key.2 a ha han
  · beta_reduce
    constructor
    · intro c hc
      simp at hc
    · intro b hb
      omega
  · intro T s hT hP
    beta_reduce at hP ⊢
    obtain ⟨news, h1, h2, h3⟩ :=
      matvecRowStep_results mv in_matrix in_vector num_row num_col (T * SIZE) s
    rw [h1]
    constructor
    · intro c hc
      rcases List.mem_append.mp hc with h | h
      · obtain ⟨b, hb1, hb2⟩ := hP.1 c h
        exact ⟨b, by omega, hb2⟩
      · exact ⟨T, Nat.lt_succ_self T, h2 c h⟩
    · intro b hb hbn
      rw [h3, List.filter_append, List.map_append, List.sum_append]
      by_cases hbT : b = T
      · subst hbT
        have e1 : List.filter (fun c => decide (c.i = b * SIZE)) s.calls = [] := by
          rw [List.filter_eq_nil_iff]
          intro c hc
          obtain ⟨b2, hb1, hb2⟩ := hP.1 c hc
          simp only [SIZE] at hb2 ⊢
          simp only [decide_eq_true_eq]
          omega
        have e2 : List.filter (fun c => decide (c.i = b * SIZE)) news = news := by
          rw [List.filter_eq_self]
          intro c hc
          simp only [decide_eq_true_eq]
          exact h2 c hc
        have e3 : b * SIZE + n - b * SIZE = n := by omega
        rw [e1, e2, if_pos (by omega), e3]
        simp
      · have hlt : b < T := by omega
        have e2 : List.filter (fun c => decide (c.i = b * SIZE)) news = [] := by
          rw [List.filter_eq_nil_iff]
          intro c hc
          have h4 := h2 c hc
          simp only [SIZE] at h4 ⊢
          simp only [decide_eq_true_eq]
          omega
        have hnot : ¬ (T * SIZE ≤ b * SIZE + n ∧ b * SIZE + n < T * SIZE + SIZE
            ∧ b * SIZE + n < num_row) := by
          simp only [SIZE] at hn ⊢
          omega
        rw [e2, if_neg hnot, hP.2 b hlt hbn]
        simp

/-- One output tile writes, for each of its elements, the sum of the results of the calls
it made. -/
theorem matmulTileStep_results (mm : Buf R → Buf R → Buf R) (in_matrix1 in_matrix2 : Buf R)
    (num_rowA num_colA num_colB i j : Nat) (hi : i < num_rowA) (hj : j < num_colB)
    (s : MatmulState R) :
    ∃ news : List (MatmulCall R),
      (matmulTileStep mm in_matrix1 in_matrix2 num_colA num_colB i (tilesize num_rowA i) j
          s).calls = s.calls ++ news ∧
      (∀ c ∈ news, c.i = i ∧ c.j = j) ∧
      ∀ r q, q < num_colB →
        (matmulTileStep mm in_matrix1 in_matrix2 num_colA num_colB i (tilesize num_rowA i) j
            s).out_matrix (r * num_colB + q)
          = if (i ≤ r ∧ r < i + SIZE ∧ r < num_rowA) ∧ (j ≤ q ∧ q < j + SIZE) then
              (news.map (fun c => c.result ((r - i) * SIZE + (q - j)))).sum
            else s.out_matrix (r * num_colB + q) := by
  simp only [matmulTileStep, matmulTileFinish]
  have key := forLoop_SIZE_induction
    (fun _ (s1 : MatmulState R) => ∃ news : List (MatmulCall R),
      s1.calls = s.calls ++ news ∧ (∀ c ∈ news, c.i = i ∧ c.j = j) ∧
      (∀ x, x < SIZE * SIZE → s1.output_buffer x = (news.map (fun c => c.result x)).sum) ∧
      s1.out_matrix = s.out_matrix) num_colA
    (matmulChunkStep mm in_matrix1 in_matrix2 num_colA num_colB i (tilesize num_rowA i) j
      (tilesize num_colB j)) (matmulTileInit s) ?_ ?_
  · obtain ⟨news, h1, h2, h3, h4⟩ := key
    refine ⟨news, h1, h2, fun r q hq => ?_⟩
    have hlen : j + tilesize num_colB j ≤ num_colB := by
      unfold tilesize
      by_cases h : num_colB - j ≥ SIZE
      · rw [if_pos h]; omega
      · rw [if_neg h]; omega
    rw [saveRows_apply _ num_colB i j (tilesize num_colB j) (tilesize num_rowA i) hlen _ r q hq,
      h4]
    have c1 : (i ≤ r ∧ r < i + tilesize num_rowA i)
        ↔ (i ≤ r ∧ r < i + SIZE ∧ r < num_rowA) := by
      have h := tilesize_lt_iff num_rowA i (r - i) hi
      omega
    have c2 : (j ≤ q ∧ q < j + tilesize num_colB j) ↔ (j ≤ q ∧ q < j + SIZE) := by
      have h := tilesize_lt_iff num_colB j (q - j) hj
      omega
    simp only [c1, c2]
    by_cases h : (i ≤ r ∧ r < i + SIZE ∧ r < num_rowA) ∧ (j ≤ q ∧ q < j + SIZE)
    · rw [if_pos h, if_pos h, Nat.mul_comm SIZE (r - i)]
      apply h3
      have h5 : r - i < SIZE := by omega
      have h6 : q - j < SIZE := by omega
      simp only [SIZE] at h5 h6 ⊢
      omega
    · rw [if_neg h, if_neg h]
  · exact ⟨[], by simp [matmulTileInit], by simp, fun n _ => by simp [matmulTileInit], rfl⟩
  · intro U s1 hU hP
    obtain ⟨news, h1, h2, h3, h4⟩ := hP
    refine ⟨news ++ [⟨i, j, U * SIZE,
      (matmulChunkStep mm in_matrix1 in_matrix2 num_colA num_colB i (tilesize num_rowA i) j
        (tilesize num_colB j) (U * SIZE) s1).fpga_matrix1,
      (matmulChunkStep mm in_matrix1 in_matrix2 num_colA num_colB i (tilesize num_rowA i) j
        (tilesize num_colB j) (U * SIZE) s1).fpga_matrix2,
      (matmulChunkStep mm in_matrix1 in_matrix2 num_colA num_colB i (tilesize num_rowA i) j
        (tilesize num_colB j) (U * SIZE) s1).out⟩], ?_, ?_, ?_, ?_⟩
    · rw [matmulChunkStep_calls, h1, List.append_assoc]
    · intro c hc
      rcases List.mem_append.mp hc with h | h
      · exact h2 c h
      · rw [List.mem_singleton] at h
        rw [h]
        exact ⟨rfl, rfl⟩
    · intro x hx
      rw [matmulChunkStep_output_buffer, if_pos hx, h3 x hx, List.map_append, List.sum_append]
      simp
    · rw [matmulChunkStep_out_matrix, h4]

/-- One output tile preserves the accumulation invariant. -/
theorem matmulTileStep_accumulated (mm : Buf R → Buf R → Buf R)
    (in_matrix1 in_matrix2 : Buf R) (num_rowA num_colA num_colB T U : Nat)
    (hT : T * SIZE < num_rowA) (hU : U * SIZE < num_colB) (s : MatmulState R)
    (hP : MatmulAccumulated num_rowA num_colB T U s) :
    MatmulAccumulated num_rowA num_colB T (U + 1)
      (matmulTileStep mm in_matrix1 in_matrix2 num_colA num_colB (T * SIZE)
        (tilesize num_rowA (T * SIZE)) (U * SIZE) s) := by
  obtain ⟨news, h1, h2, h3⟩ := matmulTileStep_results mm in_matrix1 in_matrix2 num_rowA
    num_colA num_colB (T * SIZE) (U * SIZE) hT hU s
  unfold MatmulAccumulated at hP ⊢
  rw [h1]
  constructor
  · intro c hc
    rcases List.mem_append.mp hc with h | h
    · obtain ⟨a, b, hab, hc1, hc2⟩ := hP.1 c h
      exact ⟨a, b, by omega, hc1, hc2⟩
    · exact ⟨T, U, by omega, (h2 c h).1, (h2 c h).2⟩
  · intro a b p q hab hp hq hap hbq
    rw [h3 _ _ hbq, List.filter_append, List.map_append, List.sum_append]
    by_cases hcur : a = T ∧ b = U
    · obtain ⟨ha, hb⟩ := hcur
      subst ha hb
      have e1 : List.filter (fun c => decide (c.i = a * SIZE ∧ c.j = b * SIZE)) s.calls
          = [] := by
        rw [List.filter_eq_nil_iff]
        intro c hc
        obtain ⟨a2, b2, hab2, hc1, hc2⟩ := hP.1 c hc
        simp only [SIZE] at hc1 hc2 ⊢
        simp only [decide_eq_true_eq]
        omega
      have e2 : List.filter (fun c => decide (c.i = a * SIZE ∧ c.j = b * SIZE)) news
          = news := by
        rw [List.filter_eq_self]
        intro c hc
        simp only [decide_eq_true_eq]
        exact h2 c hc
      have e3 : a * SIZE + p - a * SIZE = p := by omega
      have e4 : b * SIZE + q - b * SIZE = q := by omega
      rw [e1, e2, if_pos (by omega), e3, e4]
      simp
    · have hold : a < T ∨ (a = T ∧ b < U) := by omega
      have e2 : List.filter (fun c => decide (c.i = a * SIZE ∧ c.j = b * SIZE)) news
          = [] := by
        rw [List.filter_eq_nil_iff]
        intro c hc
        have h4 := h2 c hc
        simp only [SIZE] at h4 ⊢
        simp only [decide_eq_true_eq]
        omega
      have hnot : ¬ ((T * SIZE ≤ a * SIZE + p ∧ a * SIZE + p < T * SIZE + SIZE
          ∧ a * SIZE + p < num_rowA)
          ∧ (U * SIZE ≤ b * SIZE + q ∧ b * SIZE + q < U * SIZE + SIZE)) := by
        simp only [SIZE] at hp hq ⊢
        omega
      rw [e2, if_neg hnot, hP.2 a b p q hold hp hq hap hbq]
      simp

/-- Every element that `fpga_large_matmul_naive2` writes is the sum of the results of the
calls made for its own output tile. -/
theorem fpga_large_matmul_naive2_results (mm : Buf R → Buf R → Buf R)
    (fm1 fm2 in_matrix1 in_matrix2 out_matrix : Buf R) (num_rowA num_colA num_colB : Nat)
    (a b p q : Nat) (hp : p < SIZE) (hq : q < SIZE) (hap : a * SIZE + p < num_rowA)
    (hbq : b * SIZE + q < num_colB) :
    (fpga_large_matmul_naive2 mm fm1 fm2 in_matrix1 in_matrix2 out_matrix num_rowA num_colA
        num_colB).out_matrix ((a * SIZE + p) * num_colB + (b * SIZE + q))
      = (((fpga_large_matmul_naive2 mm fm1 fm2 in_matrix1 in_matrix2 out_matrix num_rowA
          num_colA num_colB).calls.filter
            (fun c => decide (c.i = a * SIZE ∧ c.j = b * SIZE))).map
              (fun c => c.result (p * SIZE + q))).sum := by
  simp only [fpga_large_matmul_naive2]
  have key := forLoop_SIZE_induction
    (fun T (s : MatmulState R) => MatmulAccumulated num_rowA num_colB T 0 s) num_rowA
    (matmulRowStep mm in_matrix1 in_matrix2 num_rowA num_colA num_colB)
    { fpga_matrix1 := fm1
      fpga_matrix2 := fm2
      out := fun _ => 0
      output_buffer := fun _ => 0
      out_matrix := out_matrix
      calls := [] } ?_ ?_
  · have ha : a < numTiles num_rowA := (lt_numTiles_iff num_rowA a).mpr (by omega)
    exact key.2 a b p q (Or.inl ha) hp hq hap hbq
  · constructor
    · intro c hc
      simp at hc
    · intro a b p q hab
      omega
  · intro T s hT hP
    beta_reduce at hP ⊢
    simp only [matmulRowStep]
    have inner := forLoop_SIZE_induction
      (fun U (s1 : MatmulState R) => MatmulAccumulated num_rowA num_colB T U s1) num_colB
      (matmulTileStep mm in_matrix1 in_matrix2 num_colA num_colB (T * SIZE)
        (tilesize num_rowA (T * SIZE))) s hP
      (fun U s1 hU hP1 => matmulTileStep_accumulated mm in_matrix1 in_matrix2 num_rowA
        num_colA num_colB T U hT hU s1 hP1)
    beta_reduce at inner
    unfold MatmulAccumulated at inner ⊢
    constructor
    · intro c hc
      obtain ⟨a2, b2, hab2, hc1, hc2⟩ := inner.1 c hc
      exact ⟨a2, b2, by omega, hc1, hc2⟩
    · intro a2 b2 p2 q2 hab2 hp2 hq2 hap2 hbq2
      have hb : b2 < numTiles num_colB := (lt_numTiles_iff num_colB b2).mpr (by omega)
      exact inner.2 a2 b2 p2 q2 (by omega) hp2 hq2 hap2 hbq2

end Accumulation


/-! ## The accelerator protocol -/

section ProtocolLemmas

variable {R : Type} [CommRing R]

/-- The wait loop, when the control word reads `0x5555` exactly `n` times and then another
value: it returns after `n + 1` reads, for every fuel above `n`. -/
theorem pollLoop_spec {σ : Type} (D : Device σ R) (n : Nat) :
    ∀ (fuel : Nat) (h : Host σ R), n < fuel →
      (∀ k, k < n → controlRead D k h.dev = 0x5555) →
      controlRead D n h.dev ≠ 0x5555 →
      pollLoop D fuel h
        = some (controlRead D n h.dev,
            { dev := (D.readWord (afterPolls D n h.dev) C2H IP_ADDR 4).2
              trace := h.trace ++ List.replicate (n + 1) (Transfer.read C2H IP_ADDR 4) }) := by
  induction n with
  | zero =>
    intro fuel h hf _ hdone
    obtain ⟨f, rfl⟩ : ∃ f, fuel = f + 1 := ⟨fuel - 1, by omega⟩
    have hd : (D.readWord h.dev C2H IP_ADDR 4).1 ≠ 0x5555 := hdone
    simp only [pollLoop, read_word_from_channel]
    rw [if_pos hd]
    rfl
  | succ n ih =>
    intro fuel h hf hbusy hdone
    obtain ⟨f, rfl⟩ : ∃ f, fuel = f + 1 := ⟨fuel - 1, by omega⟩
    have hb : (D.readWord h.dev C2H IP_ADDR 4).1 = 0x5555 := hbusy 0 (Nat.succ_pos n)
    simp only [pollLoop, read_word_from_channel]
    rw [if_neg (fun hne => hne hb)]
    have key := ih f
      { dev := (D.readWord h.dev C2H IP_ADDR 4).2
        trace := h.trace ++ [Transfer.read C2H IP_ADDR 4] } (by omega)
      (fun k hk => hbusy (k + 1) (by omega)) hdone
    rw [key]
    have e : h.trace ++ [Transfer.read C2H IP_ADDR 4]
          ++ List.replicate (n + 1) (Transfer.read C2H IP_ADDR 4)
        = h.trace ++ List.replicate (n + 1 + 1) (Transfer.read (R := R) C2H IP_ADDR 4) := by
      rw [List.append_assoc, List.singleton_append, ← List.replicate_succ]
    simp only [e]
    rfl

/-- The transfers of `fpga_matvec`. -/
theorem fpga_matvec_trace {σ : Type} (D : Device σ R) (fuel n : Nat)
    (in_matrix in_vector out_vector : Buf R) (h : Host σ R) (hf : n < fuel)
    (hbusy : ∀ k, k < n →
      controlRead D k
        (D.write
          (D.write
            (D.write h.dev H2C BRAM_ADDR (4 * SIZE) (Payload.floats (bufToList SIZE in_vector)))
            H2C (BRAM_ADDR + 4 * SIZE) (4 * SIZE * SIZE)
            (Payload.floats (bufToList (SIZE * SIZE) in_matrix)))
          H2C IP_ADDR 4 (Payload.word 0x5555)) = 0x5555)
    (hdone :
      controlRead D n
        (D.write
          (D.write
            (D.write h.dev H2C BRAM_ADDR (4 * SIZE) (Payload.floats (bufToList SIZE in_vector)))
            H2C (BRAM_ADDR + 4 * SIZE) (4 * SIZE * SIZE)
            (Payload.floats (bufToList (SIZE * SIZE) in_matrix)))
          H2C IP_ADDR 4 (Payload.word 0x5555)) ≠ 0x5555) :
    ∃ r, fpga_matvec D fuel in_matrix in_vector out_vector h = some r ∧
      r.2.trace = h.trace
        ++ [Transfer.write H2C BRAM_ADDR (4 * SIZE) (Payload.floats (bufToList SIZE in_vector)),
            Transfer.write H2C (BRAM_ADDR + 4 * SIZE) (4 * SIZE * SIZE)
              (Payload.floats (bufToList (SIZE * SIZE) in_matrix)),
            Transfer.write H2C IP_ADDR 4 (Payload.word 0x5555)]
        ++ List.replicate (n + 1) (Transfer.read C2H IP_ADDR 4)
        ++ [Transfer.read C2H BRAM_ADDR (4 * SIZE)] := by
  simp only [fpga_matvec]
  rw [pollLoop_spec D n fuel _ hf hbusy hdone]
  refine ⟨_, rfl, ?_⟩
  simp [read_floats_from_channel, write_to_channel]

theorem bufToList_length (n : Nat) (b : Buf R) : (bufToList n b).length = n := by
  simp [bufToList]

theorem bufToList_getD (n : Nat) (b : Buf R) (k : Nat) (hk : k < n) :
    (bufToList n b).getD k 0 = b k := by
  simp [bufToList, List.getD, hk]

theorem slot_readWord (compute : Buf R → Buf R → Buf R) (latency : Nat → Nat)
    (doneCode : Nat) (d : SlotState R) (ch : String) (addr len : Nat) :
    (slotDevice compute latency doneCode).readWord d ch addr len
      = if d.busy = 0 then (doneCode, d) else (0x5555, { d with busy := d.busy - 1 }) := rfl

theorem slot_write_floats (compute : Buf R → Buf R → Buf R) (latency : Nat → Nat)
    (doneCode : Nat) (d : SlotState R) (ch : String) (addr len : Nat) (xs : List R) :
    (slotDevice compute latency doneCode).write d ch addr len (Payload.floats xs)
      = { d with
          bram := fun x =>
            if (addr - BRAM_ADDR) / 4 ≤ x ∧ x < (addr - BRAM_ADDR) / 4 + xs.length then
              xs.getD (x - (addr - BRAM_ADDR) / 4) 0
            else d.bram x } := rfl

theorem slot_write_trigger (compute : Buf R → Buf R → Buf R) (latency : Nat → Nat)
    (doneCode : Nat) (d : SlotState R) (ch : String) (len : Nat) :
    (slotDevice compute latency doneCode).write d ch IP_ADDR len (Payload.word 0x5555)
      = { bram := fun x => if x < SIZE then compute (offset d.bram SIZE) d.bram x else d.bram x
          busy := latency d.triggers
          triggers := d.triggers + 1 } := by
  simp [slotDevice]

theorem slot_readFloats (compute : Buf R → Buf R → Buf R) (latency : Nat → Nat)
    (doneCode : Nat) (d : SlotState R) (ch : String) (addr len : Nat) :
    (slotDevice compute latency doneCode).readFloats d ch addr len
      = ((List.range (len / 4)).map (fun k => d.bram ((addr - BRAM_ADDR) / 4 + k)), d) := rfl

theorem slot_afterPolls (compute : Buf R → Buf R → Buf R) (latency : Nat → Nat)
    (doneCode : Nat) (k : Nat) :
    ∀ d : SlotState R, k ≤ d.busy →
      afterPolls (slotDevice compute latency doneCode) k d = { d with busy := d.busy - k } := by
  induction k with
  | zero => intro d _; rfl
  | succ k ih =>
    intro d hk
    have hb : d.busy ≠ 0 := by omega
    simp only [afterPolls]
    rw [slot_readWord, if_neg hb, ih _ (by show k ≤ d.busy - 1; omega)]
    have e : d.busy - 1 - k = d.busy - (k + 1) := by omega
    simp only [e]

theorem slot_controlRead_busy (compute : Buf R → Buf R → Buf R) (latency : Nat → Nat)
    (doneCode : Nat) (d : SlotState R) (k : Nat) (hk : k < d.busy) :
    controlRead (slotDevice compute latency doneCode) k d = 0x5555 := by
  unfold controlRead
  rw [slot_afterPolls compute latency doneCode k d (by omega), slot_readWord,
    if_neg (by show ¬ d.busy - k = 0; omega)]

theorem slot_controlRead_done (compute : Buf R → Buf R → Buf R) (latency : Nat → Nat)
    (doneCode : Nat) (d : SlotState R) :
    controlRead (slotDevice compute latency doneCode) d.busy d = doneCode := by
  unfold controlRead
  rw [slot_afterPolls compute latency doneCode d.busy d (Nat.le_refl _), slot_readWord,
    if_pos (by show d.busy - d.busy = 0; omega)]

/-- The wait loop on the slot device ends with the device idle and its memory unchanged. -/
theorem slot_pollLoop (compute : Buf R → Buf R → Buf R) (latency : Nat → Nat)
    (doneCode : Nat) (hdone : doneCode ≠ 0x5555) (fuel : Nat) (h : Host (SlotState R) R)
    (hf : h.dev.busy < fuel) :
    pollLoop (slotDevice compute latency doneCode) fuel h
      = some (doneCode,
          { dev := { h.dev with busy := 0 }
            trace := h.trace
              ++ List.replicate (h.dev.busy + 1) (Transfer.read C2H IP_ADDR 4) }) := by
  rw [pollLoop_spec (slotDevice compute latency doneCode) h.dev.busy fuel h hf
    (fun k hk => slot_controlRead_busy compute latency doneCode h.dev k hk)
    (by rw [slot_controlRead_done]; exact hdone)]
  rw [slot_controlRead_done, slot_afterPolls compute latency doneCode h.dev.busy h.dev
    (Nat.le_refl _), slot_readWord, if_pos (by show h.dev.busy - h.dev.busy = 0; omega)]
  have e : h.dev.busy - h.dev.busy = 0 := by omega
  simp only [e]


theorem loadFloats_map (o : Buf R) (n : Nat) (f : Nat → R) (y : Nat) :
    loadFloats o n ((List.range n).map f) y = if y < n then f y else o y := by
  unfold loadFloats
  by_cases h : y < n
  · rw [if_pos h, if_pos h]
    simp [List.getD, h]
  · rw [if_neg h, if_neg h]

theorem four_mul_SIZE_div : 4 * SIZE / 4 = SIZE := by decide

theorem slot_matmul_row (compute : Buf R → Buf R → Buf R) (hc : IsExactMatvec compute)
    (latency : Nat → Nat) (doneCode : Nat) (hdone : doneCode ≠ 0x5555) (fuel : Nat)
    (hf : ∀ n, latency n < fuel) (A Bt : Buf R) (k op : Nat) (out : Buf R)
    (h : Host (SlotState R) R)
    (hB : ∀ x, x < SIZE * SIZE → h.dev.bram (SIZE + x) = Bt x) :
    ∃ out2 h2,
      fpga_matmul_row (slotDevice compute latency doneCode) fuel A k (some (op, out, h))
        = some (doneCode, out2, h2) ∧
      (∀ x, x < SIZE * SIZE → h2.dev.bram (SIZE + x) = Bt x) ∧
      ∀ y, out2 y
        = if SIZE * k ≤ y ∧ y < SIZE * k + SIZE then
            ∑ c in Finset.range SIZE, Bt ((y - SIZE * k) * SIZE + c) * A (SIZE * k + c)
          else out y := by
  simp only [fpga_matmul_row, write_to_channel, slot_write_floats, slot_write_trigger]
  rw [slot_pollLoop compute latency doneCode hdone fuel _ (hf _)]
  simp only [read_floats_from_channel, slot_readFloats, Nat.sub_self, Nat.zero_div,
    Nat.zero_le, true_and, Nat.zero_add, Nat.sub_zero, bufToList_length, four_mul_SIZE_div]
  refine ⟨_, _, rfl, ?_, ?_⟩
  · intro x hx
    have h1 : ¬ SIZE + x < SIZE := by omega
    simp only [h1, if_false]
    exact hB x hx
  · intro y
    simp only [writeBack]
    by_cases hy : SIZE * k ≤ y ∧ y < SIZE * k + SIZE
    · have h1 : y - SIZE * k < SIZE := by omega
      rw [if_pos hy.1, if_pos hy, loadFloats_map, if_pos h1, if_pos h1, hc _ _ _ h1]
      refine Finset.sum_congr rfl (fun c hcm => ?_)
      have hc2 : c < SIZE := Finset.mem_range.mp hcm
      have h2 : ¬ SIZE + ((y - SIZE * k) * SIZE + c) < SIZE := by omega
      have h3 : (y - SIZE * k) * SIZE + c < SIZE * SIZE := by
        simp only [SIZE] at h1 hc2 ⊢
        omega
      simp only [offset, h2, if_false, hc2, if_true]
      rw [hB _ h3, bufToList_getD _ _ _ hc2]
      rfl
    · rw [if_neg hy]
      by_cases h1 : SIZE * k ≤ y
      · have h2 : ¬ y - SIZE * k < SIZE := by omega
        rw [if_pos h1, loadFloats_map, if_neg h2]
        simp only [offset]
        congr 1
        omega
      · rw [if_neg h1]


theorem matrix_slot_index : (BRAM_ADDR + 4 * SIZE - BRAM_ADDR) / 4 = SIZE := by decide

/-- `fpga_matmul` on the slot device with an exact accelerator computes the product. -/
theorem slot_fpga_matmul (compute : Buf R → Buf R → Buf R) (hc : IsExactMatvec compute)
    (latency : Nat → Nat) (doneCode : Nat) (hdone : doneCode ≠ 0x5555) (fuel : Nat)
    (hf : ∀ n, latency n < fuel) (heap A B out : Buf R) (h : Host (SlotState R) R) :
    ∃ r, fpga_matmul (slotDevice compute latency doneCode) fuel heap A B out h = some r ∧
      ∀ k q, k < SIZE → q < SIZE →
        r.1 (k * SIZE + q) = ∑ c in Finset.range SIZE, A (k * SIZE + c) * B (c * SIZE + q) := by
  simp only [fpga_matmul, write_to_channel, slot_write_floats, matrix_slot_index,
    bufToList_length]
  have key := forLoop_one_induction
    (fun t (st : Option (Nat × Buf R × Host (SlotState R) R)) =>
      ∃ op out2 h2, st = some (op, out2, h2) ∧
        (∀ x, x < SIZE * SIZE →
          h2.dev.bram (SIZE + x) = mat_transpose_naive B heap SIZE SIZE x) ∧
        ∀ k q, k < t → q < SIZE →
          out2 (k * SIZE + q)
            = ∑ c in Finset.range SIZE, A (k * SIZE + c) * B (c * SIZE + q)) SIZE
    (fpga_matmul_row (slotDevice compute latency doneCode) fuel A)
    (some (0x5555, out,
      { dev := { h.dev with
          bram := fun x =>
            if SIZE ≤ x ∧ x < SIZE + SIZE * SIZE then
              (bufToList (SIZE * SIZE) (mat_transpose_naive B heap SIZE SIZE)).getD (x - SIZE) 0
            else h.dev.bram x }
        trace := h.trace ++ [Transfer.write H2C (BRAM_ADDR + 4 * SIZE) (4 * SIZE * SIZE)
          (Payload.floats (bufToList (SIZE * SIZE) (mat_transpose_naive B heap SIZE SIZE)))] }))
    ?_ ?_
  · obtain ⟨op, out2, h2, he, _, hout⟩ := key
    rw [he]
    exact ⟨(out2, h2), rfl, hout⟩
  · refine ⟨_, _, _, rfl, ?_, ?_⟩
    · intro x hx
      have h1 : SIZE ≤ SIZE + x ∧ SIZE + x < SIZE + SIZE * SIZE := by omega
      simp only [h1, and_self, if_true]
      rw [bufToList_getD _ _ _ (by omega)]
      congr 1
      omega
    · intro k q hk
      omega
  · intro t st ht hP
    obtain ⟨op, out2, h2, he, hB, hout⟩ := hP
    obtain ⟨out3, h3, e3, hB3, hout3⟩ := slot_matmul_row compute hc latency doneCode hdone fuel
      hf A (mat_transpose_naive B heap SIZE SIZE) t op out2 h2 hB
    refine ⟨doneCode, out3, h3, by rw [he, e3], hB3, ?_⟩
    intro k q hk hq
    rw [hout3]
    by_cases hkt : k = t
    · subst hkt
      have h1 : SIZE * k ≤ k * SIZE + q ∧ k * SIZE + q < SIZE * k + SIZE := by
        rw [Nat.mul_comm]; omega
      have e1 : k * SIZE + q - SIZE * k = q := by rw [Nat.mul_comm]; omega
      rw [if_pos h1, e1]
      refine Finset.sum_congr rfl (fun c hcm => ?_)
      have hc2 : c < SIZE := Finset.mem_range.mp hcm
      rw [mat_transpose_naive_apply B heap SIZE SIZE c q hc2, if_pos hq, Nat.mul_comm SIZE k,
        mul_comm]
    · have h1 : ¬ (SIZE * t ≤ k * SIZE + q ∧ k * SIZE + q < SIZE * t + SIZE) := by
        simp only [SIZE] at hq ⊢
        omega
      rw [if_neg h1]
      exact hout k q (by omega) hq

end ProtocolLemmas

/-! ## The claims -/

section Claims

variable {R : Type} [CommRing R]

/-- C3: assuming `fpga_large_matvec_naive` computes the exact matrix-vector product,
`fpga_large_matmul_naive` (Strategy A: transpose B, one tiled product per row of the
transposed B, transpose the result back) leaves in `out_matrix[i * num_colB + j]`, for every
`i < num_rowA` and `j < num_colB`, what `cpu_matmul` computes, the sum over `k < num_colA`
of `A[i * num_colA + k] * B[k * num_colB + j]`; for all dimensions and all contents of the
uninitialised stack arrays and `malloc` blocks. -/
theorem C3_fpga_large_matmul_naive_correct (mv : Buf R → Buf R → Buf R)
    (num_rowA num_colA num_colB : Nat)
    (hmatvec : ∀ (fm fv M v o : Buf R) (x : Nat), x < num_rowA →
      (fpga_large_matvec_naive mv fm fv M v o num_rowA num_colA).out_vector x
        = ∑ c in Finset.range num_colA, M (x * num_colA + c) * v c)
    (stack_matrix stack_vector : Nat → Buf R)
    (heap1 heap2 in_matrix1 in_matrix2 out_matrix cpu_out_matrix : Buf R) (i j : Nat)
    (hi : i < num_rowA) (hj : j < num_colB) :
    (fpga_large_matmul_naive mv stack_matrix stack_vector heap1 heap2 in_matrix1 in_matrix2
        out_matrix num_rowA num_colA num_colB).out_matrix (i * num_colB + j)
      = cpu_matmul in_matrix1 in_matrix2 cpu_out_matrix num_rowA num_colA num_colB
          (i * num_colB + j) ∧
    (fpga_large_matmul_naive mv stack_matrix stack_vector heap1 heap2 in_matrix1 in_matrix2
        out_matrix num_rowA num_colA num_colB).out_matrix (i * num_colB + j)
      = ∑ k in Finset.range num_colA,
          in_matrix1 (i * num_colA + k) * in_matrix2 (k * num_colB + j) := by
  rw [fpga_large_matmul_naive_out_matrix mv num_rowA num_colA num_colB hmatvec _ _ _ _ _ _ _
      _ _ hj, cpu_matmul_apply _ _ _ _ _ _ _ _ hj]
  simp only [hi, if_true, and_self]

/-- Witness of C3: the shape 32 × 75 by 75 × 1024 with the exact accelerator. -/
theorem C3_fpga_large_matmul_naive_correct_witness :
    31 < 32 ∧ 1023 < 1024 ∧
    ((fpga_large_matmul_naive exactMatvec (fun _ _ => (7 : Int)) (fun _ _ => 9) (fun _ => 1)
        (fun _ => 2) (fun k => (k : Int)) (fun k => (k : Int) + 1) (fun _ => 5)
        32 75 1024).out_matrix (31 * 1024 + 1023)
      = cpu_matmul (fun k => (k : Int)) (fun k => (k : Int) + 1) (fun _ => 3) 32 75 1024
          (31 * 1024 + 1023) ∧
    (fpga_large_matmul_naive exactMatvec (fun _ _ => (7 : Int)) (fun _ _ => 9) (fun _ => 1)
        (fun _ => 2) (fun k => (k : Int)) (fun k => (k : Int) + 1) (fun _ => 5)
        32 75 1024).out_matrix (31 * 1024 + 1023)
      = ∑ k in Finset.range 75,
          (fun k => (k : Int)) (31 * 75 + k) * (fun k => (k : Int) + 1) (k * 1024 + 1023)) :=
  ⟨by decide, by decide,
    C3_fpga_large_matmul_naive_correct exactMatvec 32 75 1024
      (fun fm fv M v o x hx => by
        rw [fpga_large_matvec_naive_out_vector exactMatvec (fun _ _ _ _ => rfl), if_pos hx])
      (fun _ _ => 7) (fun _ _ => 9) (fun _ => 1) (fun _ => 2) (fun k => (k : Int))
      (fun k => (k : Int) + 1) (fun _ => 5) (fun _ => 3) 31 1023 (by decide) (by decide)⟩

/-- C5: on a device that on each trigger returns
`result[r] = sum over c < SIZE of matrixSlot[r * SIZE + c] * vectorSlot[c]`, leaves the
matrix slot unchanged and reports completion after finitely many polls, `fpga_matmul(A, B,
out)` returns and leaves `out[k * SIZE + q] = sum over c < SIZE of A[k * SIZE + c] *
B[c * SIZE + q]`, the matrix product, for all `k, q < SIZE`. -/
theorem C5_fpga_matmul_computes_product (compute : Buf R → Buf R → Buf R)
    (hcompute : IsExactMatvec compute) (latency : Nat → Nat) (doneCode : Nat)
    (hdone : doneCode ≠ 0x5555) (fuel : Nat) (hfuel : ∀ n, latency n < fuel)
    (heap in_matrix1 in_matrix2 out_matrix : Buf R) (h : Host (SlotState R) R) :
    ∃ r, fpga_matmul (slotDevice compute latency doneCode) fuel heap in_matrix1 in_matrix2
          out_matrix h = some r ∧
      ∀ k q, k < SIZE → q < SIZE →
        r.1 (k * SIZE + q)
          = ∑ c in Finset.range SIZE, in_matrix1 (k * SIZE + c) * in_matrix2 (c * SIZE + q) :=
  slot_fpga_matmul compute hcompute latency doneCode hdone fuel hfuel heap in_matrix1
    in_matrix2 out_matrix h

/-- Witness of C5: the exact accelerator, busy for three polls after every trigger. -/
theorem C5_fpga_matmul_computes_product_witness :
    IsExactMatvec (exactMatvec (R := Int)) ∧ (0 : Nat) ≠ 0x5555 ∧
    (∀ n : Nat, (fun _ : Nat => 3) n < 4) ∧
    ∃ r, fpga_matmul (slotDevice exactMatvec (fun _ => 3) 0) 4 (fun _ => (1 : Int))
          (fun k => (k : Int)) (fun k => (k : Int) + 1) (fun _ => 5)
          { dev := { bram := fun _ => 2, busy := 0, triggers := 0 }, trace := [] } = some r ∧
      ∀ k q, k < SIZE → q < SIZE →
        r.1 (k * SIZE + q)
          = ∑ c in Finset.range SIZE,
              (fun k => (k : Int)) (k * SIZE + c) * (fun k => (k : Int) + 1) (c * SIZE + q) :=
  ⟨fun _ _ _ _ => rfl, by decide, fun _ => (by decide : 3 < 4),
    C5_fpga_matmul_computes_product exactMatvec (fun _ _ _ _ => rfl) (fun _ => 3) 0
      (by decide) 4 (fun _ => (by decide : 3 < 4)) (fun _ => 1) (fun k => (k : Int))
      (fun k => (k : Int) + 1) (fun _ => 5)
      { dev := { bram := fun _ => 2, busy := 0, triggers := 0 }, trace := [] }⟩

/-- C6: on any device whose control word, after the three writes, reads `0x5555` exactly
`n` times and then a different value, `fpga_matvec` returns and has issued exactly these
transfers, in this order: the vector tile to `BRAM_ADDR`, the matrix tile to
`BRAM_ADDR + 4 * SIZE`, the word `0x5555` to `IP_ADDR`, `n + 1` reads of the control word,
and one read of the `SIZE` results; so the results are read only after a control read
differing from `0x5555`, and the first such read ends the wait. -/
theorem C6_fpga_matvec_transfer_sequence {σ : Type} (D : Device σ R) (fuel n : Nat)
    (in_matrix in_vector out_vector : Buf R) (d : σ) (hfuel : n < fuel)
    (hbusy : ∀ k, k < n →
      controlRead D k
        (D.write
          (D.write
            (D.write d H2C BRAM_ADDR (4 * SIZE) (Payload.floats (bufToList SIZE in_vector)))
            H2C (BRAM_ADDR + 4 * SIZE) (4 * SIZE * SIZE)
            (Payload.floats (bufToList (SIZE * SIZE) in_matrix)))
          H2C IP_ADDR 4 (Payload.word 0x5555)) = 0x5555)
    (hdone :
      controlRead D n
        (D.write
          (D.write
            (D.write d H2C BRAM_ADDR (4 * SIZE) (Payload.floats (bufToList SIZE in_vector)))
            H2C (BRAM_ADDR + 4 * SIZE) (4 * SIZE * SIZE)
            (Payload.floats (bufToList (SIZE * SIZE) in_matrix)))
          H2C IP_ADDR 4 (Payload.word 0x5555)) ≠ 0x5555) :
    ∃ r, fpga_matvec D fuel in_matrix in_vector out_vector { dev := d, trace := [] } = some r ∧
      r.2.trace =
        [Transfer.write H2C BRAM_ADDR (4 * SIZE) (Payload.floats (bufToList SIZE in_vector)),
          Transfer.write H2C (BRAM_ADDR + 4 * SIZE) (4 * SIZE * SIZE)
            (Payload.floats (bufToList (SIZE * SIZE) in_matrix)),
          Transfer.write H2C IP_ADDR 4 (Payload.word 0x5555)]
        ++ List.replicate (n + 1) (Transfer.read C2H IP_ADDR 4)
        ++ [Transfer.read C2H BRAM_ADDR (4 * SIZE)] := by
  obtain ⟨r, h1, h2⟩ := fpga_matvec_trace D fuel n in_matrix in_vector out_vector
    { dev := d, trace := [] } hfuel hbusy hdone
  refine ⟨r, h1, ?_⟩
  rw [h2]
  rfl

/-- Witness of C6: a control word that reads `0x5555` twice and then `0`. -/
theorem C6_fpga_matvec_transfer_sequence_witness :
    2 < 3 ∧
    (∀ k, k < 2 →
      controlRead (scriptedDevice ([] : List Int)) k
        ((scriptedDevice ([] : List Int)).write
          ((scriptedDevice ([] : List Int)).write
            ((scriptedDevice ([] : List Int)).write [0x5555, 0x5555, 0] H2C BRAM_ADDR (4 * SIZE)
              (Payload.floats (bufToList SIZE (fun k => (k : Int) + 1))))
            H2C (BRAM_ADDR + 4 * SIZE) (4 * SIZE * SIZE)
            (Payload.floats (bufToList (SIZE * SIZE) (fun k => (k : Int)))))
          H2C IP_ADDR 4 (Payload.word 0x5555)) = 0x5555) ∧
    ∃ r, fpga_matvec (scriptedDevice ([] : List Int)) 3 (fun k => (k : Int))
          (fun k => (k : Int) + 1) (fun _ => 5) { dev := [0x5555, 0x5555, 0], trace := [] }
        = some r ∧
      r.2.trace =
        [Transfer.write H2C BRAM_ADDR (4 * SIZE)
            (Payload.floats (bufToList SIZE (fun k => (k : Int) + 1))),
          Transfer.write H2C (BRAM_ADDR + 4 * SIZE) (4 * SIZE * SIZE)
            (Payload.floats (bufToList (SIZE * SIZE) (fun k => (k : Int)))),
          Transfer.write H2C IP_ADDR 4 (Payload.word 0x5555)]
        ++ List.replicate (2 + 1) (Transfer.read C2H IP_ADDR 4)
        ++ [Transfer.read C2H BRAM_ADDR (4 * SIZE)] :=
  ⟨by decide, by decide,
    C6_fpga_matvec_transfer_sequence (scriptedDevice ([] : List Int)) 3 2 (fun k => (k : Int))
      (fun k => (k : Int) + 1) (fun _ => 5) [0x5555, 0x5555, 0] (by decide) (by decide)
      (by decide)⟩

/-- C9: in `fpga_large_matvec_naive` with an exact accelerator, for the row tile starting
at `i < num_row` (entered in any state `s`) and every `t`, after the first `t` iterations
of the loop over the column tiles the accumulator satisfies, for every `n < SIZE`:
`output_buffer[n]` is the sum over `c < min (t * SIZE) num_col` of
`in_matrix[(i + n) * num_col + c] * in_vector[c]` when `i + n < num_row`, and exactly `0`
when `i + n ≥ num_row`; and after the whole loop it is the sum over all `c < num_col`,
respectively `0`. -/
theorem C9_matvec_accumulator_invariant (mv : Buf R → Buf R → Buf R)
    (hmv : IsExactMatvec mv) (in_matrix in_vector : Buf R) (num_row num_col i : Nat)
    (hi : i < num_row) (s : MatvecState R) (t n : Nat) (hn : n < SIZE) :
    (forLoopAux num_col SIZE (matvecColumnStep mv in_matrix in_vector num_row num_col i)
        t 0 (matvecRowInit s)).output_buffer n
      = (if i + n < num_row then
          ∑ c in Finset.range (min (t * SIZE) num_col),
            in_matrix ((i + n) * num_col + c) * in_vector c
        else 0) ∧
    (forLoop num_col SIZE (matvecColumnStep mv in_matrix in_vector num_row num_col i)
        (matvecRowInit s)).output_buffer n
      = (if i + n < num_row then
          ∑ c in Finset.range num_col, in_matrix ((i + n) * num_col + c) * in_vector c
        else 0) := by
  constructor
  · exact columnLoop_output_buffer mv hmv in_matrix in_vector num_row num_col i hi
      (matvecRowInit s) (fun _ => rfl) t n hn
  · have h := columnLoop_output_buffer mv hmv in_matrix in_vector num_row num_col i hi
      (matvecRowInit s) (fun _ => rfl) num_col n hn
    have e : min (num_col * SIZE) num_col = num_col :=
      Nat.min_eq_right (Nat.le_mul_of_pos_right num_col SIZE_pos)
    rw [e] at h
    exact h

/-- Witness of C9: a reduction dimension of two full tiles plus a partial tile
(`num_col = 2 * 64 + 6`), in the last, partial row tile of `num_row = 65`, after the
first two column tiles. -/
theorem C9_matvec_accumulator_invariant_witness :
    IsExactMatvec (exactMatvec (R := Int)) ∧ 64 < 65 ∧ 0 < SIZE ∧
    ((forLoopAux 134 SIZE
        (matvecColumnStep exactMatvec (fun k => (k : Int)) (fun k => (k : Int) + 1) 65 134 64)
        2 0
        (matvecRowInit
          { fpga_matrix := fun _ => 7
            fpga_vector := fun _ => 9
            out := fun _ => 1
            output_buffer := fun _ => 2
            out_vector := fun _ => 3
            calls := [] })).output_buffer 0
      = (if 64 + 0 < 65 then
          ∑ c in Finset.range (min (2 * SIZE) 134),
            (fun k => (k : Int)) ((64 + 0) * 134 + c) * (fun k => (k : Int) + 1) c
        else 0) ∧
    (forLoop 134 SIZE
        (matvecColumnStep exactMatvec (fun k => (k : Int)) (fun k => (k : Int) + 1) 65 134 64)
        (matvecRowInit
          { fpga_matrix := fun _ => 7
            fpga_vector := fun _ => 9
            out := fun _ => 1
            output_buffer := fun _ => 2
            out_vector := fun _ => 3
            calls := [] })).output_buffer 0
      = (if 64 + 0 < 65 then
          ∑ c in Finset.range 134,
            (fun k => (k : Int)) ((64 + 0) * 134 + c) * (fun k => (k : Int) + 1) c
        else 0)) :=
  ⟨fun _ _ _ _ => rfl, by decide, by decide,
    C9_matvec_accumulator_invariant exactMatvec (fun _ _ _ _ => rfl) (fun k => (k : Int))
      (fun k => (k : Int) + 1) 65 134 64 (by decide)
      { fpga_matrix := fun _ => 7
        fpga_vector := fun _ => 9
        out := fun _ => 1
        output_buffer := fun _ => 2
        out_vector := fun _ => 3
        calls := [] } 2 0 (by decide)⟩

/-- C10: in `fpga_large_matvec_naive` and in `fpga_large_matmul_naive2` the reduction loop
of every output tile starts from an accumulator `output_buffer` that is all zeros, and
every output element that is written is the sum of exactly the results that the
accelerator returned in the calls made for the output tile of that element, without any
contribution of the calls of another tile; for every accelerator behaviour. -/
theorem C10_accumulator_fresh_per_tile (mv mm : Buf R → Buf R → Buf R)
    (fpga_matrix0 fpga_vector0 in_matrix in_vector out_vector : Buf R) (num_row num_col : Nat)
    (fpga_matrix1_0 fpga_matrix2_0 in_matrix1 in_matrix2 out_matrix : Buf R)
    (num_rowA num_colA num_colB : Nat) (a n b p q : Nat)
    (hn : n < SIZE) (han : a * SIZE + n < num_row) (hp : p < SIZE) (hq : q < SIZE)
    (hap : a * SIZE + p < num_rowA) (hbq : b * SIZE + q < num_colB) :
    (∀ (s : MatvecState R) (i x : Nat),
      matvecRowStep mv in_matrix in_vector num_row num_col i s
        = matvecRowFinish num_row i
            (forLoop num_col SIZE (matvecColumnStep mv in_matrix in_vector num_row num_col i)
              (matvecRowInit s)) ∧
      (matvecRowInit s).output_buffer x = 0) ∧
    (∀ (s : MatmulState R) (i j x : Nat),
      matmulTileStep mm in_matrix1 in_matrix2 num_colA num_colB i (tilesize num_rowA i) j s
        = matmulTileFinish num_colB i (tilesize num_rowA i) j (tilesize num_colB j)
            (forLoop num_colA SIZE
              (matmulChunkStep mm in_matrix1 in_matrix2 num_colA num_colB i
                (tilesize num_rowA i) j (tilesize num_colB j))
              (matmulTileInit s)) ∧
      (matmulTileInit s).output_buffer x = 0) ∧
    (fpga_large_matvec_naive mv fpga_matrix0 fpga_vector0 in_matrix in_vector out_vector
        num_row num_col).out_vector (a * SIZE + n)
      = (((fpga_large_matvec_naive mv fpga_matrix0 fpga_vector0 in_matrix in_vector out_vector
          num_row num_col).calls.filter (fun c => decide (c.i = a * SIZE))).map
            (fun c => c.result n)).sum ∧
    (fpga_large_matmul_naive2 mm fpga_matrix1_0 fpga_matrix2_0 in_matrix1 in_matrix2 out_matrix
        num_rowA num_colA num_colB).out_matrix ((a * SIZE + p) * num_colB + (b * SIZE + q))
      = (((fpga_large_matmul_naive2 mm fpga_matrix1_0 fpga_matrix2_0 in_matrix1 in_matrix2
          out_matrix num_rowA num_colA num_colB).calls.filter
            (fun c => decide (c.i = a * SIZE ∧ c.j = b * SIZE))).map
              (fun c => c.result (p * SIZE + q))).sum :=
  ⟨fun _ _ _ => ⟨rfl, rfl⟩, fun _ _ _ _ => ⟨rfl, rfl⟩,
    fpga_large_matvec_naive_results mv fpga_matrix0 fpga_vector0 in_matrix in_vector out_vector
      num_row num_col a n hn han,
    fpga_large_matmul_naive2_results mm fpga_matrix1_0 fpga_matrix2_0 in_matrix1 in_matrix2
      out_matrix num_rowA num_colA num_colB a b p q hp hq hap hbq⟩

/-- Witness of C10: an accelerator that is not exact, second row tile of 65 rows, and the
output tile `(1, 1)` of a 65 × 66 product. -/
theorem C10_accumulator_fresh_per_tile_witness :
    0 < SIZE ∧ 1 * SIZE + 0 < 65 ∧ 1 < SIZE ∧ 1 * SIZE + 1 < 66 ∧
    ((∀ (s : MatvecState Int) (i x : Nat),
      matvecRowStep (fun M v k => M k + v k) (fun k => (k : Int)) (fun k => (k : Int) + 1)
          65 70 i s
        = matvecRowFinish 65 i
            (forLoop 70 SIZE
              (matvecColumnStep (fun M v k => M k + v k) (fun k => (k : Int))
                (fun k => (k : Int) + 1) 65 70 i)
              (matvecRowInit s)) ∧
      (matvecRowInit s).output_buffer x = 0) ∧
    (∀ (s : MatmulState Int) (i j x : Nat),
      matmulTileStep (fun M1 M2 k => M1 k - M2 k) (fun k => (k : Int)) (fun k => (k : Int) + 2)
          70 66 i (tilesize 65 i) j s
        = matmulTileFinish 66 i (tilesize 65 i) j (tilesize 66 j)
            (forLoop 70 SIZE
              (matmulChunkStep (fun M1 M2 k => M1 k - M2 k) (fun k => (k : Int))
                (fun k => (k : Int) + 2) 70 66 i (tilesize 65 i) j (tilesize 66 j))
              (matmulTileInit s)) ∧
      (matmulTileInit s).output_buffer x = 0) ∧
    (fpga_large_matvec_naive (fun M v k => M k + v k) (fun _ => (7 : Int)) (fun _ => 9)
        (fun k => (k : Int)) (fun k => (k : Int) + 1) (fun _ => 5) 65 70).out_vector
          (1 * SIZE + 0)
      = (((fpga_large_matvec_naive (fun M v k => M k + v k) (fun _ => (7 : Int)) (fun _ => 9)
          (fun k => (k : Int)) (fun k => (k : Int) + 1) (fun _ => 5) 65 70).calls.filter
            (fun c => decide (c.i = 1 * SIZE))).map (fun c => c.result 0)).sum ∧
    (fpga_large_matmul_naive2 (fun M1 M2 k => M1 k - M2 k) (fun _ => (4 : Int)) (fun _ => 6)
        (fun k => (k : Int)) (fun k => (k : Int) + 2) (fun _ => 8) 65 70 66).out_matrix
          ((1 * SIZE + 0) * 66 + (1 * SIZE + 1))
      = (((fpga_large_matmul_naive2 (fun M1 M2 k => M1 k - M2 k) (fun _ => (4 : Int))
          (fun _ => 6) (fun k => (k : Int)) (fun k => (k : Int) + 2) (fun _ => 8)
          65 70 66).calls.filter (fun c => decide (c.i = 1 * SIZE ∧ c.j = 1 * SIZE))).map
            (fun c => c.result (0 * SIZE + 1))).sum) :=
  ⟨by decide, by decide, by decide, by decide,
    C10_accumulator_fresh_per_tile (fun M v k => M k + v k) (fun M1 M2 k => M1 k - M2 k)
      (fun _ => 7) (fun _ => 9) (fun k => (k : Int)) (fun k => (k : Int) + 1) (fun _ => 5)
      65 70 (fun _ => 4) (fun _ => 6) (fun k => (k : Int)) (fun k => (k : Int) + 2)
      (fun _ => 8) 65 70 66 1 0 1 0 1 (by decide) (by decide) (by decide) (by decide)
      (by decide) (by decide)⟩

end Claims

/-! ## Lemmas on the reference code and on the empty dimensions -/

section ReferenceLemmas

variable {R : Type} [CommRing R]

/-- The value `cpu_innerproduct` leaves in `*out`: the value found there plus the inner
product. -/
theorem cpu_innerproduct_eq (in_vector1 in_vector2 : Buf R) (out : R) (size : Nat) :
    cpu_innerproduct in_vector1 in_vector2 out size
      = out + ∑ i in Finset.range size, in_vector1 i * in_vector2 i := by
  unfold cpu_innerproduct
  refine forLoop_one_induction
    (fun t (s : R) => s = out + ∑ i in Finset.range t, in_vector1 i * in_vector2 i) size _ out
    ?_ ?_
  · simp
  · intro t s _ hP
    beta_reduce at hP ⊢
    rw [hP, Finset.sum_range_succ, add_assoc]

theorem forLoop_zero {σ : Type} (stride : Nat) (body : Nat → σ → σ) (s : σ) :
    forLoop 0 stride body s = s := rfl

theorem forLoop_one_id {σ : Type} (n : Nat) (body : Nat → σ → σ) (hb : ∀ i s, body i s = s)
    (s : σ) : forLoop n 1 body s = s := by
  refine forLoop_one_induction (fun _ (x : σ) => x = s) n body s rfl ?_
  intro t x _ hx
  beta_reduce at hx ⊢
  rw [hb, hx]

theorem cpu_matmul_indep (in_matrix1 in_matrix2 out1 out2 : Buf R)
    (num_rowA num_colA num_colB x : Nat) (hx : x < num_rowA * num_colB) :
    cpu_matmul in_matrix1 in_matrix2 out1 num_rowA num_colA num_colB x
      = cpu_matmul in_matrix1 in_matrix2 out2 num_rowA num_colA num_colB x := by
  have hN : 0 < num_colB := by
    rcases Nat.eq_zero_or_pos num_colB with h | h
    · rw [h, Nat.mul_zero] at hx
      exact absurd hx (Nat.not_lt_zero x)
    · exact h
  have e : x / num_colB * num_colB + x % num_colB = x := Nat.div_add_mod' x num_colB
  have hr : x / num_colB < num_rowA := by
    rw [Nat.div_lt_iff_lt_mul hN]
    exact hx
  have h1 := cpu_matmul_apply in_matrix1 in_matrix2 out1 num_rowA num_colA num_colB
    (x / num_colB) (x % num_colB) (Nat.mod_lt x hN)
  have h2 := cpu_matmul_apply in_matrix1 in_matrix2 out2 num_rowA num_colA num_colB
    (x / num_colB) (x % num_colB) (Nat.mod_lt x hN)
  rw [e, if_pos hr] at h1 h2
  rw [h1, h2]

theorem cpu_matmul_outside (in_matrix1 in_matrix2 out_matrix : Buf R)
    (num_rowA num_colA num_colB x : Nat) (hx : num_rowA * num_colB ≤ x) :
    cpu_matmul in_matrix1 in_matrix2 out_matrix num_rowA num_colA num_colB x = out_matrix x := by
  rcases Nat.eq_zero_or_pos num_colB with hN | hN
  · subst hN
    simp only [cpu_matmul, Nat.mul_zero, forLoop_zero]
    rw [forLoop_one_id num_rowA _ (fun _ _ => rfl)]
  · have e : x / num_colB * num_colB + x % num_colB = x := Nat.div_add_mod' x num_colB
    have hr : ¬ x / num_colB < num_rowA := by
      rw [Nat.div_lt_iff_lt_mul hN]
      omega
    have h1 := cpu_matmul_apply in_matrix1 in_matrix2 out_matrix num_rowA num_colA num_colB
      (x / num_colB) (x % num_colB) (Nat.mod_lt x hN)
    rw [e, if_neg hr] at h1
    exact h1

theorem cpu_matmul_idem (in_matrix1 in_matrix2 out_matrix : Buf R)
    (num_rowA num_colA num_colB : Nat) :
    cpu_matmul in_matrix1 in_matrix2
        (cpu_matmul in_matrix1 in_matrix2 out_matrix num_rowA num_colA num_colB)
        num_rowA num_colA num_colB
      = cpu_matmul in_matrix1 in_matrix2 out_matrix num_rowA num_colA num_colB := by
  funext x
  by_cases hx : x < num_rowA * num_colB
  · exact cpu_matmul_indep in_matrix1 in_matrix2 _ _ num_rowA num_colA num_colB x hx
  · rw [cpu_matmul_outside in_matrix1 in_matrix2 _ num_rowA num_colA num_colB x (by omega)]

theorem cpu_matvec_indep (in_matrix in_vector out1 out2 : Buf R) (num_row num_col y : Nat)
    (hy : y < num_row) :
    cpu_matvec in_matrix in_vector out1 num_row num_col y
      = cpu_matvec in_matrix in_vector out2 num_row num_col y := by
  rw [cpu_matvec_apply, cpu_matvec_apply, if_pos hy, if_pos hy]

end ReferenceLemmas

/-! ## Lemmas on the address map -/

section AddressMapLemmas

variable {R : Type} [CommRing R]

theorem InAddressMap_append (l : List (Transfer R)) (t : Transfer R)
    (hl : ∀ u ∈ l, Transfer.InAddressMap u) (ht : Transfer.InAddressMap t) :
    ∀ u ∈ l ++ [t], Transfer.InAddressMap u := by
  intro u hu
  rcases List.mem_append.mp hu with h | h
  · exact hl u h
  · rw [List.mem_singleton.mp h]
    exact ht

theorem control_read_inAddressMap :
    Transfer.InAddressMap (Transfer.read C2H IP_ADDR 4 : Transfer R) :=
  ⟨rfl, Or.inl ⟨rfl, rfl⟩⟩

theorem trigger_inAddressMap (w : Nat) :
    Transfer.InAddressMap (Transfer.write H2C IP_ADDR 4 (Payload.word w) : Transfer R) :=
  ⟨rfl, rfl, rfl⟩

theorem first_operand_inAddressMap (b : Buf R) :
    Transfer.InAddressMap
      (Transfer.write H2C BRAM_ADDR (4 * SIZE) (Payload.floats (bufToList SIZE b))) :=
  ⟨rfl, by rw [bufToList_length], Or.inl ⟨rfl, bufToList_length SIZE b⟩⟩

theorem second_vector_inAddressMap (b : Buf R) :
    Transfer.InAddressMap
      (Transfer.write H2C (BRAM_ADDR + 4 * SIZE) (4 * SIZE)
        (Payload.floats (bufToList SIZE b))) :=
  ⟨rfl, by rw [bufToList_length], Or.inr ⟨rfl, Or.inl (bufToList_length SIZE b)⟩⟩

theorem second_matrix_inAddressMap (b : Buf R) :
    Transfer.InAddressMap
      (Transfer.write H2C (BRAM_ADDR + 4 * SIZE) (4 * SIZE * SIZE)
        (Payload.floats (bufToList (SIZE * SIZE) b))) :=
  ⟨rfl, by rw [bufToList_length, Nat.mul_assoc],
    Or.inr ⟨rfl, Or.inr (bufToList_length (SIZE * SIZE) b)⟩⟩

theorem pollLoop_inAddressMap {σ : Type} (D : Device σ R) :
    ∀ (fuel : Nat) (h : Host σ R) (r : Nat × Host σ R), pollLoop D fuel h = some r →
      (∀ t ∈ h.trace, Transfer.InAddressMap t) → ∀ t ∈ r.2.trace, Transfer.InAddressMap t := by
  intro fuel
  induction fuel with
  | zero =>
    intro h r hr
    simp [pollLoop] at hr
  | succ fuel ih =>
    intro h r hr hh
    simp only [pollLoop] at hr
    have hstep : ∀ t ∈ (read_word_from_channel D C2H IP_ADDR 4 h).2.trace,
        Transfer.InAddressMap t := InAddressMap_append _ _ hh control_read_inAddressMap
    by_cases hc : (read_word_from_channel D C2H IP_ADDR 4 h).1 ≠ 0x5555
    · rw [if_pos hc] at hr
      rw [← Option.some.inj hr]
      exact hstep
    · rw [if_neg hc] at hr
      exact ih _ r hr hstep

theorem fpga_innerproduct_inAddressMap {σ : Type} (D : Device σ R) (fuel : Nat)
    (in_vector1 in_vector2 out : Buf R) (h : Host σ R) (r : Buf R × Host σ R)
    (hr : fpga_innerproduct D fuel in_vector1 in_vector2 out h = some r)
    (hh : ∀ t ∈ h.trace, Transfer.InAddressMap t) :
    ∀ t ∈ r.2.trace, Transfer.InAddressMap t := by
  simp only [fpga_innerproduct] at hr
  split at hr
  · exact absurd hr (by simp)
  · rename_i p hp
    rw [← Option.some.inj hr]
    refine InAddressMap_append _ _ (pollLoop_inAddressMap D fuel _ p hp ?_)
      ⟨rfl, Or.inr ⟨rfl, Or.inl rfl⟩⟩
    exact InAddressMap_append _ _ (InAddressMap_append _ _ (InAddressMap_append _ _ hh
      (first_operand_inAddressMap in_vector1)) (second_vector_inAddressMap in_vector2))
      (trigger_inAddressMap _)

theorem fpga_matvec_inAddressMap {σ : Type} (D : Device σ R) (fuel : Nat)
    (in_matrix in_vector out_vector : Buf R) (h : Host σ R) (r : Buf R × Host σ R)
    (hr : fpga_matvec D fuel in_matrix in_vector out_vector h = some r)
    (hh : ∀ t ∈ h.trace, Transfer.InAddressMap t) :
    ∀ t ∈ r.2.trace, Transfer.InAddressMap t := by
  simp only [fpga_matvec] at hr
  split at hr
  · exact absurd hr (by simp)
  · rename_i p hp
    rw [← Option.some.inj hr]
    refine InAddressMap_append _ _ (pollLoop_inAddressMap D fuel _ p hp ?_)
      ⟨rfl, Or.inr ⟨rfl, Or.inr rfl⟩⟩
    exact InAddressMap_append _ _ (InAddressMap_append _ _ (InAddressMap_append _ _ hh
      (first_operand_inAddressMap in_vector)) (second_matrix_inAddressMap in_matrix))
      (trigger_inAddressMap _)

theorem fpga_matmul_row_inAddressMap {σ : Type} (D : Device σ R) (fuel : Nat)
    (in_matrix1 : Buf R) (k : Nat) (st : Option (Nat × Buf R × Host σ R))
    (hst : ∀ x, st = some x → ∀ t ∈ x.2.2.trace, Transfer.InAddressMap t) :
    ∀ y, fpga_matmul_row D fuel in_matrix1 k st = some y →
      ∀ t ∈ y.2.2.trace, Transfer.InAddressMap t := by
  intro y hy
  cases st with
  | none => simp [fpga_matmul_row] at hy
  | some x =>
    obtain ⟨op, out_matrix, h⟩ := x
    simp only [fpga_matmul_row] at hy
    split at hy
    · exact absurd hy (by simp)
    · rename_i p hp
      rw [← Option.some.inj hy]
      refine InAddressMap_append _ _ (pollLoop_inAddressMap D fuel _ p hp ?_)
        ⟨rfl, Or.inr ⟨rfl, Or.inr rfl⟩⟩
      exact InAddressMap_append _ _ (InAddressMap_append _ _ (hst _ rfl)
        (first_operand_inAddressMap _)) (trigger_inAddressMap _)

theorem fpga_matmul_inAddressMap {σ : Type} (D : Device σ R) (fuel : Nat)
    (heap in_matrix1 in_matrix2 out_matrix : Buf R) (h : Host σ R) (r : Buf R × Host σ R)
    (hr : fpga_matmul D fuel heap in_matrix1 in_matrix2 out_matrix h = some r)
    (hh : ∀ t ∈ h.trace, Transfer.InAddressMap t) :
    ∀ t ∈ r.2.trace, Transfer.InAddressMap t := by
  simp only [fpga_matmul] at hr
  have key := forLoop_one_induction
    (fun (t : Nat) (s : Option (Nat × Buf R × Host σ R)) =>
      ∀ x, s = some x → ∀ t ∈ x.2.2.trace, Transfer.InAddressMap t) SIZE
    (fpga_matmul_row D fuel in_matrix1)
    (some (0x5555, out_matrix,
      write_to_channel D H2C (BRAM_ADDR + 4 * SIZE) (4 * SIZE * SIZE)
        (Payload.floats (bufToList (SIZE * SIZE) (mat_transpose_naive in_matrix2 heap SIZE SIZE)))
        h)) ?_ ?_
  · beta_reduce at key
    rcases Option.map_eq_some'.mp hr with ⟨x, hx, hxr⟩
    rw [← hxr]
    exact key x hx
  · intro x hx
    rw [← Option.some.inj hx]
    exact InAddressMap_append _ _ hh (second_matrix_inAddressMap _)
  · intro t s _ hP
    exact fpga_matmul_row_inAddressMap D fuel in_matrix1 t s hP

end AddressMapLemmas

/-! ## Lemmas on the channel transport -/

namespace Channel

theorem allocationSize_of_lt (n : Nat) (h : n + 4096 < 2 ^ 32) : allocationSize n = n + 4096 := by
  unfold allocationSize
  exact Nat.mod_eq_of_lt h

theorem toInt32_of_range (x : Int) (h1 : -2 ^ 31 ≤ x) (h2 : x < 2 ^ 31) : toInt32 x = x := by
  unfold toInt32
  omega

theorem read_from_channel_some {σ : Type} (D : CharDevice σ) (channelDevice : String)
    (addr transferSize : Nat) (output : Buf Nat) (d : σ) (h : transferSize + 4096 < 2 ^ 32) :
    read_from_channel D channelDevice addr transferSize output d
      = some
        { output := fun k => if k < transferSize then
            (if (k : Int) < (D.read d addr transferSize).1
              then (D.read d addr transferSize).2.1.getD k 0 else 0) else output k
          dev := (D.read d addr transferSize).2.2
          syscalls := [Syscall.open channelDevice, Syscall.lseek addr,
            Syscall.read transferSize, Syscall.close]
          stdout := if 0 < toInt32 (D.read d addr transferSize).1
              ∧ toInt32 (D.read d addr transferSize).1 < (transferSize : Int)
            then [(toInt32 (D.read d addr transferSize).1, transferSize)] else [] } := by
  unfold read_from_channel
  rw [if_pos (by rw [allocationSize_of_lt _ h]; omega)]

/-- Round trip over the loopback device for every length whose bounce buffer size does not
wrap: the bytes read back are the bytes written. -/
theorem loopback_round_trip (cw cr : String) (addr n : Nat) (data out : Buf Nat) (mem : Nat → Nat)
    (h : n + 4096 < 2 ^ 32) :
    ∃ w r, write_to_channel loopback cw addr n data mem = some w ∧
      read_from_channel loopback cr addr n out w.dev = some r ∧
      ∀ k, k < n → r.output k = data k := by
  have ha : n ≤ allocationSize n := by rw [allocationSize_of_lt _ h]; omega
  have hw : write_to_channel loopback cw addr n data mem
      = some { dev := (loopback.write mem addr ((List.range n).map data)).2
               syscalls := [Syscall.open cw, Syscall.lseek addr, Syscall.write n, Syscall.close] } := by
    unfold write_to_channel
    rw [if_pos ha]
    simp only []
    rw [if_pos]
    simp only [loopback, List.length_map, List.length_range]
    have : (n : Int) < 2 ^ 32 := by omega
    omega
  refine ⟨_, _, hw, read_from_channel_some loopback cr addr n out _ h, ?_⟩
  intro k hk
  simp only [loopback, List.length_map, List.length_range]
  rw [if_pos hk, if_pos (by exact_mod_cast hk)]
  rw [List.getD_eq_getElem _ _ (by simp [hk])]
  simp only [List.getElem_map, List.getElem_range]
  rw [if_pos (by omega)]
  rw [List.getD_eq_getElem _ _ (by simp; omega)]
  simp

end Channel

/-! ## The claims on the test harness, the reference code and the address map -/

section ClaimsHarness

variable {R : Type} [CommRing R]

/-- C11: the comparison of the test harness does not flag every pair with
`|a - b| / |b| > 0.01`.  It applies the integer `abs` to the difference, which is truncated
first: for the accelerator value `a = 1.9` and the reference value `b = 1.0` the condition
is false, no mismatch is reported, although `|a - b| / |b| = 0.9` exceeds the threshold. -/
theorem C11_element_differs_misses_mismatch :
    element_differs (19 / 10) 1 = false ∧ truncToInt (19 / 10 - 1) = 0 ∧
    |(19 / 10 : ℚ) - 1| / |(1 : ℚ)| > DIFF_THRESHOLD := by
  have e : truncToInt (19 / 10 - 1) = 0 := by
    norm_num [truncToInt, Int.floor_eq_iff]
  refine ⟨?_, e, ?_⟩
  · unfold element_differs
    rw [e]
    norm_num [DIFF_THRESHOLD]
  · rw [abs_of_pos (by norm_num : (0 : ℚ) < 19 / 10 - 1),
      abs_of_pos (by norm_num : (0 : ℚ) < 1)]
    norm_num [DIFF_THRESHOLD]

/-- C12: `cpu_innerproduct` does not clear `*out`: it adds the inner product to the value
found there.  With `size = 1`, both vectors `[1]` and `*out = 5` at the call it leaves
`*out = 6`, while the inner product is `1`. -/
theorem C12_cpu_innerproduct_keeps_prior_value :
    (∀ (in_vector1 in_vector2 : Buf Int) (out : Int) (size : Nat),
      cpu_innerproduct in_vector1 in_vector2 out size
        = out + ∑ i in Finset.range size, in_vector1 i * in_vector2 i) ∧
    cpu_innerproduct (fun _ => (1 : Int)) (fun _ => 1) 5 1 = 6 ∧
    (∑ i in Finset.range 1, (fun _ : Nat => (1 : Int)) i * (fun _ : Nat => (1 : Int)) i) = 1 := by
  refine ⟨fun v1 v2 out size => cpu_innerproduct_eq v1 v2 out size, ?_, ?_⟩
  · rw [cpu_innerproduct_eq]
    simp
  · simp

/-- C13: `cpu_matmul` and `cpu_matvec` have no hidden state.  Every element of the output
array (`x < num_rowA * num_colB`, respectively `y < num_row`) is the same whatever the
output buffer held before the call, and a second call of `cpu_matmul` on the buffer the
first call has filled returns that buffer unchanged. -/
theorem C13_reference_oracles_stateless (in_matrix1 in_matrix2 out1 out2 : Buf R)
    (num_rowA num_colA num_colB x : Nat) (in_matrix in_vector o1 o2 : Buf R)
    (num_row num_col y : Nat) :
    (x < num_rowA * num_colB →
      cpu_matmul in_matrix1 in_matrix2 out1 num_rowA num_colA num_colB x
        = cpu_matmul in_matrix1 in_matrix2 out2 num_rowA num_colA num_colB x) ∧
    (y < num_row →
      cpu_matvec in_matrix in_vector o1 num_row num_col y
        = cpu_matvec in_matrix in_vector o2 num_row num_col y) ∧
    cpu_matmul in_matrix1 in_matrix2
        (cpu_matmul in_matrix1 in_matrix2 out1 num_rowA num_colA num_colB)
        num_rowA num_colA num_colB
      = cpu_matmul in_matrix1 in_matrix2 out1 num_rowA num_colA num_colB :=
  ⟨cpu_matmul_indep in_matrix1 in_matrix2 out1 out2 num_rowA num_colA num_colB x,
    cpu_matvec_indep in_matrix in_vector o1 o2 num_row num_col y,
    cpu_matmul_idem in_matrix1 in_matrix2 out1 num_rowA num_colA num_colB⟩

theorem C13_reference_oracles_stateless_witness :
    3 < 2 * 2 ∧ 1 < 2 ∧
    cpu_matmul (fun k => (k : Int)) (fun k => (k : Int) + 1) (fun _ => 5) 2 3 2 3
      = cpu_matmul (fun k => (k : Int)) (fun k => (k : Int) + 1) (fun _ => 8) 2 3 2 3 ∧
    cpu_matvec (fun k => (k : Int)) (fun k => (k : Int) + 2) (fun _ => 5) 2 3 1
      = cpu_matvec (fun k => (k : Int)) (fun k => (k : Int) + 2) (fun _ => 8) 2 3 1 ∧
    cpu_matmul (fun k => (k : Int)) (fun k => (k : Int) + 1)
        (cpu_matmul (fun k => (k : Int)) (fun k => (k : Int) + 1) (fun _ => 5) 2 3 2) 2 3 2
      = cpu_matmul (fun k => (k : Int)) (fun k => (k : Int) + 1) (fun _ => 5) 2 3 2 :=
  ⟨by decide, by decide,
    (C13_reference_oracles_stateless (fun k => (k : Int)) (fun k => (k : Int) + 1) (fun _ => 5)
      (fun _ => 8) 2 3 2 3 (fun k => (k : Int)) (fun k => (k : Int) + 2) (fun _ => 5)
      (fun _ => 8) 2 3 1).1 (by decide),
    (C13_reference_oracles_stateless (fun k => (k : Int)) (fun k => (k : Int) + 1) (fun _ => 5)
      (fun _ => 8) 2 3 2 3 (fun k => (k : Int)) (fun k => (k : Int) + 2) (fun _ => 5)
      (fun _ => 8) 2 3 1).2.1 (by decide),
    (C13_reference_oracles_stateless (fun k => (k : Int)) (fun k => (k : Int) + 1) (fun _ => 5)
      (fun _ => 8) 2 3 2 3 (fun k => (k : Int)) (fun k => (k : Int) + 2) (fun _ => 5)
      (fun _ => 8) 2 3 1).2.2⟩

end ClaimsHarness

/-! ## The claims on the channel transport and the timing utilities -/

/-- C15: the round trip over the loopback device does not hold for every length.  The size
of the bounce buffer, `transferSize + 4096`, is computed in `uint32_t` and wraps: for
`addr = 0` and `transferSize = 4294967295` the buffer has 4095 bytes, the copy of the
data into it runs over its end, and `write_to_channel` has no defined result. -/
theorem C15_write_to_channel_allocation_wraps (data : Buf Nat) (mem : Nat → Nat) :
    0 + 4294967295 ≤ 2 ^ 32 ∧ Channel.allocationSize 4294967295 = 4095 ∧
    Channel.write_to_channel Channel.loopback H2C 0 4294967295 data mem = none := by
  have e : Channel.allocationSize 4294967295 = 4095 := by
    unfold Channel.allocationSize
    norm_num
  refine ⟨by norm_num, e, ?_⟩
  unfold Channel.write_to_channel
  rw [if_neg (by rw [e]; omega)]

/-- C18: for normalized `t1` and `t2` (`0 ≤ tv_nsec < 1000000000`), `timespec_sub(t1, t2)`
returns, the value it leaves in `t1` is normalized, and its total
`tv_sec * 10^9 + tv_nsec` is the old total of `t1` minus the total of `t2`.  The function
receives `t2` read-only and returns only the new `t1`: `t2` is as before. -/
theorem C18_timespec_sub_normalized (t1 t2 : Timespec)
    (h1 : 0 ≤ t1.tv_nsec ∧ t1.tv_nsec < 1000000000)
    (h2 : 0 ≤ t2.tv_nsec ∧ t2.tv_nsec < 1000000000) :
    ∃ r, timespec_sub t1 t2 = some r ∧ (0 ≤ r.tv_nsec ∧ r.tv_nsec < 1000000000) ∧
      r.tv_sec * 1000000000 + r.tv_nsec
        = (t1.tv_sec * 1000000000 + t1.tv_nsec) - (t2.tv_sec * 1000000000 + t2.tv_nsec) := by
  unfold timespec_sub
  simp only [BILLION]
  rw [if_pos ⟨h1.1, h1.2, h2.1, h2.2⟩]
  by_cases h : t1.tv_nsec - t2.tv_nsec < 0
  · rw [if_pos h]
    refine ⟨_, rfl, ?_, ?_⟩
    · constructor <;> simp only [] <;> omega
    · simp only []; omega
  · rw [if_neg h]
    refine ⟨_, rfl, ?_, ?_⟩
    · constructor <;> simp only [] <;> omega
    · simp only []; omega

theorem C18_timespec_sub_normalized_witness :
    (0 ≤ ({ tv_sec := 5, tv_nsec := 100 } : Timespec).tv_nsec
      ∧ ({ tv_sec := 5, tv_nsec := 100 } : Timespec).tv_nsec < 1000000000) ∧
    (0 ≤ ({ tv_sec := 3, tv_nsec := 200 } : Timespec).tv_nsec
      ∧ ({ tv_sec := 3, tv_nsec := 200 } : Timespec).tv_nsec < 1000000000) ∧
    ∃ r, timespec_sub { tv_sec := 5, tv_nsec := 100 } { tv_sec := 3, tv_nsec := 200 } = some r ∧
      (0 ≤ r.tv_nsec ∧ r.tv_nsec < 1000000000) ∧
      r.tv_sec * 1000000000 + r.tv_nsec
        = (({ tv_sec := 5, tv_nsec := 100 } : Timespec).tv_sec * 1000000000
            + ({ tv_sec := 5, tv_nsec := 100 } : Timespec).tv_nsec)
          - (({ tv_sec := 3, tv_nsec := 200 } : Timespec).tv_sec * 1000000000
            + ({ tv_sec := 3, tv_nsec := 200 } : Timespec).tv_nsec) :=
  ⟨by decide, by decide,
    C18_timespec_sub_normalized { tv_sec := 5, tv_nsec := 100 } { tv_sec := 3, tv_nsec := 200 }
      (by decide) (by decide)⟩

/-- C19: for normalized `t1` and `t2` (`0 ≤ tv_nsec < 1000000000`), `timespec_add(t1, t2)`
returns, the value it leaves in `t1` is normalized, and its total
`tv_sec * 10^9 + tv_nsec` is the sum of the two old totals.  The function receives `t2`
read-only and returns only the new `t1`: `t2` is as before. -/
theorem C19_timespec_add_normalized (t1 t2 : Timespec)
    (h1 : 0 ≤ t1.tv_nsec ∧ t1.tv_nsec < 1000000000)
    (h2 : 0 ≤ t2.tv_nsec ∧ t2.tv_nsec < 1000000000) :
    ∃ r, timespec_add t1 t2 = some r ∧ (0 ≤ r.tv_nsec ∧ r.tv_nsec < 1000000000) ∧
      r.tv_sec * 1000000000 + r.tv_nsec
        = (t1.tv_sec * 1000000000 + t1.tv_nsec) + (t2.tv_sec * 1000000000 + t2.tv_nsec) := by
  unfold timespec_add
  simp only [BILLION]
  rw [if_pos ⟨h1.1, h1.2, h2.1, h2.2⟩]
  by_cases h : t1.tv_nsec + t2.tv_nsec ≥ 1000000000
  · rw [if_pos h]
    refine ⟨_, rfl, ?_, ?_⟩
    · constructor <;> simp only [] <;> omega
    · simp only []; omega
  · rw [if_neg h]
    refine ⟨_, rfl, ?_, ?_⟩
    · constructor <;> simp only [] <;> omega
    · simp only []; omega

theorem C19_timespec_add_normalized_witness :
    (0 ≤ ({ tv_sec := 5, tv_nsec := 999999999 } : Timespec).tv_nsec
      ∧ ({ tv_sec := 5, tv_nsec := 999999999 } : Timespec).tv_nsec < 1000000000) ∧
    (0 ≤ ({ tv_sec := 3, tv_nsec := 2 } : Timespec).tv_nsec
      ∧ ({ tv_sec := 3, tv_nsec := 2 } : Timespec).tv_nsec < 1000000000) ∧
    ∃ r, timespec_add { tv_sec := 5, tv_nsec := 999999999 } { tv_sec := 3, tv_nsec := 2 }
        = some r ∧
      (0 ≤ r.tv_nsec ∧ r.tv_nsec < 1000000000) ∧
      r.tv_sec * 1000000000 + r.tv_nsec
        = (({ tv_sec := 5, tv_nsec := 999999999 } : Timespec).tv_sec * 1000000000
            + ({ tv_sec := 5, tv_nsec := 999999999 } : Timespec).tv_nsec)
          + (({ tv_sec := 3, tv_nsec := 2 } : Timespec).tv_sec * 1000000000
            + ({ tv_sec := 3, tv_nsec := 2 } : Timespec).tv_nsec) :=
  ⟨by decide, by decide,
    C19_timespec_add_normalized { tv_sec := 5, tv_nsec := 999999999 }
      { tv_sec := 3, tv_nsec := 2 } (by decide) (by decide)⟩

set_option maxRecDepth 8000 in
/-- C20: `timespec_div` does not keep `ts` normalized.  The normalized value `tv_sec = -1`,
`tv_nsec = 0` divided by `num = 2` becomes `tv_sec = 0`, `tv_nsec = -500000000` (all
operations exact); the normalized value `tv_sec = 999999998`, `tv_nsec = 999999999` divided
by `num = 999999999` becomes `tv_sec = 0`, `tv_nsec = 1000000000`, because the product
`below_zero * BILLION` rounds up to `999999999`. -/
theorem C20_timespec_div_leaves_range :
    timespec_div { tv_sec := -1, tv_nsec := 0 } 2
      = some { tv_sec := 0, tv_nsec := -500000000 } ∧
    timespec_div { tv_sec := 999999998, tv_nsec := 999999999 } 999999999
      = some { tv_sec := 0, tv_nsec := 1000000000 } := by
  decide

/-! ## Lemmas on the number of writes and on the slot device -/

section ProtocolCounts

variable {R : Type} [CommRing R]

theorem writesAt_append (addr : Nat) (l1 l2 : List (Transfer R)) :
    writesAt addr (l1 ++ l2) = writesAt addr l1 + writesAt addr l2 := by
  simp [writesAt]

theorem writesAt_write (addr a len : Nat) (ch : String) (data : Payload R) :
    writesAt addr [Transfer.write ch a len data] = if a = addr then 1 else 0 := by
  by_cases h : a = addr
  · simp [writesAt, Transfer.isWriteAt, h]
  · simp [writesAt, Transfer.isWriteAt, h]

theorem writesAt_read (addr a len : Nat) (ch : String) :
    writesAt addr [(Transfer.read ch a len : Transfer R)] = 0 := by
  simp [writesAt, Transfer.isWriteAt]

theorem pollLoop_writesAt {σ : Type} (D : Device σ R) (addr : Nat) :
    ∀ (fuel : Nat) (h : Host σ R) (r : Nat × Host σ R), pollLoop D fuel h = some r →
      writesAt addr r.2.trace = writesAt addr h.trace := by
  intro fuel
  induction fuel with
  | zero =>
    intro h r hr
    simp [pollLoop] at hr
  | succ fuel ih =>
    intro h r hr
    simp only [pollLoop] at hr
    have hstep : writesAt addr (read_word_from_channel D C2H IP_ADDR 4 h).2.trace
        = writesAt addr h.trace := by
      simp only [read_word_from_channel]
      rw [writesAt_append, writesAt_read, Nat.add_zero]
    by_cases hc : (read_word_from_channel D C2H IP_ADDR 4 h).1 ≠ 0x5555
    · rw [if_pos hc] at hr
      rw [← Option.some.inj hr]
      exact hstep
    · rw [if_neg hc] at hr
      rw [ih _ r hr, hstep]

theorem addr_facts : BRAM_ADDR ≠ BRAM_ADDR + 4 * SIZE ∧ BRAM_ADDR ≠ IP_ADDR
    ∧ BRAM_ADDR + 4 * SIZE ≠ IP_ADDR ∧ IP_ADDR ≠ BRAM_ADDR + 4 * SIZE := by decide

theorem fpga_matmul_row_writesAt {σ : Type} (D : Device σ R) (fuel : Nat)
    (in_matrix1 : Buf R) (k op : Nat) (out_matrix : Buf R) (h : Host σ R)
    (y : Nat × Buf R × Host σ R)
    (hy : fpga_matmul_row D fuel in_matrix1 k (some (op, out_matrix, h)) = some y) :
    writesAt (BRAM_ADDR + 4 * SIZE) y.2.2.trace = writesAt (BRAM_ADDR + 4 * SIZE) h.trace ∧
    writesAt IP_ADDR y.2.2.trace = writesAt IP_ADDR h.trace + 1 := by
  simp only [fpga_matmul_row] at hy
  split at hy
  · exact absurd hy (by simp)
  · rename_i p hp
    rw [← Option.some.inj hy]
    simp only [read_floats_from_channel]
    rw [writesAt_append, writesAt_append, writesAt_read, writesAt_read,
      pollLoop_writesAt D _ fuel _ p hp, pollLoop_writesAt D _ fuel _ p hp]
    simp only [write_to_channel, writesAt_append, writesAt_write, addr_facts.1, addr_facts.2.1,
      addr_facts.2.2.1, addr_facts.2.2.2, if_true, if_false]
    constructor <;> trivial

theorem fpga_matmul_writesAt {σ : Type} (D : Device σ R) (fuel : Nat)
    (heap in_matrix1 in_matrix2 out_matrix : Buf R) (h : Host σ R) (r : Buf R × Host σ R)
    (hr : fpga_matmul D fuel heap in_matrix1 in_matrix2 out_matrix h = some r) :
    writesAt (BRAM_ADDR + 4 * SIZE) r.2.trace = writesAt (BRAM_ADDR + 4 * SIZE) h.trace + 1 ∧
    writesAt IP_ADDR r.2.trace = writesAt IP_ADDR h.trace + SIZE := by
  simp only [fpga_matmul] at hr
  have key := forLoop_one_induction
    (fun (t : Nat) (s : Option (Nat × Buf R × Host σ R)) =>
      ∀ x, s = some x →
        writesAt (BRAM_ADDR + 4 * SIZE) x.2.2.trace
          = writesAt (BRAM_ADDR + 4 * SIZE) h.trace + 1 ∧
        writesAt IP_ADDR x.2.2.trace = writesAt IP_ADDR h.trace + t) SIZE
    (fpga_matmul_row D fuel in_matrix1)
    (some (0x5555, out_matrix,
      write_to_channel D H2C (BRAM_ADDR + 4 * SIZE) (4 * SIZE * SIZE)
        (Payload.floats (bufToList (SIZE * SIZE) (mat_transpose_naive in_matrix2 heap SIZE SIZE)))
        h)) ?_ ?_
  · beta_reduce at key
    rcases Option.map_eq_some'.mp hr with ⟨x, hx, hxr⟩
    rw [← hxr]
    exact key x hx
  · intro x hx
    rw [← Option.some.inj hx]
    simp only [write_to_channel, writesAt_append, writesAt_write, addr_facts.2.2.1, if_true,
      if_false]
    constructor <;> trivial
  · intro t s _ hP y hy
    cases s with
    | none => simp [fpga_matmul_row] at hy
    | some x =>
      obtain ⟨op, out2, h2⟩ := x
      have h1 := hP _ rfl
      have h2 := fpga_matmul_row_writesAt D fuel in_matrix1 t op out2 h2 y hy
      simp only [] at h1
      omega

theorem result_slot_index : (BRAM_ADDR + 4 * (SIZE + SIZE * SIZE) - BRAM_ADDR) / 4
    = SIZE + SIZE * SIZE := by decide

/-- `fpga_matvec` on the slot device returns what the accelerator computes from the two
arrays it was sent. -/
theorem slot_fpga_matvec (compute : Buf R → Buf R → Buf R) (hloc : DependsOnSlots compute)
    (latency : Nat → Nat) (doneCode : Nat) (hdone : doneCode ≠ 0x5555) (fuel : Nat)
    (hf : ∀ n, latency n < fuel) (in_matrix in_vector out_vector : Buf R)
    (h : Host (SlotState R) R) :
    ∃ r, fpga_matvec (slotDevice compute latency doneCode) fuel in_matrix in_vector out_vector h
        = some r ∧
      ∀ q, q < SIZE → r.1 q = compute in_matrix in_vector q := by
  simp only [fpga_matvec, write_to_channel, slot_write_floats, slot_write_trigger,
    matrix_slot_index, bufToList_length]
  rw [slot_pollLoop compute latency doneCode hdone fuel _ (hf _)]
  simp only [read_floats_from_channel, slot_readFloats, Nat.sub_self, Nat.zero_div,
    Nat.zero_le, true_and, Nat.zero_add, four_mul_SIZE_div]
  refine ⟨_, rfl, ?_⟩
  intro q hq
  simp only []
  rw [loadFloats_map, if_pos hq, if_pos hq]
  apply hloc _ _ _ _ _ _ q hq
  · intro x hx
    have h1 : SIZE ≤ SIZE + x ∧ SIZE + x < SIZE + SIZE * SIZE := by omega
    simp only [offset, h1, and_self, if_true]
    rw [bufToList_getD _ _ _ (by omega)]
    congr 1
    omega
  · intro x hx
    have h1 : ¬ (SIZE ≤ x ∧ x < SIZE + SIZE * SIZE) := by omega
    simp only [h1, if_false, hx, if_true, Nat.sub_zero]
    rw [bufToList_getD _ _ _ hx]

/-- `fpga_matvec_verbose` on the slot device returns what the device memory held behind the
two slots. -/
theorem slot_fpga_matvec_verbose (compute : Buf R → Buf R → Buf R)
    (latency : Nat → Nat) (doneCode : Nat) (hdone : doneCode ≠ 0x5555) (fuel : Nat)
    (hf : ∀ n, latency n < fuel) (in_matrix in_vector out_vector : Buf R)
    (h : Host (SlotState R) R) :
    ∃ r, fpga_matvec_verbose (slotDevice compute latency doneCode) fuel in_matrix in_vector
        out_vector h = some r ∧
      ∀ q, q < SIZE → r.1 q = h.dev.bram (SIZE + SIZE * SIZE + q) := by
  simp only [fpga_matvec_verbose, write_to_channel, slot_write_floats, slot_write_trigger,
    matrix_slot_index, bufToList_length]
  rw [slot_pollLoop compute latency doneCode hdone fuel _ (hf _)]
  simp only [read_floats_from_channel, slot_readFloats, Nat.sub_self, Nat.zero_div,
    Nat.zero_le, true_and, Nat.zero_add, four_mul_SIZE_div, result_slot_index]
  refine ⟨_, rfl, ?_⟩
  intro q hq
  simp only []
  rw [loadFloats_map, if_pos hq]
  have h1 : ¬ SIZE + SIZE * SIZE + q < SIZE := by omega
  have h2 : ¬ (SIZE ≤ SIZE + SIZE * SIZE + q ∧ SIZE + SIZE * SIZE + q < SIZE + SIZE * SIZE) := by
    omega
  have h3 : ¬ (SIZE + SIZE * SIZE + q < SIZE) := by omega
  simp only [h1, h2, h3, if_false]

/-- The last transfer of `fpga_matvec` and of `fpga_matvec_verbose`. -/
theorem fpga_matvec_last {σ : Type} (D : Device σ R) (fuel : Nat)
    (in_matrix in_vector out_vector : Buf R) (h : Host σ R) (r : Buf R × Host σ R)
    (hr : fpga_matvec D fuel in_matrix in_vector out_vector h = some r) :
    r.2.trace.getLast? = some (Transfer.read C2H BRAM_ADDR (4 * SIZE)) := by
  simp only [fpga_matvec] at hr
  split at hr
  · exact absurd hr (by simp)
  · rw [← Option.some.inj hr]
    simp [read_floats_from_channel]

theorem fpga_matvec_verbose_last {σ : Type} (D : Device σ R) (fuel : Nat)
    (in_matrix in_vector out_vector : Buf R) (h : Host σ R) (r : Buf R × Host σ R)
    (hr : fpga_matvec_verbose D fuel in_matrix in_vector out_vector h = some r) :
    r.2.trace.getLast?
      = some (Transfer.read C2H (BRAM_ADDR + 4 * (SIZE + SIZE * SIZE)) (4 * SIZE)) := by
  simp only [fpga_matvec_verbose] at hr
  split at hr
  · exact absurd hr (by simp)
  · rw [← Option.some.inj hr]
    simp [read_floats_from_channel]

end ProtocolCounts

/-! ## Lemmas on the memory accesses -/

theorem forall_mem_append {α : Type} (P : α → Prop) (l1 l2 : List α)
    (h1 : ∀ a ∈ l1, P a) (h2 : ∀ a ∈ l2, P a) : ∀ a ∈ l1 ++ l2, P a := by
  intro a ha
  rcases List.mem_append.mp ha with h | h
  · exact h1 a h
  · exact h2 a h

theorem forall_mem_one {α : Type} (P : α → Prop) (a : α) (h : P a) : ∀ b ∈ [a], P b := by
  intro b hb
  rw [List.mem_singleton.mp hb]
  exact h

theorem forall_mem_two {α : Type} (P : α → Prop) (a b : α) (ha : P a) (hb : P b) :
    ∀ c ∈ [a, b], P c := by
  intro c hc
  simp only [List.mem_cons, List.mem_singleton, List.not_mem_nil, or_false] at hc
  rcases hc with h | h
  · rw [h]; exact ha
  · rw [h]; exact hb

theorem forall_mem_three {α : Type} (P : α → Prop) (a b c : α) (ha : P a) (hb : P b)
    (hc : P c) : ∀ x ∈ [a, b, c], P x := by
  intro x hx
  simp only [List.mem_cons, List.mem_singleton, List.not_mem_nil, or_false] at hx
  rcases hx with h | h | h
  · rw [h]; exact ha
  · rw [h]; exact hb
  · rw [h]; exact hc

theorem row_bound (n c a : Nat) (h : a < n) : (c : Int) * a + c ≤ (n : Int) * c := by
  have h1 : (a : Int) + 1 ≤ n := by omega
  have h2 : (0 : Int) ≤ c := Int.ofNat_nonneg c
  nlinarith [mul_le_mul_of_nonneg_left h1 h2]

theorem row_bound_two (n c a b : Nat) (h : a + b < n) :
    (c : Int) * a + (c : Int) * b + c ≤ (n : Int) * c := by
  have h1 := row_bound n c (a + b) h
  push_cast at h1
  rw [mul_add] at h1
  exact h1

theorem elementAccess_inBounds (extent : Region → Int) (r : Region) (k : Int)
    (h0 : 0 ≤ k) (h1 : k < extent r) : Access.InBounds extent (elementAccess r k) := by
  refine ⟨h0, (by decide : (0 : Int) ≤ 1), ?_, fun h => absurd h Bool.false_ne_true⟩
  show k + 1 ≤ extent r
  omega

theorem arrayAccess_inBounds (extent : Region → Int) (r : Region) (n : Int)
    (h0 : 0 ≤ n) (h1 : n ≤ extent r) : Access.InBounds extent (arrayAccess r n) := by
  refine ⟨le_refl 0, h0, ?_, fun h => absurd h Bool.false_ne_true⟩
  show 0 + n ≤ extent r
  omega

theorem memcpyAccesses_inBounds (extent : Region → Int) (dst : Region) (d : Int)
    (src : Region) (s len : Int) (hlen : 0 ≤ len) (hS : len ≤ (SIZE : Int)) (hd : 0 ≤ d)
    (hs : 0 ≤ s) (hdst : d + len ≤ extent dst) (hsrc : s + len ≤ extent src) :
    ∀ a ∈ memcpyAccesses dst d src s len, Access.InBounds extent a :=
  forall_mem_two _ _ _ ⟨hs, hlen, hsrc, fun _ => hS⟩ ⟨hd, hlen, hdst, fun _ => hS⟩

theorem checkInt_bind {β : Type} (x : Int) (h1 : 0 ≤ x) (h2 : x ≤ 2147483647)
    (f : Int → Option β) : (checkInt x).bind f = f x := by
  unfold checkInt
  rw [if_pos (by simp only [INT_MAX]; omega)]
  rfl

theorem defined_some {α : Type} (P : α → Prop) (l : List α) (h : ∀ a ∈ l, P a) :
    Defined P (some l) := ⟨l, rfl, h⟩

theorem defined_bind {α : Type} (P : α → Prop) (o : Option (List α))
    (g : List α → Option (List α)) (h : Defined P o)
    (hg : ∀ l, (∀ a ∈ l, P a) → Defined P (g l)) : Defined P (o.bind g) := by
  obtain ⟨l, e, hl⟩ := h
  rw [e]
  exact hg l hl

theorem forLoopIntAux_defined {α : Type} (P : α → Prop) (n stride : Nat)
    (hn : (n : Int) + stride - 1 ≤ 2147483647) (body : Nat → List α → Option (List α))
    (hbody : ∀ x l, x < n → (∀ a ∈ l, P a) → Defined P (body x l)) :
    ∀ (fuel x : Nat) (l : List α), (∀ a ∈ l, P a) →
      Defined P (forLoopIntAux n stride body fuel x l) := by
  intro fuel
  induction fuel with
  | zero =>
    intro x l h
    exact defined_some P l h
  | succ fuel ih =>
    intro x l h
    unfold forLoopIntAux
    by_cases hx : x < n
    · rw [if_pos hx]
      refine defined_bind P _ _ (hbody x l hx h) ?_
      intro l2 h2
      rw [if_pos (by simp only [INT_MAX]; omega)]
      exact ih _ l2 h2
    · rw [if_neg hx]
      exact defined_some P l h

/-- A loop on `int` whose counter cannot overflow, and whose body is defined and keeps a
property of the log, is defined and keeps the property. -/
theorem forLoopInt_defined {α : Type} (P : α → Prop) (n stride : Nat)
    (hn : (n : Int) + stride - 1 ≤ 2147483647) (body : Nat → List α → Option (List α))
    (hbody : ∀ x l, x < n → (∀ a ∈ l, P a) → Defined P (body x l))
    (l : List α) (h : ∀ a ∈ l, P a) : Defined P (forLoopInt n stride body l) :=
  forLoopIntAux_defined P n stride hn body hbody n 0 l h

/-- The fuel of `forLoopInt` never runs out: from the counter `x` on, any two amounts of fuel
of at least `n - x` give the same result. -/
theorem forLoopIntAux_fuel {σ : Type} (n stride : Nat) (hs : 0 < stride)
    (body : Nat → σ → Option σ) :
    ∀ (fuel1 fuel2 x : Nat) (s : σ), n - x ≤ fuel1 → n - x ≤ fuel2 →
      forLoopIntAux n stride body fuel1 x s = forLoopIntAux n stride body fuel2 x s := by
  intro fuel1
  induction fuel1 with
  | zero =>
    intro fuel2 x s h1 _
    cases fuel2 with
    | zero => rfl
    | succ fuel2 =>
      unfold forLoopIntAux
      rw [if_neg (by omega)]
  | succ fuel1 ih =>
    intro fuel2 x s h1 h2
    cases fuel2 with
    | zero =>
      unfold forLoopIntAux
      rw [if_neg (by omega)]
    | succ fuel2 =>
      rw [forLoopIntAux, forLoopIntAux]
      by_cases hx : x < n
      · rw [if_pos hx, if_pos hx]
        congr 1
        funext s2
        by_cases hc : (x : Int) + stride ≤ INT_MAX
        · rw [if_pos hc, if_pos hc]
          exact ih fuel2 (x + stride) s2 (by omega) (by omega)
        · rw [if_neg hc, if_neg hc]
      · rw [if_neg hx, if_neg hx]

/-- More fuel than `n` does not change the result of `forLoopInt`. -/
theorem forLoopInt_fuel {σ : Type} (n stride : Nat) (hs : 0 < stride)
    (body : Nat → σ → Option σ) (fuel : Nat) (s : σ) :
    forLoopInt n stride body s = forLoopIntAux n stride body (n + fuel) 0 s :=
  forLoopIntAux_fuel n stride hs body n (n + fuel) 0 s (by omega) (by omega)

theorem forLoopIntAux_overflow {σ : Type} (n stride : Nat) (hs : 0 < stride)
    (body : Nat → σ → Option σ) (t : Nat) (ht : t * stride < n)
    (hov : (2147483647 : Int) < (t * stride : Nat) + stride) :
    ∀ (fuel u : Nat) (s : σ), u ≤ t → t - u < fuel →
      forLoopIntAux n stride body fuel (u * stride) s = none := by
  intro fuel
  induction fuel with
  | zero =>
    intro u s _ hf
    omega
  | succ fuel ih =>
    intro u s hu hf
    have hle : u * stride ≤ t * stride := Nat.mul_le_mul_right stride hu
    unfold forLoopIntAux
    rw [if_pos (by omega)]
    cases hb : body (u * stride) s with
    | none => rfl
    | some s2 =>
      simp only [Option.some_bind]
      by_cases hc : ((u * stride : Nat) : Int) + stride ≤ INT_MAX
      · rw [if_pos hc]
        have hne : u ≠ t := by
          intro e
          rw [e] at hc
          simp only [INT_MAX] at hc
          omega
        have e2 : u * stride + stride = (u + 1) * stride := by
          rw [Nat.add_mul, Nat.one_mul]
        rw [e2]
        exact ih (u + 1) s2 (by omega) (by omega)
      · rw [if_neg hc]

/-- A loop on `int` whose counter reaches a value `t * stride < n` with
`t * stride + stride > INT_MAX` has no defined result. -/
theorem forLoopInt_overflow {σ : Type} (n stride : Nat) (hs : 0 < stride)
    (body : Nat → σ → Option σ) (t : Nat) (ht : t * stride < n)
    (hov : (2147483647 : Int) < (t * stride : Nat) + stride) (s : σ) :
    forLoopInt n stride body s = none := by
  have h := forLoopIntAux_overflow n stride hs body t ht hov n 0 s (Nat.zero_le t)
    (by
      have : t ≤ t * stride := Nat.le_mul_of_pos_right t hs
      omega)
  rw [Nat.zero_mul] at h
  exact h

theorem defined_append_loop (extent : Region → Int) (n : Nat) (hn : n ≤ 4096)
    (f : Nat → List Access)
    (hf : ∀ k, k < n → ∀ a ∈ f k, Access.InBounds extent a) (log : List Access)
    (h : ∀ a ∈ log, Access.InBounds extent a) :
    Defined (Access.InBounds extent) (forLoopInt n 1 (fun k log => some (log ++ f k)) log) := by
  refine forLoopInt_defined _ n 1 (by omega) _ ?_ log h
  intro k l hk hl
  exact defined_some _ _ (forall_mem_append _ _ _ hl (hf k hk))

theorem copyTileRowAccesses_defined (num_row num_col i j m : Nat) (hj : j < num_col)
    (hm : i + m < num_row) (hmS : m < SIZE) (hC : (num_col : Int) ≤ 2147483647)
    (hprod : (num_row : Int) * num_col ≤ 2147483647) (log : List Access)
    (h : ∀ a ∈ log, Access.InBounds (matvecExtent num_row num_col) a) :
    Defined (Access.InBounds (matvecExtent num_row num_col))
      (copyTileRowAccesses num_col i j m log) := by
  have hb := row_bound_two num_row num_col i m hm
  have hi0 : (0 : Int) ≤ (num_col : Int) * i := by positivity
  have hm0 : (0 : Int) ≤ (num_col : Int) * m := by positivity
  unfold copyTileRowAccesses
  rw [checkInt_bind _ (by omega) (by omega),
    checkInt_bind _ (by positivity) (by simp only [SIZE] at hmS ⊢; omega),
    checkInt_bind _ hi0 (by omega), checkInt_bind _ hm0 (by omega)]
  by_cases hc : (num_col : Int) - j ≥ (SIZE : Int)
  · rw [if_pos hc]
    refine defined_some _ _ (forall_mem_append _ _ _ h
      (memcpyAccesses_inBounds _ _ _ _ _ _ ?_ ?_ ?_ ?_ ?_ ?_))
    all_goals simp only [matvecExtent, SIZE] at hc hmS ⊢
    all_goals omega
  · rw [if_neg hc, checkInt_bind _ (by simp only [SIZE] at hc ⊢; omega)
      (by simp only [SIZE] at hc ⊢; omega)]
    refine defined_append_loop _ _ ?_
      (fun k => [elementAccess Region.fpga_matrix
        ((SIZE : Int) * m + ((num_col : Int) - j) + k)]) ?_ _
      (forall_mem_append _ _ _ h (memcpyAccesses_inBounds _ _ _ _ _ _ ?_ ?_ ?_ ?_ ?_ ?_))
    · simp only [SIZE] at hc ⊢
      omega
    · intro k hk
      refine forall_mem_one _ _ (elementAccess_inBounds _ _ _ ?_ ?_)
      all_goals simp only [matvecExtent, SIZE] at hc hmS hk ⊢
      all_goals omega
    all_goals simp only [matvecExtent, SIZE] at hc hmS ⊢
    all_goals omega

theorem fillMatrixTileAccesses_defined (num_row num_col i j : Nat) (hi : i < num_row)
    (hj : j < num_col) (hR : (num_row : Int) ≤ 2147483647) (hC : (num_col : Int) ≤ 2147483647)
    (hprod : (num_row : Int) * num_col ≤ 2147483647) (log : List Access)
    (h : ∀ a ∈ log, Access.InBounds (matvecExtent num_row num_col) a) :
    Defined (Access.InBounds (matvecExtent num_row num_col))
      (fillMatrixTileAccesses num_row num_col i j log) := by
  unfold fillMatrixTileAccesses
  rw [checkInt_bind _ (by omega) (by omega)]
  simp only []
  refine defined_bind _ _ _ ?_ ?_
  · by_cases hc : (num_row : Int) - i ≥ (SIZE : Int)
    · rw [if_pos hc]
      exact defined_some _ _ h
    · rw [if_neg hc]
      refine defined_append_loop _ _ (by decide)
        (fun k => [elementAccess Region.fpga_matrix k]) ?_ _ h
      intro k hk
      refine forall_mem_one _ _ (elementAccess_inBounds _ _ _ ?_ ?_)
      all_goals simp only [matvecExtent, SIZE] at hk ⊢
      all_goals omega
  · intro l hl
    refine forLoopInt_defined _ _ 1 ?_ _ ?_ l hl
    · by_cases hc : (num_row : Int) - i ≥ (SIZE : Int)
      · rw [if_pos hc]
        simp only [SIZE]
        omega
      · rw [if_neg hc]
        omega
    · intro m l2 hm h2
      refine copyTileRowAccesses_defined num_row num_col i j m hj ?_ ?_ hC hprod l2 h2
      · by_cases hc : (num_row : Int) - i ≥ (SIZE : Int)
        · rw [if_pos hc] at hm
          simp only [SIZE] at hc hm
          omega
        · rw [if_neg hc] at hm
          omega
      · by_cases hc : (num_row : Int) - i ≥ (SIZE : Int)
        · rw [if_pos hc] at hm
          simp only [SIZE] at hm ⊢
          omega
        · rw [if_neg hc] at hm
          simp only [SIZE] at hc ⊢
          omega

theorem fillVectorTileAccesses_defined (num_row num_col j : Nat) (hj : j < num_col)
    (hC : (num_col : Int) ≤ 2147483647) (log : List Access)
    (h : ∀ a ∈ log, Access.InBounds (matvecExtent num_row num_col) a) :
    Defined (Access.InBounds (matvecExtent num_row num_col))
      (fillVectorTileAccesses num_col j log) := by
  unfold fillVectorTileAccesses
  rw [checkInt_bind _ (by omega) (by omega)]
  by_cases hc : (num_col : Int) - j ≥ (SIZE : Int)
  · rw [if_pos hc]
    refine defined_some _ _ (forall_mem_append _ _ _ h
      (memcpyAccesses_inBounds _ _ _ _ _ _ ?_ ?_ ?_ ?_ ?_ ?_))
    all_goals simp only [matvecExtent, SIZE] at hc ⊢
    all_goals omega
  · rw [if_neg hc, checkInt_bind _ (by simp only [SIZE] at hc ⊢; omega)
      (by simp only [SIZE] at hc ⊢; omega)]
    refine defined_append_loop _ _ ?_
      (fun k => [elementAccess Region.fpga_vector (((num_col : Int) - j) + k)]) ?_ _
      (forall_mem_append _ _ _ h (memcpyAccesses_inBounds _ _ _ _ _ _ ?_ ?_ ?_ ?_ ?_ ?_))
    · simp only [SIZE] at hc ⊢
      omega
    · intro k hk
      refine forall_mem_one _ _ (elementAccess_inBounds _ _ _ ?_ ?_)
      all_goals simp only [matvecExtent, SIZE] at hc hk ⊢
      all_goals omega
    all_goals simp only [matvecExtent, SIZE] at hc ⊢
    all_goals omega

theorem matvecColumnStepAccesses_defined (num_row num_col i j : Nat) (hi : i < num_row)
    (hj : j < num_col) (hR : (num_row : Int) ≤ 2147483647) (hC : (num_col : Int) ≤ 2147483647)
    (hprod : (num_row : Int) * num_col ≤ 2147483647) (log : List Access)
    (h : ∀ a ∈ log, Access.InBounds (matvecExtent num_row num_col) a) :
    Defined (Access.InBounds (matvecExtent num_row num_col))
      (matvecColumnStepAccesses num_row num_col i j log) := by
  unfold matvecColumnStepAccesses
  refine defined_bind _ _ _
    (fillMatrixTileAccesses_defined num_row num_col i j hi hj hR hC hprod log h) ?_
  intro l hl
  refine defined_bind _ _ _ (fillVectorTileAccesses_defined num_row num_col j hj hC l hl) ?_
  intro l2 hl2
  refine defined_append_loop _ _ (by decide)
    (fun n => [elementAccess Region.out n, elementAccess Region.output_buffer n]) ?_ _
    (forall_mem_append _ _ _ hl2
      (forall_mem_three _ _ _ _ (arrayAccess_inBounds _ _ _ ?_ ?_)
        (arrayAccess_inBounds _ _ _ ?_ ?_) (arrayAccess_inBounds _ _ _ ?_ ?_)))
  · intro n hn
    refine forall_mem_two _ _ _ (elementAccess_inBounds _ _ _ ?_ ?_)
      (elementAccess_inBounds _ _ _ ?_ ?_)
    all_goals simp only [matvecExtent, SIZE] at hn ⊢
    all_goals omega
  all_goals simp only [matvecExtent, SIZE]
  all_goals omega

theorem matvecRowStepAccesses_defined (num_row num_col i : Nat) (hi : i < num_row)
    (hR : (num_row : Int) ≤ 2147483647) (hC : (num_col : Int) + 63 ≤ 2147483647)
    (hprod : (num_row : Int) * num_col ≤ 2147483647) (log : List Access)
    (h : ∀ a ∈ log, Access.InBounds (matvecExtent num_row num_col) a) :
    Defined (Access.InBounds (matvecExtent num_row num_col))
      (matvecRowStepAccesses num_row num_col i log) := by
  unfold matvecRowStepAccesses
  refine defined_bind _ _ _ ?_ ?_
  · refine forLoopInt_defined _ _ _ (by simp only [SIZE]; omega) _ ?_ _
      (forall_mem_append _ _ _ h
        (forall_mem_two _ _ _ (arrayAccess_inBounds _ _ _ ?_ ?_)
          (arrayAccess_inBounds _ _ _ ?_ ?_)))
    · intro j l hj hl
      exact matvecColumnStepAccesses_defined num_row num_col i j hi hj hR (by omega) hprod l hl
    all_goals simp only [matvecExtent, SIZE]
    all_goals omega
  · intro l hl
    rw [checkInt_bind _ (by omega) (by omega)]
    by_cases hc : (num_row : Int) - i ≥ (SIZE : Int)
    · rw [if_pos hc]
      refine defined_some _ _ (forall_mem_append _ _ _ hl
        (memcpyAccesses_inBounds _ _ _ _ _ _ ?_ ?_ ?_ ?_ ?_ ?_))
      all_goals simp only [matvecExtent, SIZE] at hc ⊢
      all_goals omega
    · rw [if_neg hc]
      refine defined_some _ _ (forall_mem_append _ _ _ hl
        (memcpyAccesses_inBounds _ _ _ _ _ _ ?_ ?_ ?_ ?_ ?_ ?_))
      all_goals simp only [matvecExtent, SIZE] at hc ⊢
      all_goals omega

/-- When no loop counter can overflow and `num_row * num_col` fits in an `int`, the run of
`fpga_large_matvec_naive` is defined and every access stays inside its array. -/
theorem fpga_large_matvec_naive_accesses_defined (num_row num_col : Nat)
    (hR : (num_row : Int) + 63 ≤ 2147483647) (hC : (num_col : Int) + 63 ≤ 2147483647)
    (hprod : (num_row : Int) * num_col ≤ 2147483647) :
    Defined (Access.InBounds (matvecExtent num_row num_col))
      (fpga_large_matvec_naive_accesses num_row num_col) := by
  unfold fpga_large_matvec_naive_accesses
  refine defined_bind _ _ _ ?_ ?_
  · refine forLoopInt_defined _ _ 1 (by omega) _ ?_ _
      (fun a ha => absurd ha (List.not_mem_nil a))
    intro p l hp hl
    refine defined_some _ _ (forall_mem_append _ _ _ hl
      (forall_mem_one _ _ (elementAccess_inBounds _ _ _ ?_ ?_)))
    · omega
    · simp only [matvecExtent]
      omega
  · intro l hl
    refine defined_bind _ _ _ ?_ ?_
    · refine forLoopInt_defined _ _ _ (by simp only [SIZE]; omega) _ ?_ l hl
      intro i l2 hi hl2
      exact matvecRowStepAccesses_defined num_row num_col i hi (by omega) hC hprod l2 hl2
    · intro l2 hl2
      refine defined_bind _ _ _ ?_ ?_
      · refine defined_append_loop _ _ (by decide)
          (fun p => [elementAccess Region.fpga_matrix p]) ?_ l2 hl2
        intro p hp
        refine forall_mem_one _ _ (elementAccess_inBounds _ _ _ ?_ ?_)
        all_goals simp only [matvecExtent, SIZE] at hp ⊢
        all_goals omega
      · intro l3 hl3
        refine defined_append_loop _ _ (by decide)
          (fun p => [elementAccess Region.fpga_vector p]) ?_ l3 hl3
        intro p hp
        refine forall_mem_one _ _ (elementAccess_inBounds _ _ _ ?_ ?_)
        all_goals simp only [matvecExtent, SIZE] at hp ⊢
        all_goals omega

theorem last_tile_lt (num_row : Nat) (h : 2147483584 < num_row) :
    33554431 * SIZE < num_row := by
  simp only [SIZE]
  omega

theorem last_tile_overflows :
    (2147483647 : Int) < ((33554431 * SIZE : Nat) : Int) + (SIZE : Nat) := by
  simp only [SIZE]
  omega

theorem rowLoop_overflow (num_row num_col : Nat)
    (h : 2147483584 < num_row) (l : List Access) :
    forLoopInt num_row SIZE (matvecRowStepAccesses num_row num_col) l = none :=
  forLoopInt_overflow num_row SIZE SIZE_pos _ 33554431 (last_tile_lt num_row h)
    last_tile_overflows l

/-- When `num_row` is within `SIZE - 1` of `INT_MAX`, the increment `i += SIZE` of the loop
over the row tiles overflows: the run of `fpga_large_matvec_naive` has no defined result. -/
theorem fpga_large_matvec_naive_accesses_overflow (num_row num_col : Nat)
    (h : 2147483584 < num_row) : fpga_large_matvec_naive_accesses num_row num_col = none := by
  unfold fpga_large_matvec_naive_accesses
  cases forLoopInt num_row 1
      (fun p log => some (log ++ [elementAccess Region.out_vector p])) [] with
  | none => rfl
  | some l =>
    rw [Option.some_bind, rowLoop_overflow num_row num_col h, Option.none_bind]

theorem matmulChunkStepAccesses_defined (num_rowA num_colA num_colB i j k : Nat)
    (ti tj : Int) (hti : 0 ≤ ti ∧ ti ≤ (SIZE : Int) ∧ (i : Int) + ti ≤ num_rowA)
    (htj : 0 ≤ tj ∧ tj ≤ (SIZE : Int) ∧ (j : Int) + tj ≤ num_colB) (hk : k < num_colA)
    (hK : (num_colA : Int) ≤ 2147483647)
    (hAK : (num_rowA : Int) * num_colA ≤ 2147483647)
    (hKB : (num_colA : Int) * num_colB ≤ 2147483647) (log : List Access)
    (h : ∀ a ∈ log, Access.InBounds (matmulExtent num_rowA num_colA num_colB) a) :
    Defined (Access.InBounds (matmulExtent num_rowA num_colA num_colB))
      (matmulChunkStepAccesses num_colA num_colB i ti j tj k log) := by
  unfold matmulChunkStepAccesses
  refine defined_bind _ _ _ (defined_append_loop _ _ (by decide)
    (fun p => [elementAccess Region.fpga_matrix1 p, elementAccess Region.fpga_matrix2 p])
    ?_ log h) ?_
  · intro p hp
    refine forall_mem_two _ _ _ (elementAccess_inBounds _ _ _ ?_ ?_)
      (elementAccess_inBounds _ _ _ ?_ ?_)
    all_goals simp only [matmulExtent, SIZE] at hp ⊢
    all_goals omega
  intro l1 hl1
  rw [checkInt_bind _ (by omega) (by omega)]
  simp only []
  have htk : 0 ≤ (if (num_colA : Int) - k ≥ (SIZE : Int) then (SIZE : Int)
      else (num_colA : Int) - k)
      ∧ (if (num_colA : Int) - k ≥ (SIZE : Int) then (SIZE : Int) else (num_colA : Int) - k)
        ≤ (SIZE : Int)
      ∧ (k : Int) + (if (num_colA : Int) - k ≥ (SIZE : Int) then (SIZE : Int)
        else (num_colA : Int) - k) ≤ num_colA := by
    by_cases hc : (num_colA : Int) - k ≥ (SIZE : Int)
    · rw [if_pos hc]
      simp only [SIZE] at hc ⊢
      omega
    · rw [if_neg hc]
      simp only [SIZE] at hc ⊢
      omega
  generalize (if (num_colA : Int) - k ≥ (SIZE : Int) then (SIZE : Int)
    else (num_colA : Int) - k) = tk at htk ⊢
  refine defined_bind _ _ _ ?_ ?_
  · refine forLoopInt_defined _ _ 1 (by simp only [SIZE] at hti; omega) _ ?_ l1 hl1
    intro p l hp hl
    have hb := row_bound_two num_rowA num_colA i p (by omega)
    have h0 : (0 : Int) ≤ (num_colA : Int) * i := by positivity
    have h1 : (0 : Int) ≤ (num_colA : Int) * p := by positivity
    rw [checkInt_bind _ (by positivity) (by simp only [SIZE] at hti ⊢; omega),
      checkInt_bind _ h0 (by omega), checkInt_bind _ h1 (by omega)]
    refine defined_some _ _ (forall_mem_append _ _ _ hl
      (memcpyAccesses_inBounds _ _ _ _ _ _ ?_ ?_ ?_ ?_ ?_ ?_))
    all_goals simp only [matmulExtent, SIZE] at hti htk ⊢
    all_goals omega
  intro l2 hl2
  refine defined_bind _ _ _ ?_ ?_
  · refine forLoopInt_defined _ _ 1 (by simp only [SIZE] at htk; omega) _ ?_ l2 hl2
    intro p l hp hl
    have hb := row_bound_two num_colA num_colB k p (by omega)
    have h0 : (0 : Int) ≤ (num_colB : Int) * k := by positivity
    have h1 : (0 : Int) ≤ (num_colB : Int) * p := by positivity
    rw [checkInt_bind _ (by positivity) (by simp only [SIZE] at htk ⊢; omega),
      checkInt_bind _ h0 (by omega), checkInt_bind _ h1 (by omega)]
    refine defined_some _ _ (forall_mem_append _ _ _ hl
      (memcpyAccesses_inBounds _ _ _ _ _ _ ?_ ?_ ?_ ?_ ?_ ?_))
    all_goals simp only [matmulExtent, SIZE] at htj htk ⊢
    all_goals omega
  intro l3 hl3
  refine defined_append_loop _ _ (by decide)
    (fun p => [elementAccess Region.out p, elementAccess Region.output_buffer p]) ?_ _
    (forall_mem_append _ _ _ hl3
      (forall_mem_three _ _ _ _ (arrayAccess_inBounds _ _ _ ?_ ?_)
        (arrayAccess_inBounds _ _ _ ?_ ?_) (arrayAccess_inBounds _ _ _ ?_ ?_)))
  · intro p hp
    refine forall_mem_two _ _ _ (elementAccess_inBounds _ _ _ ?_ ?_)
      (elementAccess_inBounds _ _ _ ?_ ?_)
    all_goals simp only [matmulExtent, SIZE] at hp ⊢
    all_goals omega
  all_goals simp only [matmulExtent, SIZE]
  all_goals omega

theorem matmulTileStepAccesses_defined (num_rowA num_colA num_colB i j : Nat)
    (ti : Int) (hti : 0 ≤ ti ∧ ti ≤ (SIZE : Int) ∧ (i : Int) + ti ≤ num_rowA)
    (hj : j < num_colB) (hK : (num_colA : Int) + 63 ≤ 2147483647)
    (hB : (num_colB : Int) ≤ 2147483647)
    (hAK : (num_rowA : Int) * num_colA ≤ 2147483647)
    (hKB : (num_colA : Int) * num_colB ≤ 2147483647)
    (hAB : (num_rowA : Int) * num_colB ≤ 2147483647) (log : List Access)
    (h : ∀ a ∈ log, Access.InBounds (matmulExtent num_rowA num_colA num_colB) a) :
    Defined (Access.InBounds (matmulExtent num_rowA num_colA num_colB))
      (matmulTileStepAccesses num_colA num_colB i ti j log) := by
  unfold matmulTileStepAccesses
  rw [checkInt_bind _ (by omega) (by omega)]
  simp only []
  have htj : 0 ≤ (if (num_colB : Int) - j ≥ (SIZE : Int) then (SIZE : Int)
      else (num_colB : Int) - j)
      ∧ (if (num_colB : Int) - j ≥ (SIZE : Int) then (SIZE : Int) else (num_colB : Int) - j)
        ≤ (SIZE : Int)
      ∧ (j : Int) + (if (num_colB : Int) - j ≥ (SIZE : Int) then (SIZE : Int)
        else (num_colB : Int) - j) ≤ num_colB := by
    by_cases hc : (num_colB : Int) - j ≥ (SIZE : Int)
    · rw [if_pos hc]
      simp only [SIZE] at hc ⊢
      omega
    · rw [if_neg hc]
      simp only [SIZE] at hc ⊢
      omega
  generalize (if (num_colB : Int) - j ≥ (SIZE : Int) then (SIZE : Int)
    else (num_colB : Int) - j) = tj at htj ⊢
  refine defined_bind _ _ _ ?_ ?_
  · refine forLoopInt_defined _ _ _ (by simp only [SIZE]; omega) _ ?_ _
      (forall_mem_append _ _ _ h
        (forall_mem_two _ _ _ (arrayAccess_inBounds _ _ _ ?_ ?_)
          (arrayAccess_inBounds _ _ _ ?_ ?_)))
    · intro k l hk hl
      exact matmulChunkStepAccesses_defined num_rowA num_colA num_colB i j k ti tj hti htj hk
        (by omega) hAK hKB l hl
    all_goals simp only [matmulExtent, SIZE]
    all_goals omega
  intro l2 hl2
  refine forLoopInt_defined _ _ 1 (by simp only [SIZE] at hti; omega) _ ?_ l2 hl2
  intro p l hp hl
  have hb := row_bound_two num_rowA num_colB i p (by omega)
  have h0 : (0 : Int) ≤ (num_colB : Int) * i := by positivity
  have h1 : (0 : Int) ≤ (num_colB : Int) * p := by positivity
  rw [checkInt_bind _ (by positivity) (by simp only [SIZE] at hti ⊢; omega),
    checkInt_bind _ h0 (by omega), checkInt_bind _ h1 (by omega)]
  refine defined_some _ _ (forall_mem_append _ _ _ hl
    (memcpyAccesses_inBounds _ _ _ _ _ _ ?_ ?_ ?_ ?_ ?_ ?_))
  all_goals simp only [matmulExtent, SIZE] at hti htj ⊢
  all_goals omega

/-- When no loop counter can overflow and the three products of the dimensions fit in an
`int`, the run of `fpga_large_matmul_naive2` is defined and every access stays inside its
array. -/
theorem fpga_large_matmul_naive2_accesses_defined (num_rowA num_colA num_colB : Nat)
    (hA : (num_rowA : Int) + 63 ≤ 2147483647) (hK : (num_colA : Int) + 63 ≤ 2147483647)
    (hB : (num_colB : Int) + 63 ≤ 2147483647)
    (hAK : (num_rowA : Int) * num_colA ≤ 2147483647)
    (hKB : (num_colA : Int) * num_colB ≤ 2147483647)
    (hAB : (num_rowA : Int) * num_colB ≤ 2147483647) :
    Defined (Access.InBounds (matmulExtent num_rowA num_colA num_colB))
      (fpga_large_matmul_naive2_accesses num_rowA num_colA num_colB) := by
  unfold fpga_large_matmul_naive2_accesses
  refine forLoopInt_defined _ _ _ (by simp only [SIZE]; omega) _ ?_ _
    (fun a ha => absurd ha (List.not_mem_nil a))
  intro i l hi hl
  unfold matmulRowStepAccesses
  rw [checkInt_bind _ (by omega) (by omega)]
  simp only []
  have hti : 0 ≤ (if (num_rowA : Int) - i ≥ (SIZE : Int) then (SIZE : Int)
      else (num_rowA : Int) - i)
      ∧ (if (num_rowA : Int) - i ≥ (SIZE : Int) then (SIZE : Int) else (num_rowA : Int) - i)
        ≤ (SIZE : Int)
      ∧ (i : Int) + (if (num_rowA : Int) - i ≥ (SIZE : Int) then (SIZE : Int)
        else (num_rowA : Int) - i) ≤ num_rowA := by
    by_cases hc : (num_rowA : Int) - i ≥ (SIZE : Int)
    · rw [if_pos hc]
      simp only [SIZE] at hc ⊢
      omega
    · rw [if_neg hc]
      simp only [SIZE] at hc ⊢
      omega
  generalize (if (num_rowA : Int) - i ≥ (SIZE : Int) then (SIZE : Int)
    else (num_rowA : Int) - i) = ti at hti ⊢
  refine forLoopInt_defined _ _ _ (by simp only [SIZE]; omega) _ ?_ l hl
  intro j l2 hj hl2
  exact matmulTileStepAccesses_defined num_rowA num_colA num_colB i j ti hti hj hK (by omega)
    hAK hKB hAB l2 hl2

theorem checkInt_eq_some (x v : Int) (h : checkInt x = some v) : v = x := by
  unfold checkInt at h
  split at h
  · exact (Option.some.inj h).symm
  · exact Option.noConfusion h

theorem forLoopIntAux_grows {α : Type} (n stride : Nat)
    (body : Nat → List α → Option (List α)) (hbody : ∀ x, Grows (body x)) :
    ∀ fuel x, Grows (forLoopIntAux n stride body fuel x) := by
  intro fuel
  induction fuel with
  | zero =>
    intro x l l2 h a ha
    unfold forLoopIntAux at h
    rw [← Option.some.inj h]
    exact ha
  | succ fuel ih =>
    intro x l l2 h a ha
    unfold forLoopIntAux at h
    split at h
    · rw [Option.bind_eq_some] at h
      obtain ⟨l1, h1, h⟩ := h
      split at h
      · exact ih _ l1 l2 h a (hbody x l l1 h1 a ha)
      · exact Option.noConfusion h
    · rw [← Option.some.inj h]
      exact ha

theorem forLoopInt_grows {α : Type} (n stride : Nat)
    (body : Nat → List α → Option (List α)) (hbody : ∀ x, Grows (body x)) :
    Grows (forLoopInt n stride body) :=
  forLoopIntAux_grows n stride body hbody n 0

/-- What the first pass of a loop on `int` appends is in the log of the whole loop. -/
theorem forLoopInt_first {α : Type} (n stride : Nat) (hn : 0 < n)
    (body : Nat → List α → Option (List α)) (hbody : ∀ x, Grows (body x)) (a : α)
    (h0 : ∀ l l2, body 0 l = some l2 → a ∈ l2) (l l2 : List α)
    (h : forLoopInt n stride body l = some l2) : a ∈ l2 := by
  unfold forLoopInt at h
  obtain ⟨m, rfl⟩ : ∃ m, n = m + 1 := ⟨n - 1, by omega⟩
  unfold forLoopIntAux at h
  rw [if_pos hn, Option.bind_eq_some] at h
  obtain ⟨l1, h1, h⟩ := h
  split at h
  · exact forLoopIntAux_grows _ stride body hbody m _ l1 l2 h a (h0 l l1 h1)
  · exact Option.noConfusion h

theorem append_grows {α : Type} (f : Nat → List α) (x : Nat) :
    Grows (fun l : List α => some (l ++ f x)) := by
  intro l l2 h a ha
  rw [← Option.some.inj h]
  exact List.mem_append_left _ ha

theorem copyTileRowAccesses_grows (num_col i j m : Nat) :
    Grows (copyTileRowAccesses num_col i j m) := by
  intro l l2 h a ha
  unfold copyTileRowAccesses at h
  simp only [Option.bind_eq_some] at h
  obtain ⟨w, _, sm, _, ci, _, cm, _, h⟩ := h
  split at h
  · rw [← Option.some.inj h]
    exact List.mem_append_left _ ha
  · rw [Option.bind_eq_some] at h
    obtain ⟨pad, _, h⟩ := h
    exact forLoopInt_grows _ 1 _
      (append_grows (fun k => [elementAccess Region.fpga_matrix (sm + w + k)])) _ _ h a
      (List.mem_append_left _ ha)

theorem fillMatrixTileAccesses_grows (num_row num_col i j : Nat) :
    Grows (fillMatrixTileAccesses num_row num_col i j) := by
  intro l l2 h a ha
  unfold fillMatrixTileAccesses at h
  simp only [Option.bind_eq_some] at h
  obtain ⟨w, _, l1, h1, h⟩ := h
  refine forLoopInt_grows _ 1 _ (copyTileRowAccesses_grows num_col i j) _ _ h a ?_
  split at h1
  · rw [← Option.some.inj h1]
    exact ha
  · exact forLoopInt_grows _ 1 _
      (append_grows (fun k => [elementAccess Region.fpga_matrix k])) _ _ h1 a ha

theorem fillVectorTileAccesses_grows (num_col j : Nat) :
    Grows (fillVectorTileAccesses num_col j) := by
  intro l l2 h a ha
  unfold fillVectorTileAccesses at h
  simp only [Option.bind_eq_some] at h
  obtain ⟨w, _, h⟩ := h
  split at h
  · rw [← Option.some.inj h]
    exact List.mem_append_left _ ha
  · rw [Option.bind_eq_some] at h
    obtain ⟨pad, _, h⟩ := h
    exact forLoopInt_grows _ 1 _
      (append_grows (fun k => [elementAccess Region.fpga_vector (w + k)])) _ _ h a
      (List.mem_append_left _ ha)

theorem matvecColumnStepAccesses_tail (l1 l2 l3 : List Access) (a : Access) (ha : a ∈ l1)
    (h2 : ∀ b ∈ l1, b ∈ l2)
    (h : forLoopInt SIZE 1
      (fun n log =>
        some (log ++ [elementAccess Region.out n, elementAccess Region.output_buffer n]))
      (l2 ++ [arrayAccess Region.fpga_matrix ((SIZE : Int) * SIZE),
        arrayAccess Region.fpga_vector SIZE, arrayAccess Region.out SIZE]) = some l3) :
    a ∈ l3 :=
  forLoopInt_grows _ 1 _
    (append_grows
      (fun n => [elementAccess Region.out n, elementAccess Region.output_buffer n])) _ _ h a
    (List.mem_append_left _ (h2 a ha))

theorem matvecColumnStepAccesses_grows (num_row num_col i j : Nat) :
    Grows (matvecColumnStepAccesses num_row num_col i j) := by
  intro l l2 h a ha
  unfold matvecColumnStepAccesses at h
  simp only [Option.bind_eq_some] at h
  obtain ⟨l1, h1, l3, h3, h⟩ := h
  exact matvecColumnStepAccesses_tail l l3 l2 a ha
    (fun b hb => fillVectorTileAccesses_grows num_col j l1 l3 h3 b
      (fillMatrixTileAccesses_grows num_row num_col i j l l1 h1 b hb)) h

theorem matvecRowStepAccesses_grows (num_row num_col i : Nat) :
    Grows (matvecRowStepAccesses num_row num_col i) := by
  intro l l2 h a ha
  unfold matvecRowStepAccesses at h
  simp only [Option.bind_eq_some] at h
  obtain ⟨l1, h1, w, _, h⟩ := h
  have h3 : a ∈ l1 :=
    forLoopInt_grows _ SIZE _ (matvecColumnStepAccesses_grows num_row num_col i) _ _ h1 a
      (List.mem_append_left _ ha)
  split at h
  · rw [← Option.some.inj h]
    exact List.mem_append_left _ h3
  · rw [← Option.some.inj h]
    exact List.mem_append_left _ h3

/-- The first row of the first tile is read from the start of `in_matrix`. -/
theorem copyTileRowAccesses_first (num_col : Nat) (hc : SIZE ≤ num_col) (l l2 : List Access)
    (h : copyTileRowAccesses num_col 0 0 0 l = some l2) :
    ({ region := Region.in_matrix, start := 0, len := (SIZE : Int), copy := true } : Access)
      ∈ l2 := by
  unfold copyTileRowAccesses at h
  simp only [Option.bind_eq_some] at h
  obtain ⟨w, hw, sm, hsm, ci, hci, cm, hcm, h⟩ := h
  have ew := checkInt_eq_some _ _ hw
  have eci := checkInt_eq_some _ _ hci
  have ecm := checkInt_eq_some _ _ hcm
  rw [if_pos (by rw [ew]; push_cast; omega)] at h
  rw [← Option.some.inj h]
  refine List.mem_append_right _ ?_
  have e : ci + ((0 : Nat) : Int) + cm = 0 := by
    rw [eci, ecm]
    simp
  unfold memcpyAccesses
  rw [e]
  exact List.mem_cons_self _ _

theorem fillMatrixTileAccesses_first (num_row num_col : Nat) (hr : 0 < num_row)
    (hc : SIZE ≤ num_col) (l l2 : List Access)
    (h : fillMatrixTileAccesses num_row num_col 0 0 l = some l2) :
    ({ region := Region.in_matrix, start := 0, len := (SIZE : Int), copy := true } : Access)
      ∈ l2 := by
  unfold fillMatrixTileAccesses at h
  simp only [Option.bind_eq_some] at h
  obtain ⟨w, hw, l1, _, h⟩ := h
  have ew := checkInt_eq_some _ _ hw
  refine forLoopInt_first _ 1 ?_ _ (copyTileRowAccesses_grows num_col 0 0) _
    (copyTileRowAccesses_first num_col hc) l1 l2 h
  rw [ew]
  split
  · simp only [SIZE]
    decide
  · omega

theorem matvecColumnStepAccesses_first (num_row num_col : Nat) (hr : 0 < num_row)
    (hc : SIZE ≤ num_col) (l l2 : List Access)
    (h : matvecColumnStepAccesses num_row num_col 0 0 l = some l2) :
    ({ region := Region.in_matrix, start := 0, len := (SIZE : Int), copy := true } : Access)
      ∈ l2 := by
  unfold matvecColumnStepAccesses at h
  simp only [Option.bind_eq_some] at h
  obtain ⟨l1, h1, l3, h3, h⟩ := h
  exact matvecColumnStepAccesses_tail l1 l3 l2 _
    (fillMatrixTileAccesses_first num_row num_col hr hc l l1 h1)
    (fillVectorTileAccesses_grows num_col 0 l1 l3 h3) h

theorem matvecRowStepAccesses_first (num_row num_col : Nat) (hr : 0 < num_row)
    (hc : SIZE ≤ num_col) (l l2 : List Access)
    (h : matvecRowStepAccesses num_row num_col 0 l = some l2) :
    ({ region := Region.in_matrix, start := 0, len := (SIZE : Int), copy := true } : Access)
      ∈ l2 := by
  unfold matvecRowStepAccesses at h
  simp only [Option.bind_eq_some] at h
  obtain ⟨l1, h1, w, _, h⟩ := h
  have h3 := forLoopInt_first num_col SIZE (by simp only [SIZE] at hc; omega) _
    (matvecColumnStepAccesses_grows num_row num_col 0) _
    (matvecColumnStepAccesses_first num_row num_col hr hc) _ l1 h1
  split at h
  · rw [← Option.some.inj h]
    exact List.mem_append_left _ h3
  · rw [← Option.some.inj h]
    exact List.mem_append_left _ h3

/-- A defined run of `fpga_large_matvec_naive` on a matrix of at least one row and at least
`SIZE` columns copies the first `SIZE` elements of `in_matrix`. -/
theorem fpga_large_matvec_naive_accesses_first (num_row num_col : Nat) (hr : 0 < num_row)
    (hc : SIZE ≤ num_col) (log : List Access)
    (h : fpga_large_matvec_naive_accesses num_row num_col = some log) :
    ({ region := Region.in_matrix, start := 0, len := (SIZE : Int), copy := true } : Access)
      ∈ log := by
  unfold fpga_large_matvec_naive_accesses at h
  simp only [Option.bind_eq_some] at h
  obtain ⟨l1, _, l2, h2, l3, h3, h⟩ := h
  exact forLoopInt_grows _ 1 _ (append_grows (fun p => [elementAccess Region.fpga_vector p]))
    _ _ h _
    (forLoopInt_grows _ 1 _ (append_grows (fun p => [elementAccess Region.fpga_matrix p]))
      _ _ h3 _
      (forLoopInt_first num_row SIZE hr _ (matvecRowStepAccesses_grows num_row num_col) _
        (matvecRowStepAccesses_first num_row num_col hr hc) l1 l2 h2))

/-! ## Lemmas on the transpose, the number of calls and the independence of the output -/

section EngineLemmas

variable {R : Type} [CommRing R]

/-- The stores of `mat_transpose_naive`: their number, and which indices they reach. -/
theorem mat_transpose_naive_writes_spec (num_row num_col : Nat) :
    (mat_transpose_naive_writes num_row num_col).length = num_row * num_col ∧
    ∀ x, x ∈ mat_transpose_naive_writes num_row num_col
      ↔ ∃ i j, i < num_row ∧ j < num_col ∧ x = j * num_row + i := by
  unfold mat_transpose_naive_writes
  have inner : ∀ (i : Nat) (w : List Nat),
      (forLoop num_col 1 (fun j w => w ++ [j * num_row + i]) w).length = w.length + num_col ∧
      ∀ x, x ∈ forLoop num_col 1 (fun j w => w ++ [j * num_row + i]) w
        ↔ x ∈ w ∨ ∃ j, j < num_col ∧ x = j * num_row + i := by
    intro i w
    refine forLoop_one_induction
      (fun t (l : List Nat) => l.length = w.length + t ∧
        ∀ x, x ∈ l ↔ x ∈ w ∨ ∃ j, j < t ∧ x = j * num_row + i) num_col _ w ?_ ?_
    · refine ⟨rfl, fun x => ?_⟩
      constructor
      · intro h
        exact Or.inl h
      · rintro (h | ⟨j, hj, _⟩)
        · exact h
        · omega
    · intro t l _ hP
      beta_reduce at hP ⊢
      refine ⟨by rw [List.length_append, hP.1]; rfl, fun x => ?_⟩
      rw [List.mem_append, hP.2 x, List.mem_singleton]
      constructor
      · rintro ((h | ⟨j, hj, e⟩) | e)
        · exact Or.inl h
        · exact Or.inr ⟨j, by omega, e⟩
        · exact Or.inr ⟨t, by omega, e⟩
      · rintro (h | ⟨j, hj, e⟩)
        · exact Or.inl (Or.inl h)
        · by_cases hjt : j = t
          · subst hjt
            exact Or.inr e
          · exact Or.inl (Or.inr ⟨j, by omega, e⟩)
  refine forLoop_one_induction
    (fun t (l : List Nat) => l.length = t * num_col ∧
      ∀ x, x ∈ l ↔ ∃ i j, i < t ∧ j < num_col ∧ x = j * num_row + i) num_row _ [] ?_ ?_
  · refine ⟨by simp, fun x => ?_⟩
    constructor
    · intro h
      exact absurd h (List.not_mem_nil x)
    · rintro ⟨i, j, hi, _⟩
      omega
  · intro t l _ hP
    beta_reduce at hP ⊢
    obtain ⟨h1, h2⟩ := inner t l
    refine ⟨by rw [h1, hP.1, Nat.add_mul, Nat.one_mul], fun x => ?_⟩
    rw [h2 x, hP.2 x]
    constructor
    · rintro (⟨i, j, hi, hj, e⟩ | ⟨j, hj, e⟩)
      · exact ⟨i, j, by omega, hj, e⟩
      · exact ⟨t, j, by omega, hj, e⟩
    · rintro ⟨i, j, hi, hj, e⟩
      by_cases hit : i = t
      · subst hit
        exact Or.inr ⟨j, hj, e⟩
      · exact Or.inl ⟨i, j, by omega, hj, e⟩

/-- The stores of `mat_transpose_naive` reach every index below `num_row * num_col` once. -/
theorem mat_transpose_naive_writes_perm (num_row num_col : Nat) :
    List.Perm (List.range (num_row * num_col)) (mat_transpose_naive_writes num_row num_col) := by
  obtain ⟨hlen, hmem⟩ := mat_transpose_naive_writes_spec num_row num_col
  refine List.Subperm.perm_of_length_le
    (List.subperm_of_subset (List.nodup_range _) ?_) (by rw [hlen, List.length_range])
  intro x hx
  have hx2 : x < num_row * num_col := List.mem_range.mp hx
  have hR : 0 < num_row := by
    rcases Nat.eq_zero_or_pos num_row with h | h
    · rw [h, Nat.zero_mul] at hx2
      exact absurd hx2 (Nat.not_lt_zero x)
    · exact h
  refine (hmem x).mpr ⟨x % num_row, x / num_row, Nat.mod_lt x hR, ?_,
    (Nat.div_add_mod' x num_row).symm⟩
  rw [Nat.div_lt_iff_lt_mul hR]
  rw [Nat.mul_comm] at hx2
  exact hx2

theorem mat_transpose_naive_twice (in_matrix t out_matrix : Buf R) (num_row num_col x : Nat)
    (hx : x < num_row * num_col) :
    mat_transpose_naive (mat_transpose_naive in_matrix t num_row num_col) out_matrix
        num_col num_row x = in_matrix x := by
  have hC : 0 < num_col := by
    rcases Nat.eq_zero_or_pos num_col with h | h
    · rw [h, Nat.mul_zero] at hx
      exact absurd hx (Nat.not_lt_zero x)
    · exact h
  have hi : x % num_col < num_col := Nat.mod_lt x hC
  have hj : x / num_col < num_row := by
    rw [Nat.div_lt_iff_lt_mul hC]
    exact hx
  have e : x / num_col * num_col + x % num_col = x := Nat.div_add_mod' x num_col
  have h1 := mat_transpose_naive_apply (mat_transpose_naive in_matrix t num_row num_col)
    out_matrix num_col num_row (x % num_col) (x / num_col) hi
  rw [e, if_pos hj] at h1
  rw [h1, mat_transpose_naive_apply in_matrix t num_row num_col (x / num_col) (x % num_col) hj,
    if_pos hi, e]

end EngineLemmas

/-! ## Lemmas on the transfers of `fpga_matmul` and on the profiling functions -/

section TraceLemmas
variable {R : Type} [CommRing R]

theorem forall_mem_append_one (P : Transfer R → Prop) (l : List (Transfer R)) (t : Transfer R)
    (hl : ∀ u ∈ l, P u) (ht : P t) : ∀ u ∈ l ++ [t], P u := by
  intro u hu
  rcases List.mem_append.mp hu with h | h
  · exact hl u h
  · rw [List.mem_singleton.mp h]
    exact ht

theorem pollLoop_forall {σ : Type} (D : Device σ R) (P : Transfer R → Prop)
    (hP : P (Transfer.read C2H IP_ADDR 4)) :
    ∀ (fuel : Nat) (h : Host σ R) (r : Nat × Host σ R), pollLoop D fuel h = some r →
      (∀ t ∈ h.trace, P t) → ∀ t ∈ r.2.trace, P t := by
  intro fuel
  induction fuel with
  | zero =>
    intro h r hr
    simp [pollLoop] at hr
  | succ fuel ih =>
    intro h r hr hh
    simp only [pollLoop] at hr
    have hstep : ∀ t ∈ (read_word_from_channel D C2H IP_ADDR 4 h).2.trace, P t :=
      forall_mem_append_one P _ _ hh hP
    by_cases hc : (read_word_from_channel D C2H IP_ADDR 4 h).1 ≠ 0x5555
    · rw [if_pos hc] at hr
      rw [← Option.some.inj hr]
      exact hstep
    · rw [if_neg hc] at hr
      exact ih _ r hr hstep

/-- Every transfer of `fpga_matmul` is one of five kinds. -/
theorem fpga_matmul_forall {σ : Type} (D : Device σ R) (P : Transfer R → Prop)
    (h1 : P (Transfer.read C2H IP_ADDR 4)) (h2 : P (Transfer.read C2H BRAM_ADDR (4 * SIZE)))
    (h3 : ∀ b : Buf R, P (Transfer.write H2C BRAM_ADDR (4 * SIZE)
      (Payload.floats (bufToList SIZE b))))
    (h4 : ∀ b : Buf R, P (Transfer.write H2C (BRAM_ADDR + 4 * SIZE) (4 * SIZE * SIZE)
      (Payload.floats (bufToList (SIZE * SIZE) b))))
    (h5 : P (Transfer.write H2C IP_ADDR 4 (Payload.word 0x5555)))
    (fuel : Nat) (heap in_matrix1 in_matrix2 out_matrix : Buf R) (h : Host σ R)
    (r : Buf R × Host σ R)
    (hr : fpga_matmul D fuel heap in_matrix1 in_matrix2 out_matrix h = some r)
    (hh : ∀ t ∈ h.trace, P t) : ∀ t ∈ r.2.trace, P t := by
  simp only [fpga_matmul] at hr
  have key := forLoop_one_induction
    (fun (t : Nat) (s : Option (Nat × Buf R × Host σ R)) =>
      ∀ x, s = some x → ∀ t ∈ x.2.2.trace, P t) SIZE
    (fpga_matmul_row D fuel in_matrix1)
    (some (0x5555, out_matrix,
      write_to_channel D H2C (BRAM_ADDR + 4 * SIZE) (4 * SIZE * SIZE)
        (Payload.floats (bufToList (SIZE * SIZE) (mat_transpose_naive in_matrix2 heap SIZE SIZE)))
        h)) ?_ ?_
  · beta_reduce at key
    rcases Option.map_eq_some'.mp hr with ⟨x, hx, hxr⟩
    rw [← hxr]
    exact key x hx
  · intro x hx
    rw [← Option.some.inj hx]
    exact forall_mem_append_one P _ _ hh (h4 _)
  · intro t s _ hQ y hy
    cases s with
    | none => simp [fpga_matmul_row] at hy
    | some x =>
      obtain ⟨op, out2, hst⟩ := x
      simp only [fpga_matmul_row] at hy
      split at hy
      · exact absurd hy (by simp)
      · rename_i p hp
        rw [← Option.some.inj hy]
        refine forall_mem_append_one P _ _ (pollLoop_forall D P h1 fuel _ p hp ?_) h2
        exact forall_mem_append_one P _ _ (forall_mem_append_one P _ _ (hQ _ rfl) (h3 _)) h5

theorem exactMatvec_dependsOnSlots : DependsOnSlots (exactMatvec (R := R)) := by
  intro M M2 v v2 hM hv q hq
  simp only [exactMatvec]
  refine Finset.sum_congr rfl (fun c hc => ?_)
  have hc2 : c < SIZE := Finset.mem_range.mp hc
  have h3 : q * SIZE + c < SIZE * SIZE := by
    simp only [SIZE] at hq hc2 ⊢
    omega
  rw [hM _ h3, hv _ hc2]

end TraceLemmas

theorem timespec_sub_isSome (t1 t2 : Timespec)
    (h1 : 0 ≤ t1.tv_nsec ∧ t1.tv_nsec < 1000000000)
    (h2 : 0 ≤ t2.tv_nsec ∧ t2.tv_nsec < 1000000000) : ∃ r, timespec_sub t1 t2 = some r := by
  unfold timespec_sub
  simp only [BILLION]
  rw [if_pos ⟨h1.1, h1.2, h2.1, h2.2⟩]
  by_cases h : t1.tv_nsec - t2.tv_nsec < 0
  · rw [if_pos h]
    exact ⟨_, rfl⟩
  · rw [if_neg h]
    exact ⟨_, rfl⟩

theorem timespec_sub_none (t1 t2 : Timespec) (h : t1.tv_nsec < 0) :
    timespec_sub t1 t2 = none := by
  unfold timespec_sub
  rw [if_neg]
  intro hc
  omega

namespace Channel

/-- In `write_to_channel_verbose` every call of `timespec_sub` receives two clock readings:
with normalized clock readings no assertion of `timespec_sub` fails, and the function
returns whenever `write_to_channel` does. -/
theorem write_to_channel_verbose_returns {σ : Type} (D : CharDevice σ) (channelDevice : String)
    (addr transferSize : Nat) (data : Buf Nat) (clock : Nat → Timespec) (d : σ)
    (hclock : ∀ k, 0 ≤ (clock k).tv_nsec ∧ (clock k).tv_nsec < 1000000000)
    (w : WriteOutcome σ)
    (hw : write_to_channel D channelDevice addr transferSize data d = some w) :
    ∃ ts, write_to_channel_verbose D channelDevice addr transferSize data clock d
      = some (w, ts) := by
  unfold write_to_channel at hw
  unfold write_to_channel_verbose
  by_cases h1 : transferSize ≤ allocationSize transferSize
  · rw [if_pos h1] at hw ⊢
    simp only [] at hw ⊢
    by_cases h2 : (D.write d addr (List.map data (List.range transferSize))).1 % 2 ^ 32
        = (transferSize : Int)
    · rw [if_pos h2] at hw ⊢
      obtain ⟨r1, e1⟩ := timespec_sub_isSome (clock 11) (clock 0) (hclock _) (hclock _)
      obtain ⟨r2, e2⟩ := timespec_sub_isSome (clock 2) (clock 1) (hclock _) (hclock _)
      obtain ⟨r3, e3⟩ := timespec_sub_isSome (clock 4) (clock 3) (hclock _) (hclock _)
      obtain ⟨r4, e4⟩ := timespec_sub_isSome (clock 6) (clock 5) (hclock _) (hclock _)
      obtain ⟨r5, e5⟩ := timespec_sub_isSome (clock 8) (clock 7) (hclock _) (hclock _)
      obtain ⟨r6, e6⟩ := timespec_sub_isSome (clock 10) (clock 9) (hclock _) (hclock _)
      rw [e1, e2, e3, e4, e5, e6]
      simp only [Option.some_bind]
      rw [← Option.some.inj hw]
      exact ⟨_, rfl⟩
    · rw [if_neg h2] at hw
      exact absurd hw (by simp)
  · rw [if_neg h1] at hw
    exact absurd hw (by simp)

/-- In `read_from_channel_verbose` the first call of `timespec_sub` receives the
uninitialised `ts_global_end`: when its `tv_nsec` is negative, the assertion fails. -/
theorem read_from_channel_verbose_aborts {σ : Type} (D : CharDevice σ) (channelDevice : String)
    (addr transferSize : Nat) (output : Buf Nat) (clock : Nat → Timespec)
    (ts_global_end0 : Timespec) (d : σ) (h : ts_global_end0.tv_nsec < 0) :
    read_from_channel_verbose D channelDevice addr transferSize output clock ts_global_end0 d
      = none := by
  unfold read_from_channel_verbose
  by_cases h1 : transferSize ≤ allocationSize transferSize
  · rw [if_pos h1]
    simp only []
    rw [timespec_sub_none _ _ h]
    rfl
  · rw [if_neg h1]

/-- With a normalized value in the uninitialised `ts_global_end` and normalized clock
readings, `read_from_channel_verbose` returns whenever `read_from_channel` does. -/
theorem read_from_channel_verbose_returns {σ : Type} (D : CharDevice σ) (channelDevice : String)
    (addr transferSize : Nat) (output : Buf Nat) (clock : Nat → Timespec)
    (ts_global_end0 : Timespec) (d : σ)
    (hclock : ∀ k, 0 ≤ (clock k).tv_nsec ∧ (clock k).tv_nsec < 1000000000)
    (h0 : 0 ≤ ts_global_end0.tv_nsec ∧ ts_global_end0.tv_nsec < 1000000000)
    (r : ReadOutcome σ)
    (hr : read_from_channel D channelDevice addr transferSize output d = some r) :
    ∃ ts, read_from_channel_verbose D channelDevice addr transferSize output clock
      ts_global_end0 d = some (r, ts) := by
  unfold read_from_channel at hr
  unfold read_from_channel_verbose
  by_cases h1 : transferSize ≤ allocationSize transferSize
  · rw [if_pos h1] at hr ⊢
    simp only [] at hr ⊢
    obtain ⟨r0, e0⟩ := timespec_sub_isSome ts_global_end0 (clock 0) h0 (hclock _)
    obtain ⟨r1, e1⟩ := timespec_sub_isSome (clock 11) (clock 0) (hclock _) (hclock _)
    obtain ⟨r2, e2⟩ := timespec_sub_isSome (clock 2) (clock 1) (hclock _) (hclock _)
    obtain ⟨r3, e3⟩ := timespec_sub_isSome (clock 4) (clock 3) (hclock _) (hclock _)
    obtain ⟨r4, e4⟩ := timespec_sub_isSome (clock 6) (clock 5) (hclock _) (hclock _)
    obtain ⟨r5, e5⟩ := timespec_sub_isSome (clock 8) (clock 7) (hclock _) (hclock _)
    obtain ⟨r6, e6⟩ := timespec_sub_isSome (clock 10) (clock 9) (hclock _) (hclock _)
    rw [e0, e1, e2, e3, e4, e5, e6]
    simp only [Option.some_bind]
    rw [← Option.some.inj hr]
    exact ⟨_, rfl⟩
  · rw [if_neg h1] at hr
    exact absurd hr (by simp)

end Channel

/-! ## The claims on the protocol engine -/

section ClaimsProtocol
variable {R : Type} [CommRing R]

/-- C22: `fpga_matvec_verbose` does not issue the transfers of `fpga_matvec`.  Its result
read goes to `BRAM_ADDR + 4 * (SIZE + SIZE * SIZE)`, the one of `fpga_matvec` to `BRAM_ADDR`.
On an accelerator that leaves the product in the vector slot, with a zero matrix, a zero
vector and a device memory that holds `1` everywhere, `fpga_matvec` returns `0` in
`out_vector[0]` and `fpga_matvec_verbose` returns `1`. -/
theorem C22_fpga_matvec_verbose_reads_other_address :
    ∃ r rv,
      fpga_matvec (slotDevice exactMatvec (fun _ => 0) 0) 1 (fun _ => (0 : Int)) (fun _ => 0)
          (fun _ => 5) { dev := { bram := fun _ => 1, busy := 0, triggers := 0 }, trace := [] }
        = some r ∧
      fpga_matvec_verbose (slotDevice exactMatvec (fun _ => 0) 0) 1 (fun _ => (0 : Int))
          (fun _ => 0) (fun _ => 5)
          { dev := { bram := fun _ => 1, busy := 0, triggers := 0 }, trace := [] }
        = some rv ∧
      r.2.trace.getLast? = some (Transfer.read C2H BRAM_ADDR (4 * SIZE)) ∧
      rv.2.trace.getLast?
        = some (Transfer.read C2H (BRAM_ADDR + 4 * (SIZE + SIZE * SIZE)) (4 * SIZE)) ∧
      BRAM_ADDR ≠ BRAM_ADDR + 4 * (SIZE + SIZE * SIZE) ∧
      r.1 0 = 0 ∧ rv.1 0 = 1 := by
  obtain ⟨r, hr, hval⟩ := slot_fpga_matvec (exactMatvec (R := Int)) exactMatvec_dependsOnSlots
    (fun _ => 0) 0 (by decide) 1 (fun _ => (by decide : 0 < 1)) (fun _ => 0) (fun _ => 0)
    (fun _ => 5) { dev := { bram := fun _ => 1, busy := 0, triggers := 0 }, trace := [] }
  obtain ⟨rv, hrv, hvalv⟩ := slot_fpga_matvec_verbose (exactMatvec (R := Int))
    (fun _ => 0) 0 (by decide) 1 (fun _ => (by decide : 0 < 1)) (fun _ => 0) (fun _ => 0)
    (fun _ => 5) { dev := { bram := fun _ => 1, busy := 0, triggers := 0 }, trace := [] }
  refine ⟨r, rv, hr, hrv, fpga_matvec_last _ 1 _ _ _ _ r hr,
    fpga_matvec_verbose_last _ 1 _ _ _ _ rv hrv, by decide, ?_, ?_⟩
  · rw [hval 0 (by decide)]
    simp [exactMatvec]
  · rw [hvalv 0 (by decide)]

/-- C25: every write of `fpga_matmul` to the control address sends the value `0x5555`, and
there are `SIZE` of them, for every device: whatever the wait loops read back. -/
theorem C25_fpga_matmul_trigger_value {σ : Type} (D : Device σ R) (fuel : Nat) (d : σ)
    (heap in_matrix1 in_matrix2 out_matrix : Buf R) (r : Buf R × Host σ R)
    (hr : fpga_matmul D fuel heap in_matrix1 in_matrix2 out_matrix { dev := d, trace := [] }
      = some r) :
    writesAt IP_ADDR r.2.trace = SIZE ∧
    ∀ t ∈ r.2.trace, ∀ (ch : String) (len : Nat) (data : Payload R),
      t = Transfer.write ch IP_ADDR len data → data = Payload.word 0x5555 ∧ len = 4 := by
  constructor
  · have h := (fpga_matmul_writesAt D fuel heap in_matrix1 in_matrix2 out_matrix _ r hr).2
    rw [h]
    simp [writesAt]
  · refine fpga_matmul_forall D
      (fun t => ∀ (ch : String) (len : Nat) (data : Payload R),
        t = Transfer.write ch IP_ADDR len data → data = Payload.word 0x5555 ∧ len = 4)
      ?_ ?_ ?_ ?_ ?_ fuel heap in_matrix1 in_matrix2 out_matrix _ r hr
      (fun t ht => absurd ht (List.not_mem_nil t))
    · intro ch len data e
      cases e
    · intro ch len data e
      cases e
    · intro b ch len data e
      injection e with _ e2
      exact absurd e2 (by decide)
    · intro b ch len data e
      injection e with _ e2
      exact absurd e2 (by decide)
    · intro ch len data e
      injection e with _ _ e3 e4
      exact ⟨e4.symm, e3.symm⟩

theorem C25_fpga_matmul_trigger_value_witness :
    ∃ r, fpga_matmul (slotDevice exactMatvec (fun _ => 3) 7) 4 (fun _ => (1 : Int))
          (fun k => (k : Int)) (fun k => (k : Int) + 1) (fun _ => 5)
          { dev := { bram := fun _ => 2, busy := 0, triggers := 0 }, trace := [] } = some r ∧
      writesAt IP_ADDR r.2.trace = SIZE ∧
      ∀ t ∈ r.2.trace, ∀ (ch : String) (len : Nat) (data : Payload Int),
        t = Transfer.write ch IP_ADDR len data → data = Payload.word 0x5555 ∧ len = 4 :=
  match slot_fpga_matmul (exactMatvec (R := Int)) (fun _ _ _ _ => rfl) (fun _ => 3) 7
      (by decide) 4 (fun _ => (by decide : 3 < 4)) (fun _ => 1) (fun k => (k : Int))
      (fun k => (k : Int) + 1) (fun _ => 5)
      { dev := { bram := fun _ => 2, busy := 0, triggers := 0 }, trace := [] } with
  | ⟨r, hr, _⟩ =>
    ⟨r, hr, C25_fpga_matmul_trigger_value (slotDevice (exactMatvec (R := Int)) (fun _ => 3) 7) 4
      { bram := fun _ => 2, busy := 0, triggers := 0 } (fun _ => 1) (fun k => (k : Int))
      (fun k => (k : Int) + 1) (fun _ => 5) r hr⟩

end ClaimsProtocol

/-! ## The claims on the tiling engine and on the profiling functions -/

section ClaimsEngine
variable {R : Type} [CommRing R]

/-- C23: the stores of `mat_transpose_naive` reach every index below `num_row * num_col`
exactly once (the list of the indices stored to is a permutation of
`0, ..., num_row * num_col - 1`), the element stored at `j * num_row + i` is
`in_matrix[i * num_col + j]`, and transposing a second time with the dimensions swapped
gives back every element of the input. -/
theorem C23_mat_transpose_naive_transposes (in_matrix t out_matrix : Buf R)
    (num_row num_col i j x : Nat) :
    List.Perm (List.range (num_row * num_col)) (mat_transpose_naive_writes num_row num_col) ∧
    (i < num_row → j < num_col →
      mat_transpose_naive in_matrix out_matrix num_row num_col (j * num_row + i)
        = in_matrix (i * num_col + j)) ∧
    (x < num_row * num_col →
      mat_transpose_naive (mat_transpose_naive in_matrix t num_row num_col) out_matrix
        num_col num_row x = in_matrix x) := by
  refine ⟨mat_transpose_naive_writes_perm num_row num_col, ?_,
    mat_transpose_naive_twice in_matrix t out_matrix num_row num_col x⟩
  intro hi hj
  rw [mat_transpose_naive_apply in_matrix out_matrix num_row num_col i j hi, if_pos hj]

theorem C23_mat_transpose_naive_transposes_witness :
    1 < 2 ∧ 2 < 3 ∧ 5 < 2 * 3 ∧
    mat_transpose_naive (fun k => (k : Int)) (fun _ => 7) 2 3 (2 * 2 + 1)
      = (fun k => (k : Int)) (1 * 3 + 2) ∧
    mat_transpose_naive (mat_transpose_naive (fun k => (k : Int)) (fun _ => 8) 2 3)
      (fun _ => 7) 3 2 5 = (fun k => (k : Int)) 5 :=
  ⟨by decide, by decide, by decide,
    (C23_mat_transpose_naive_transposes (fun k => (k : Int)) (fun _ => 8) (fun _ => 7)
      2 3 1 2 5).2.1 (by decide) (by decide),
    (C23_mat_transpose_naive_transposes (fun k => (k : Int)) (fun _ => 8) (fun _ => 7)
      2 3 1 2 5).2.2 (by decide)⟩

/-- C26, counterexample.  Dimensions that are not negative and whose product fits in an `int`
do not suffice: for `num_row = 2147483647 = INT_MAX` and `num_col = 1` the product is
`INT_MAX`, and the run of `fpga_large_matvec_naive` has no defined result, because after the
pass `i = 2147483584` of the loop over the row tiles the increment `i += SIZE` overflows the
`int` counter. -/
theorem C26_counter_overflow_counterexample :
    (2147483647 : Int) ≤ INT_MAX ∧ (2147483647 : Int) * 1 ≤ INT_MAX ∧
    fpga_large_matvec_naive_accesses 2147483647 1 = none ∧
    ¬ (∃ log, fpga_large_matvec_naive_accesses 2147483647 1 = some log ∧
      ∀ a ∈ log, Access.InBounds (matvecExtent 2147483647 1) a) :=
  ⟨by decide, by decide,
    fpga_large_matvec_naive_accesses_overflow 2147483647 1 (by decide),
    fun h => match h with
      | ⟨_, e, _⟩ => Option.noConfusion
        ((fpga_large_matvec_naive_accesses_overflow 2147483647 1 (by decide)).symm.trans e)⟩

/-- C26, amended: for dimensions that are each at most `INT_MAX - (SIZE - 1)`, so that no
increment `+= SIZE` of a tile counter overflows, and whose products fit in an `int`, the
runs of `fpga_large_matvec_naive` and of `fpga_large_matmul_naive2` are defined (no `int`
computation overflows), and every memory access (the reads of the inputs, the writes to the
tile buffers and to the accumulators, the writes to the output, and the accesses of the
callee to the arrays it is handed) starts at a non-negative index and ends inside its array,
and every `memcpy` copies a non-negative number of at most `SIZE` elements; with inputs of
`num_row * num_col` and `num_col` elements (`num_rowA * num_colA` and `num_colA * num_colB`)
and an output of `num_row` (`num_rowA * num_colB`) elements. -/
theorem C26_tiling_accesses_in_bounds (num_row num_col num_rowA num_colA num_colB : Nat)
    (hrow : (num_row : Int) + (SIZE : Int) - 1 ≤ INT_MAX)
    (hcol : (num_col : Int) + (SIZE : Int) - 1 ≤ INT_MAX)
    (hvec : (num_row : Int) * num_col ≤ INT_MAX)
    (hrowA : (num_rowA : Int) + (SIZE : Int) - 1 ≤ INT_MAX)
    (hcolA : (num_colA : Int) + (SIZE : Int) - 1 ≤ INT_MAX)
    (hcolB : (num_colB : Int) + (SIZE : Int) - 1 ≤ INT_MAX)
    (hA : (num_rowA : Int) * num_colA ≤ INT_MAX)
    (hB : (num_colA : Int) * num_colB ≤ INT_MAX)
    (hout : (num_rowA : Int) * num_colB ≤ INT_MAX) :
    (∃ log, fpga_large_matvec_naive_accesses num_row num_col = some log ∧
      ∀ a ∈ log, Access.InBounds (matvecExtent num_row num_col) a) ∧
    (∃ log, fpga_large_matmul_naive2_accesses num_rowA num_colA num_colB = some log ∧
      ∀ a ∈ log, Access.InBounds (matmulExtent num_rowA num_colA num_colB) a) := by
  simp only [INT_MAX, SIZE] at hrow hcol hvec hrowA hcolA hcolB hA hB hout
  exact ⟨fpga_large_matvec_naive_accesses_defined num_row num_col (by omega) (by omega) hvec,
    fpga_large_matmul_naive2_accesses_defined num_rowA num_colA num_colB (by omega) (by omega)
      (by omega) hA hB hout⟩

theorem C26_tiling_accesses_in_bounds_witness :
    (((65 : Nat) : Int) + (SIZE : Int) - 1 ≤ INT_MAX ∧
      ((70 : Nat) : Int) + (SIZE : Int) - 1 ≤ INT_MAX ∧
      ((66 : Nat) : Int) + (SIZE : Int) - 1 ≤ INT_MAX ∧
      ((65 : Nat) : Int) * (70 : Nat) ≤ INT_MAX ∧ ((70 : Nat) : Int) * (66 : Nat) ≤ INT_MAX ∧
      ((65 : Nat) : Int) * (66 : Nat) ≤ INT_MAX) ∧
    (∃ log, fpga_large_matvec_naive_accesses 65 70 = some log ∧
      ({ region := Region.in_matrix, start := 0, len := (SIZE : Int), copy := true } : Access)
        ∈ log ∧
      ∀ a ∈ log, Access.InBounds (matvecExtent 65 70) a) ∧
    (∃ log, fpga_large_matmul_naive2_accesses 65 70 66 = some log ∧
      ∀ a ∈ log, Access.InBounds (matmulExtent 65 70 66) a) :=
  match C26_tiling_accesses_in_bounds 65 70 65 70 66 (by decide) (by decide) (by decide)
      (by decide) (by decide) (by decide) (by decide) (by decide) (by decide) with
  | ⟨⟨log, e, hb⟩, hm⟩ =>
    ⟨⟨by decide, by decide, by decide, by decide, by decide, by decide⟩,
      ⟨log, e, fpga_large_matvec_naive_accesses_first 65 70 (by decide) (by decide) log e, hb⟩,
      hm⟩

end ClaimsEngine

/-- C28: in `read_from_channel_verbose` the first call of `timespec_sub` receives
`ts_global_end` before any clock reading has set it.  With `tv_nsec = -1` in that
uninitialised variable the assertion `t1->tv_nsec >= 0` fails and the call aborts, for
normalized clock readings and a device on which `read_from_channel` succeeds. -/
theorem C28_read_from_channel_verbose_uninitialised :
    timespec_sub { tv_sec := 0, tv_nsec := -1 } { tv_sec := 0, tv_nsec := 0 } = none ∧
    Channel.read_from_channel_verbose (Channel.fixedRead 4 [1, 2, 3, 4]) C2H BRAM_ADDR 4
        (fun _ => 0) (fun k => { tv_sec := k, tv_nsec := 0 }) { tv_sec := 0, tv_nsec := -1 } ()
      = none ∧
    (Channel.read_from_channel (Channel.fixedRead 4 [1, 2, 3, 4]) C2H BRAM_ADDR 4
        (fun _ => 0) ()).isSome = true := by
  refine ⟨timespec_sub_none _ _ (by decide),
    Channel.read_from_channel_verbose_aborts _ _ _ _ _ _ _ _ (by decide), ?_⟩
  rw [Channel.read_from_channel_some _ _ _ _ _ _ (by norm_num)]
  rfl

/-! ## Lemmas on the exact transfers -/

section ExactTransfers

variable {R : Type} [CommRing R]

/-- The wait loop, when it ends, has issued one or more reads of the control word and
nothing else. -/
theorem pollLoop_trace {σ : Type} (D : Device σ R) :
    ∀ (fuel : Nat) (h : Host σ R) (r : Nat × Host σ R), pollLoop D fuel h = some r →
      ∃ n, r.2.trace = h.trace ++ List.replicate (n + 1) (Transfer.read C2H IP_ADDR 4) := by
  intro fuel
  induction fuel with
  | zero =>
    intro h r hr
    simp [pollLoop] at hr
  | succ fuel ih =>
    intro h r hr
    simp only [pollLoop] at hr
    by_cases hc : (read_word_from_channel D C2H IP_ADDR 4 h).1 ≠ 0x5555
    · rw [if_pos hc] at hr
      rw [← Option.some.inj hr]
      exact ⟨0, rfl⟩
    · rw [if_neg hc] at hr
      obtain ⟨n, hn⟩ := ih _ r hr
      refine ⟨n + 1, ?_⟩
      rw [hn]
      simp only [read_word_from_channel]
      rw [List.append_assoc, List.singleton_append, ← List.replicate_succ]

/-- The transfers of `fpga_innerproduct`, for every device on which it returns. -/
theorem fpga_innerproduct_trace_of_some {σ : Type} (D : Device σ R) (fuel : Nat)
    (in_vector1 in_vector2 out : Buf R) (h : Host σ R) (r : Buf R × Host σ R)
    (hr : fpga_innerproduct D fuel in_vector1 in_vector2 out h = some r) :
    ∃ n, r.2.trace = h.trace
      ++ [Transfer.write H2C BRAM_ADDR (4 * SIZE) (Payload.floats (bufToList SIZE in_vector1)),
          Transfer.write H2C (BRAM_ADDR + 4 * SIZE) (4 * SIZE)
            (Payload.floats (bufToList SIZE in_vector2)),
          Transfer.write H2C IP_ADDR 4 (Payload.word 0x5555)]
      ++ List.replicate (n + 1) (Transfer.read C2H IP_ADDR 4)
      ++ [Transfer.read C2H BRAM_ADDR 4] := by
  simp only [fpga_innerproduct] at hr
  split at hr
  · exact absurd hr (by simp)
  · rename_i p hp
    obtain ⟨n, hn⟩ := pollLoop_trace D fuel _ p hp
    refine ⟨n, ?_⟩
    rw [← Option.some.inj hr]
    simp only [read_floats_from_channel]
    rw [hn]
    simp [write_to_channel]

/-- The transfers of `fpga_matvec`, for every device on which it returns. -/
theorem fpga_matvec_trace_of_some {σ : Type} (D : Device σ R) (fuel : Nat)
    (in_matrix in_vector out_vector : Buf R) (h : Host σ R) (r : Buf R × Host σ R)
    (hr : fpga_matvec D fuel in_matrix in_vector out_vector h = some r) :
    ∃ n, r.2.trace = h.trace
      ++ [Transfer.write H2C BRAM_ADDR (4 * SIZE) (Payload.floats (bufToList SIZE in_vector)),
          Transfer.write H2C (BRAM_ADDR + 4 * SIZE) (4 * SIZE * SIZE)
            (Payload.floats (bufToList (SIZE * SIZE) in_matrix)),
          Transfer.write H2C IP_ADDR 4 (Payload.word 0x5555)]
      ++ List.replicate (n + 1) (Transfer.read C2H IP_ADDR 4)
      ++ [Transfer.read C2H BRAM_ADDR (4 * SIZE)] := by
  simp only [fpga_matvec] at hr
  split at hr
  · exact absurd hr (by simp)
  · rename_i p hp
    obtain ⟨n, hn⟩ := pollLoop_trace D fuel _ p hp
    refine ⟨n, ?_⟩
    rw [← Option.some.inj hr]
    simp only [read_floats_from_channel]
    rw [hn]
    simp [write_to_channel]

theorem fpga_matmul_row_trace_of_some {σ : Type} (D : Device σ R) (fuel : Nat)
    (in_matrix1 : Buf R) (k op : Nat) (out_matrix : Buf R) (h : Host σ R)
    (y : Nat × Buf R × Host σ R)
    (hy : fpga_matmul_row D fuel in_matrix1 k (some (op, out_matrix, h)) = some y) :
    ∃ n, y.2.2.trace = h.trace ++ matmulRowTransfers in_matrix1 k n := by
  simp only [fpga_matmul_row] at hy
  split at hy
  · exact absurd hy (by simp)
  · rename_i p hp
    obtain ⟨n, hn⟩ := pollLoop_trace D fuel _ p hp
    refine ⟨n, ?_⟩
    rw [← Option.some.inj hy]
    simp only [read_floats_from_channel]
    rw [hn]
    simp [write_to_channel, matmulRowTransfers]

/-- The transfers of `fpga_matmul`, for every device on which it returns: the transposed
second matrix once, then for each row the row, the trigger, the reads of the control word
and the read of the result. -/
theorem fpga_matmul_trace_of_some {σ : Type} (D : Device σ R) (fuel : Nat)
    (heap in_matrix1 in_matrix2 out_matrix : Buf R) (h : Host σ R) (r : Buf R × Host σ R)
    (hr : fpga_matmul D fuel heap in_matrix1 in_matrix2 out_matrix h = some r) :
    ∃ polls : List Nat, polls.length = SIZE ∧
      r.2.trace = h.trace
        ++ [Transfer.write H2C (BRAM_ADDR + 4 * SIZE) (4 * SIZE * SIZE)
            (Payload.floats
              (bufToList (SIZE * SIZE) (mat_transpose_naive in_matrix2 heap SIZE SIZE)))]
        ++ ((List.range SIZE).zip polls).flatMap
            (fun p => matmulRowTransfers in_matrix1 p.1 p.2) := by
  simp only [fpga_matmul] at hr
  have key := forLoop_one_induction
    (fun (t : Nat) (s : Option (Nat × Buf R × Host σ R)) =>
      ∀ x, s = some x → ∃ polls : List Nat, polls.length = t ∧
        x.2.2.trace = h.trace
          ++ [Transfer.write H2C (BRAM_ADDR + 4 * SIZE) (4 * SIZE * SIZE)
              (Payload.floats
                (bufToList (SIZE * SIZE) (mat_transpose_naive in_matrix2 heap SIZE SIZE)))]
          ++ ((List.range t).zip polls).flatMap
              (fun p => matmulRowTransfers in_matrix1 p.1 p.2)) SIZE
    (fpga_matmul_row D fuel in_matrix1)
    (some (0x5555, out_matrix,
      write_to_channel D H2C (BRAM_ADDR + 4 * SIZE) (4 * SIZE * SIZE)
        (Payload.floats (bufToList (SIZE * SIZE) (mat_transpose_naive in_matrix2 heap SIZE SIZE)))
        h)) ?_ ?_
  · beta_reduce at key
    rcases Option.map_eq_some'.mp hr with ⟨x, hx, hxr⟩
    rw [← hxr]
    exact key x hx
  · intro x hx
    rw [← Option.some.inj hx]
    exact ⟨[], rfl, by simp [write_to_channel]⟩
  · intro t s _ hP y hy
    cases s with
    | none => simp [fpga_matmul_row] at hy
    | some x =>
      obtain ⟨op, out2, h2⟩ := x
      obtain ⟨polls, hlen, htr⟩ := hP _ rfl
      obtain ⟨n, hn⟩ := fpga_matmul_row_trace_of_some D fuel in_matrix1 t op out2 h2 y hy
      refine ⟨polls ++ [n], by rw [List.length_append, hlen]; rfl, ?_⟩
      rw [hn, htr, List.range_succ,
        List.zip_append (by rw [List.length_range, hlen]), List.flatMap_append]
      simp

theorem slot_fpga_innerproduct_returns (compute : Buf R → Buf R → Buf R)
    (latency : Nat → Nat) (doneCode : Nat) (hdone : doneCode ≠ 0x5555) (fuel : Nat)
    (hf : ∀ n, latency n < fuel) (in_vector1 in_vector2 out : Buf R)
    (h : Host (SlotState R) R) :
    ∃ r, fpga_innerproduct (slotDevice compute latency doneCode) fuel in_vector1 in_vector2
        out h = some r := by
  simp only [fpga_innerproduct, write_to_channel, slot_write_floats, slot_write_trigger]
  rw [slot_pollLoop compute latency doneCode hdone fuel _ (hf _)]
  exact ⟨_, rfl⟩

end ExactTransfers

/-! ## The claim on the address map -/

section ClaimsAddressMap
variable {R : Type} [CommRing R]

/-- C14: `fpga_innerproduct`, `fpga_matvec` and `fpga_matmul` keep to the fixed address map.
Whenever one of them returns, its transfers are exactly these.  The first operand
(`in_vector1`, `in_vector`, row `k` of `in_matrix1`) is written as `4 * SIZE` bytes at
`BRAM_ADDR = 0x40000000`; the second operand (`in_vector2`, `in_matrix`, the transposed
`in_matrix2`) is written at `BRAM_ADDR + 4 * SIZE`; the trigger is written, and the control
word polled at least once, as 4 bytes at `IP_ADDR = 0x43C00000`; the result is read at
`BRAM_ADDR`.  Every transfer respects `Transfer.InAddressMap`.  The byte ranges
`[BRAM_ADDR, BRAM_ADDR + 4 * SIZE)` and
`[BRAM_ADDR + 4 * SIZE, BRAM_ADDR + 4 * SIZE + 4 * SIZE * SIZE)` follow one another without
overlap, the four bytes of the control word lie outside both, and every address and length
stays below `2 ^ 31`, so that no computation overflows 32 bits. -/
theorem C14_fixed_address_map {σ : Type} (D : Device σ R) (fuel : Nat) (d : σ)
    (heap in_matrix1 in_matrix2 in_vector1 in_vector2 out : Buf R) :
    (BRAM_ADDR = 0x40000000 ∧ IP_ADDR = 0x43C00000 ∧
      (∀ x, BRAM_ADDR ≤ x ∧ x < BRAM_ADDR + 4 * SIZE →
        ¬ (BRAM_ADDR + 4 * SIZE ≤ x ∧ x < BRAM_ADDR + 4 * SIZE + 4 * SIZE * SIZE)) ∧
      (∀ x, IP_ADDR ≤ x ∧ x < IP_ADDR + 4 →
        ¬ (BRAM_ADDR ≤ x ∧ x < BRAM_ADDR + 4 * SIZE + 4 * SIZE * SIZE)) ∧
      BRAM_ADDR + 4 * SIZE + 4 * SIZE * SIZE ≤ IP_ADDR ∧ IP_ADDR + 4 < 2 ^ 31) ∧
    (∀ r, fpga_innerproduct D fuel in_vector1 in_vector2 out { dev := d, trace := [] } = some r →
      (∃ n, r.2.trace =
        [Transfer.write H2C BRAM_ADDR (4 * SIZE) (Payload.floats (bufToList SIZE in_vector1)),
          Transfer.write H2C (BRAM_ADDR + 4 * SIZE) (4 * SIZE)
            (Payload.floats (bufToList SIZE in_vector2)),
          Transfer.write H2C IP_ADDR 4 (Payload.word 0x5555)]
        ++ List.replicate (n + 1) (Transfer.read C2H IP_ADDR 4)
        ++ [Transfer.read C2H BRAM_ADDR 4]) ∧
      ∀ t ∈ r.2.trace, Transfer.InAddressMap t) ∧
    (∀ r, fpga_matvec D fuel in_matrix1 in_vector1 out { dev := d, trace := [] } = some r →
      (∃ n, r.2.trace =
        [Transfer.write H2C BRAM_ADDR (4 * SIZE) (Payload.floats (bufToList SIZE in_vector1)),
          Transfer.write H2C (BRAM_ADDR + 4 * SIZE) (4 * SIZE * SIZE)
            (Payload.floats (bufToList (SIZE * SIZE) in_matrix1)),
          Transfer.write H2C IP_ADDR 4 (Payload.word 0x5555)]
        ++ List.replicate (n + 1) (Transfer.read C2H IP_ADDR 4)
        ++ [Transfer.read C2H BRAM_ADDR (4 * SIZE)]) ∧
      ∀ t ∈ r.2.trace, Transfer.InAddressMap t) ∧
    (∀ r, fpga_matmul D fuel heap in_matrix1 in_matrix2 out { dev := d, trace := [] } = some r →
      (∃ polls : List Nat, polls.length = SIZE ∧ r.2.trace =
        [Transfer.write H2C (BRAM_ADDR + 4 * SIZE) (4 * SIZE * SIZE)
          (Payload.floats
            (bufToList (SIZE * SIZE) (mat_transpose_naive in_matrix2 heap SIZE SIZE)))]
        ++ ((List.range SIZE).zip polls).flatMap
            (fun p => matmulRowTransfers in_matrix1 p.1 p.2)) ∧
      ∀ t ∈ r.2.trace, Transfer.InAddressMap t) := by
  refine ⟨⟨rfl, rfl, ?_, ?_, by decide, by decide⟩, ?_, ?_, ?_⟩
  · intro x hx
    simp only [BRAM_ADDR, SIZE] at hx ⊢
    omega
  · intro x hx
    simp only [BRAM_ADDR, IP_ADDR, SIZE] at hx ⊢
    omega
  · intro r hr
    refine ⟨?_, fpga_innerproduct_inAddressMap D fuel in_vector1 in_vector2 out _ r hr
      (fun t ht => absurd ht (List.not_mem_nil t))⟩
    obtain ⟨n, hn⟩ := fpga_innerproduct_trace_of_some D fuel in_vector1 in_vector2 out _ r hr
    exact ⟨n, by rw [hn]; rfl⟩
  · intro r hr
    refine ⟨?_, fpga_matvec_inAddressMap D fuel in_matrix1 in_vector1 out _ r hr
      (fun t ht => absurd ht (List.not_mem_nil t))⟩
    obtain ⟨n, hn⟩ := fpga_matvec_trace_of_some D fuel in_matrix1 in_vector1 out _ r hr
    exact ⟨n, by rw [hn]; rfl⟩
  · intro r hr
    refine ⟨?_, fpga_matmul_inAddressMap D fuel heap in_matrix1 in_matrix2 out _ r hr
      (fun t ht => absurd ht (List.not_mem_nil t))⟩
    obtain ⟨polls, hlen, hn⟩ := fpga_matmul_trace_of_some D fuel heap in_matrix1 in_matrix2 out
      _ r hr
    exact ⟨polls, hlen, by rw [hn]; rfl⟩

theorem C14_fixed_address_map_witness :
    ∃ r1 r2 r3,
      fpga_innerproduct (slotDevice (exactMatvec (R := Int)) (fun _ => 3) 0) 4
          (fun k => (k : Int) + 1) (fun k => (k : Int) + 2) (fun _ => 5)
          { dev := { bram := fun _ => 2, busy := 0, triggers := 0 }, trace := [] } = some r1 ∧
      fpga_matvec (slotDevice (exactMatvec (R := Int)) (fun _ => 3) 0) 4
          (fun k => (k : Int)) (fun k => (k : Int) + 1) (fun _ => 5)
          { dev := { bram := fun _ => 2, busy := 0, triggers := 0 }, trace := [] } = some r2 ∧
      fpga_matmul (slotDevice (exactMatvec (R := Int)) (fun _ => 3) 0) 4 (fun _ => 1)
          (fun k => (k : Int)) (fun k => (k : Int) + 3) (fun _ => 5)
          { dev := { bram := fun _ => 2, busy := 0, triggers := 0 }, trace := [] } = some r3 ∧
      (∃ n, r1.2.trace =
        [Transfer.write H2C BRAM_ADDR (4 * SIZE)
            (Payload.floats (bufToList SIZE (fun k => (k : Int) + 1))),
          Transfer.write H2C (BRAM_ADDR + 4 * SIZE) (4 * SIZE)
            (Payload.floats (bufToList SIZE (fun k => (k : Int) + 2))),
          Transfer.write H2C IP_ADDR 4 (Payload.word 0x5555)]
        ++ List.replicate (n + 1) (Transfer.read C2H IP_ADDR 4)
        ++ [Transfer.read C2H BRAM_ADDR 4]) ∧
      (∃ n, r2.2.trace =
        [Transfer.write H2C BRAM_ADDR (4 * SIZE)
            (Payload.floats (bufToList SIZE (fun k => (k : Int) + 1))),
          Transfer.write H2C (BRAM_ADDR + 4 * SIZE) (4 * SIZE * SIZE)
            (Payload.floats (bufToList (SIZE * SIZE) (fun k => (k : Int)))),
          Transfer.write H2C IP_ADDR 4 (Payload.word 0x5555)]
        ++ List.replicate (n + 1) (Transfer.read C2H IP_ADDR 4)
        ++ [Transfer.read C2H BRAM_ADDR (4 * SIZE)]) ∧
      (∃ polls : List Nat, polls.length = SIZE ∧ r3.2.trace =
        [Transfer.write H2C (BRAM_ADDR + 4 * SIZE) (4 * SIZE * SIZE)
          (Payload.floats
            (bufToList (SIZE * SIZE)
              (mat_transpose_naive (fun k => (k : Int) + 3) (fun _ => 1) SIZE SIZE)))]
        ++ ((List.range SIZE).zip polls).flatMap
            (fun p => matmulRowTransfers (fun k => (k : Int)) p.1 p.2)) :=
  match slot_fpga_innerproduct_returns (exactMatvec (R := Int)) (fun _ => 3) 0 (by decide) 4
      (fun _ => (by decide : 3 < 4)) (fun k => (k : Int) + 1) (fun k => (k : Int) + 2)
      (fun _ => 5) { dev := { bram := fun _ => 2, busy := 0, triggers := 0 }, trace := [] },
    slot_fpga_matvec (exactMatvec (R := Int)) exactMatvec_dependsOnSlots (fun _ => 3) 0
      (by decide) 4 (fun _ => (by decide : 3 < 4)) (fun k => (k : Int))
      (fun k => (k : Int) + 1) (fun _ => 5)
      { dev := { bram := fun _ => 2, busy := 0, triggers := 0 }, trace := [] },
    slot_fpga_matmul (exactMatvec (R := Int)) (fun _ _ _ _ => rfl) (fun _ => 3) 0
      (by decide) 4 (fun _ => (by decide : 3 < 4)) (fun _ => 1) (fun k => (k : Int))
      (fun k => (k : Int) + 3) (fun _ => 5)
      { dev := { bram := fun _ => 2, busy := 0, triggers := 0 }, trace := [] } with
  | ⟨r1, h1⟩, ⟨r2, h2, _⟩, ⟨r3, h3, _⟩ =>
    ⟨r1, r2, r3, h1, h2, h3,
      ((C14_fixed_address_map (slotDevice (exactMatvec (R := Int)) (fun _ => 3) 0) 4
        { bram := fun _ => 2, busy := 0, triggers := 0 } (fun _ => 1) (fun k => (k : Int))
        (fun k => (k : Int) + 3) (fun k => (k : Int) + 1) (fun k => (k : Int) + 2)
        (fun _ => 5)).2.1 r1 h1).1,
      ((C14_fixed_address_map (slotDevice (exactMatvec (R := Int)) (fun _ => 3) 0) 4
        { bram := fun _ => 2, busy := 0, triggers := 0 } (fun _ => 1) (fun k => (k : Int))
        (fun k => (k : Int) + 3) (fun k => (k : Int) + 1) (fun k => (k : Int) + 2)
        (fun _ => 5)).2.2.1 r2 h2).1,
      ((C14_fixed_address_map (slotDevice (exactMatvec (R := Int)) (fun _ => 3) 0) 4
        { bram := fun _ => 2, busy := 0, triggers := 0 } (fun _ => 1) (fun k => (k : Int))
        (fun k => (k : Int) + 3) (fun k => (k : Int) + 1) (fun k => (k : Int) + 2)
        (fun _ => 5)).2.2.2 r3 h3).1⟩

end ClaimsAddressMap

end PcieMamutl
